import Mathlib

/-!
A verification development for the widget toolkit in `asciimatics/widgets.py`
(Frame / Layout / Widget triad).  The Python classes are shallowly embedded:
widget state is a tagged union over the concrete variants, the stateful
methods become pure state-transforming functions, and machine integers are
modelled as `Int`/`Nat` (Python integers are unbounded, so no wrap-around is
needed).  Rendering calls into the external canvas collaborator are outside
the model; only the logical state they read/update (cursor positions, scroll
offsets, focus flags) is kept.
-/

namespace Widgets

/-! ## Events and key codes

`KeyboardEvent` carries an integer `key_code`; any other event kind is opaque
to the widgets.  -/

/-- An input event: a keyboard event with its integer key code, or any
non-keyboard event (which every widget ignores). -/
inductive Event where
  | key (code : Int)
  | nonKeyboard
  deriving DecidableEq

/-- Modelled from the spec: the named key codes of the screen collaborator
(`Screen.KEY_*`, defined outside this repository's core source).  Per the
spec's external-interface section, the recognized control codes are TAB,
BACK_TAB, UP, DOWN, LEFT, RIGHT, HOME, END, BACKSPACE and ENTER/LINE-FEED,
and the printable range is 32..255; the named control codes are distinct
integers outside the printable range and distinct from CR (13) and LF (10). -/
def KEY_HOME : Int := -200

/-- Modelled from the spec: named key code (see `KEY_HOME`). -/
def KEY_END : Int := -201

/-- Modelled from the spec: named key code (see `KEY_HOME`). -/
def KEY_LEFT : Int := -203

/-- Modelled from the spec: named key code (see `KEY_HOME`). -/
def KEY_UP : Int := -204

/-- Modelled from the spec: named key code (see `KEY_HOME`). -/
def KEY_RIGHT : Int := -205

/-- Modelled from the spec: named key code (see `KEY_HOME`). -/
def KEY_DOWN : Int := -206

/-- Modelled from the spec: named key code (see `KEY_HOME`). -/
def KEY_BACK : Int := -300

/-- Modelled from the spec: named key code (see `KEY_HOME`). -/
def KEY_TAB : Int := -301

/-- Modelled from the spec: named key code (see `KEY_HOME`). -/
def KEY_BACK_TAB : Int := -302

/-! ## Widget state

One constructor per concrete `Widget` subclass.  Each carries the
construction-time parameters (initial text, label, options, ...) plus the
mutable interaction state of that variant.  Values are stored in their
post-`reset` representation: per the spec's lifecycle, `reset` runs at attach
time before any event is delivered, so the `None`-valued freshly-constructed
widget is never observed by the operations modelled here (the `mk...`
constructors below bake the attach-time `reset` in). -/

/-- The variant-specific state of a concrete widget.  Strings that the code
edits character-by-character are represented as `List Char`. -/
inductive WState where
  /-- `Label`: static text, never a tab stop. -/
  | labelW (text : String)
  /-- `Divider`: optional rule, never a tab stop. -/
  | divider (drawLine : Bool) (height : Nat)
  /-- `Text`: single-line editor.  `initText` is the construction-time text
  (`_text`), `value`/`column`/`startColumn` are `_value`/`_column`/
  `_start_column`. -/
  | textW (initText : List Char) (lbl : Option String)
      (value : List Char) (column : Nat) (startColumn : Nat)
  /-- `CheckBox`: boolean toggle. -/
  | checkBox (text : String) (lbl : Option String) (value : Bool)
  /-- `RadioButtons`: `options` is the `(display text, value)` list;
  `value` is `_value` (`none` before a successful `reset`). -/
  | radioBtns (options : List (String × Int)) (lbl : Option String)
      (selection : Nat) (value : Option (String × Int))
  /-- `TextBox`: multi-line editor; `value` is the list of lines. -/
  | textBox (initText : List Char) (reqHeight : Nat) (lbl : Option String)
      (value : List (List Char)) (line : Nat) (column : Nat)
      (startLine : Nat) (startColumn : Nat)
  deriving DecidableEq

/-- A widget: the base-class fields that the focus machinery reads
(`is_tab_stop`, `_has_focus`) plus the variant state.  The geometry fields
(`_x`, `_y`, `_w`, `_h`, `_offset`) assigned by `Layout.fix` are modelled
separately (see `fixCols`): event processing and focus traversal never read
them. -/
structure Widg where
  tabStop : Bool
  hasFocus : Bool
  st : WState
  deriving DecidableEq

/-- `Label.__init__`: `tab_stop=False`. -/
def mkLabel (text : String) : Widg := ⟨false, false, .labelW text⟩

/-- `Divider.__init__`: `tab_stop=False`. -/
def mkDivider (drawLine : Bool) (height : Nat) : Widg :=
  ⟨false, false, .divider drawLine height⟩

/-- `Text.__init__` followed by the attach-time `reset` (`_value = _text`,
`_column = len(_text)`). -/
def mkText (text : List Char) (lbl : Option String) : Widg :=
  ⟨true, false, .textW text lbl text text.length 0⟩

/-- `CheckBox.__init__` followed by the attach-time `reset` (`_value = False`). -/
def mkCheckBox (text : String) (lbl : Option String) : Widg :=
  ⟨true, false, .checkBox text lbl false⟩

/-- `RadioButtons.__init__` followed by the attach-time `reset`
(`_selection = 0`, `_value = _options[0]`; on an empty option list the source
raises `IndexError`, modelled as `value = none`). -/
def mkRadioBtns (options : List (String × Int)) (lbl : Option String) : Widg :=
  ⟨true, false, .radioBtns options lbl 0 (options.get? 0)⟩

/-- Python's `str.split("\n")` on a character list: always returns at least
one (possibly empty) line. -/
def splitLines : List Char → List (List Char)
  | [] => [[]]
  | c :: cs =>
    if c = '\n' then [] :: splitLines cs
    else
      match splitLines cs with
      | l :: ls => (c :: l) :: ls
      | [] => [[c]]

/-- `TextBox.__init__` followed by the attach-time `reset`
(`_value = _text.split("\n")`, cursor at the end of the last line). -/
def mkTextBox (text : List Char) (height : Nat) (lbl : Option String) : Widg :=
  ⟨true, false,
    .textBox text height lbl (splitLines text)
      (splitLines text).length.pred
      (((splitLines text).getLast?).getD []).length 0 0⟩

/-! ## Python list primitives

`list.insert` clamps an out-of-range index (inserting at the end);
`list.pop(i)` removes index `i` (raising on an out-of-range index — the
raising case is modelled as "no change" and is unreachable in every theorem
below). -/

/-- Python `list.insert i a`: insert before position `i`, appending when `i`
is past the end. -/
def pyInsert : List α → Nat → α → List α
  | l, 0, a => a :: l
  | [], _ + 1, a => [a]
  | x :: l, n + 1, a => x :: pyInsert l n a

/-- The removal part of Python `list.pop i` (in-range only; out of range the
source raises, modelled as no change). -/
def pyRemove : List α → Nat → List α
  | [], _ => []
  | _ :: l, 0 => l
  | x :: l, n + 1 => x :: pyRemove l n

/-! ## Widget.reset / Widget.process_event -/

/-- `reset` of each concrete variant (the canvas is untouched; note that no
variant clears `_has_focus`). -/
def resetW (w : Widg) : Widg :=
  match w.st with
  | .labelW _ => w
  | .divider _ _ => w
  | .textW t lbl _ _ sc =>
    -- Text.reset: `_value = _text; _column = len(_text)` (start column kept).
    { w with st := .textW t lbl t t.length sc }
  | .checkBox t lbl _ =>
    { w with st := .checkBox t lbl false }
  | .radioBtns opts lbl _ _ =>
    -- RadioButtons.reset: `_selection = 0; _value = _options[0]`
    -- (IndexError on an empty option list, modelled as `none`).
    { w with st := .radioBtns opts lbl 0 (opts.get? 0) }
  | .textBox t h lbl _ _ _ sl sc =>
    -- TextBox.reset: split on newlines, cursor at the end of the last line.
    let v' := splitLines t
    { w with st := .textBox t h lbl v' v'.length.pred ((v'.getLast?).getD []).length sl sc }

/-- `process_event` of each concrete variant: returns the updated widget and
`none` when the event was consumed, or the event itself when refused.
Transcribed branch by branch from the source; spots where Python lets an
index go transiently negative (`max(x - 1, 0)`, `min(x + 1, n - 1)`, the
TextBox LEFT/RIGHT wrap tests) are computed in `Int` and clamped back to
`Nat` exactly where the source clamps. -/
def processW (w : Widg) (e : Event) : Widg × Option Event :=
  match w.st with
  | .labelW _ => (w, some e)
  | .divider _ _ => (w, some e)
  | .textW t lbl v col sc =>
    match e with
    | .nonKeyboard => (w, some e)
    | .key code =>
      if code = KEY_BACK then
        if 0 < col then
          ({ w with st := .textW t lbl (v.take (col - 1) ++ v.drop col) (col - 1) sc }, none)
        else (w, none)
      else if code = KEY_LEFT then
        ({ w with st := .textW t lbl v (max ((col : Int) - 1) 0).toNat sc }, none)
      else if code = KEY_RIGHT then
        ({ w with st := .textW t lbl v (min v.length (col + 1)) sc }, none)
      else if code = KEY_HOME then
        ({ w with st := .textW t lbl v 0 sc }, none)
      else if code = KEY_END then
        ({ w with st := .textW t lbl v v.length sc }, none)
      else if 32 ≤ code ∧ code < 256 then
        let v' := v.take col ++ [Char.ofNat code.toNat] ++ v.drop col
        ({ w with st := .textW t lbl v' (col + 1) sc }, none)
      else (w, some e)
  | .checkBox t lbl val =>
    match e with
    | .nonKeyboard => (w, some e)
    | .key code =>
      if code = 32 ∨ code = 10 ∨ code = 13 then
        ({ w with st := .checkBox t lbl (!val) }, none)
      else (w, some e)
  | .radioBtns opts lbl sel _ =>
    match e with
    | .nonKeyboard => (w, some e)
    | .key code =>
      if code = KEY_UP then
        let sel' := (max ((sel : Int) - 1) 0).toNat
        ({ w with st := .radioBtns opts lbl sel' (opts.get? sel') }, none)
      else if code = KEY_DOWN then
        -- `min(sel + 1, len(options) - 1)`: on an empty option list Python
        -- produces -1 and the subsequent lookup raises; modelled by the
        -- `toNat` clamp plus a `none` value.
        let sel' := (min ((sel : Int) + 1) ((opts.length : Int) - 1)).toNat
        ({ w with st := .radioBtns opts lbl sel' (opts.get? sel') }, none)
      else (w, some e)
  | .textBox t h lbl v line col sl sc =>
    match e with
    | .nonKeyboard => (w, some e)
    | .key code =>
      if code = 10 ∨ code = 13 then
        -- Split the line at the cursor: insert the tail after the current
        -- line, then truncate the current line.
        let v1 := pyInsert v (line + 1) (((v.get? line).getD []).drop col)
        let v2 := v1.set line (((v1.get? line).getD []).take col)
        ({ w with st := .textBox t h lbl v2 (line + 1) 0 sl sc }, none)
      else if code = KEY_BACK then
        if 0 < col then
          let ln := (v.get? line).getD []
          let v' := v.set line (ln.take (col - 1) ++ ln.drop col)
          ({ w with st := .textBox t h lbl v' line (col - 1) sl sc }, none)
        else if 0 < line then
          -- Join with the previous line: `_line -= 1`, cursor to its end,
          -- then `_value[_line] += _value.pop(_line + 1)`.
          let old := (v.get? (line - 1)).getD []
          let popped := (v.get? line).getD []
          let v' := (pyRemove v line).set (line - 1) (old ++ popped)
          ({ w with st := .textBox t h lbl v' (line - 1) old.length sl sc }, none)
        else (w, none)
      else if code = KEY_UP then
        let line' := (max ((line : Int) - 1) 0).toNat
        let len' := ((v.get? line').getD []).length
        ({ w with st := .textBox t h lbl v line' (if len' ≤ col then len' else col) sl sc }, none)
      else if code = KEY_DOWN then
        let line' := (min ((line : Int) + 1) ((v.length : Int) - 1)).toNat
        let len' := ((v.get? line').getD []).length
        ({ w with st := .textBox t h lbl v line' (if len' ≤ col then len' else col) sl sc }, none)
      else if code = KEY_LEFT then
        -- `_column -= 1; if _column < 0: ...` — the transient -1 is the
        -- `col = 0` case here.
        if col = 0 then
          if 0 < line then
            let c' := ((v.get? (line - 1)).getD []).length
            ({ w with st := .textBox t h lbl v (line - 1) c' sl sc }, none)
          else
            ({ w with st := .textBox t h lbl v line 0 sl sc }, none)
        else
          ({ w with st := .textBox t h lbl v line (col - 1) sl sc }, none)
      else if code = KEY_RIGHT then
        -- `_column += 1; if _column > len(line): ...`
        let len0 := ((v.get? line).getD []).length
        if len0 < col + 1 then
          if (line : Int) < (v.length : Int) - 1 then
            ({ w with st := .textBox t h lbl v (line + 1) 0 sl sc }, none)
          else
            ({ w with st := .textBox t h lbl v line len0 sl sc }, none)
        else
          ({ w with st := .textBox t h lbl v line (col + 1) sl sc }, none)
      else if code = KEY_HOME then
        ({ w with st := .textBox t h lbl v line 0 sl sc }, none)
      else if code = KEY_END then
        ({ w with st := .textBox t h lbl v line ((v.get? line).getD []).length sl sc }, none)
      else if 32 ≤ code ∧ code < 256 then
        let ln := (v.get? line).getD []
        let v' := v.set line (ln.take col ++ [Char.ofNat code.toNat] ++ ln.drop col)
        ({ w with st := .textBox t h lbl v' line (col + 1) sl sc }, none)
      else (w, some e)

/-! ## Python indexing

The traversal code indexes lists with `int` indices that are occasionally
negative (`columns[self._live_col]` with `_live_col = -1` picks the last
column, Python-style).  `pyIdx` resolves an index the way Python does; a
completely out-of-range index raises in Python and is modelled by `none`
(every such spot is unreachable under the invariants proved below, where the
enclosing operation is then modelled as a no-op). -/

/-- Resolve a Python list index (negative indices count from the end). -/
def pyIdx (len : Nat) (i : Int) : Option Nat :=
  if 0 ≤ i ∧ i < (len : Int) then some i.toNat
  else if -(len : Int) ≤ i ∧ i < 0 then some ((len : Int) + i).toNat
  else none

/-- Python `l[i]`. -/
def pyGet (l : List α) (i : Int) : Option α :=
  (pyIdx l.length i).bind l.get?

/-- Python `l[i] = f(l[i])` (no-op when the source would raise). -/
def pyModify (l : List α) (i : Int) (f : α → α) : List α :=
  match pyIdx l.length i with
  | some n =>
    match l.get? n with
    | some a => l.set n (f a)
    | none => l
  | none => l

/-- Python `columns[ci][wi]`. -/
def pyGet2 (cols : List (List Widg)) (ci wi : Int) : Option Widg :=
  (pyGet cols ci).bind fun col => pyGet col wi

/-- Update the widget at `columns[ci][wi]`. -/
def modifyAt (cols : List (List Widg)) (ci wi : Int) (f : Widg → Widg) :
    List (List Widg) :=
  pyModify cols ci fun col => pyModify col wi f

/-- `Widget.focus`: sets `_has_focus` (the canvas auto-scroll it also
triggers belongs to the external rendering surface). -/
def focusW (w : Widg) : Widg := { w with hasFocus := true }

/-- `Widget.blur`. -/
def blurW (w : Widg) : Widg := { w with hasFocus := false }

/-! ## Layout state and focus scans -/

/-- `Layout` state: the columns of widgets plus the live-focus cursor
`(_live_col, _live_widget)` and the layout's own `_has_focus` flag.  (The
column-size fractions and the frame back-reference only feed the geometry
computation, modelled separately by `fixCols`.) -/
structure LayoutS where
  columns : List (List Widg)
  hasFocus : Bool
  liveCol : Int
  liveWidget : Int
  deriving DecidableEq

/-- `Layout.__init__` (+ `add_widget` for each widget): cursor starts at
`(_live_col, _live_widget) = (0, -1)`. -/
def mkLayout (cols : List (List Widg)) : LayoutS := ⟨cols, false, 0, -1⟩

/-- The inner widget scan of `_find_next_widget` for `direction = 1`:
`while 0 <= lw < len(col) and not col[lw].is_tab_stop: lw += 1`, started at
a non-negative index.  The loop raises the index by one each iteration, so
the `col.length - i + 1` fuel units passed by `scanFwdN` make the
fuel-exhaustion branch unreachable (`scanFwdN_unfold` recovers the plain
loop recurrence). -/
def scanFwdNAux (col : List Widg) : Nat → Nat → Nat
  | 0, i => i
  | fuel + 1, i =>
    if h : i < col.length then
      if (col.get ⟨i, h⟩).tabStop then i else scanFwdNAux col fuel (i + 1)
    else i

/-- The forward widget scan entered at index `i`. -/
def scanFwdN (col : List Widg) (i : Nat) : Nat :=
  scanFwdNAux col (col.length - i + 1) i

/-- The loop recurrence of the forward widget scan. -/
theorem scanFwdN_unfold (col : List Widg) (i : Nat) :
    scanFwdN col i =
      if h : i < col.length then
        (if (col.get ⟨i, h⟩).tabStop then i else scanFwdN col (i + 1))
      else i := by
  by_cases h : i < col.length
  · rw [dif_pos h, scanFwdN, scanFwdNAux, dif_pos h,
      show col.length - i = col.length - (i + 1) + 1 from by omega]
    rfl
  · rw [dif_neg h, scanFwdN, scanFwdNAux, dif_neg h]

/-- The inner widget scan for `direction = 1` on an arbitrary `int` index (a
negative entry index exits the `0 <= lw` guard immediately). -/
def scanFwd (col : List Widg) (i : Int) : Int :=
  if 0 ≤ i then ((scanFwdN col i.toNat : Nat) : Int) else i

/-- The inner widget scan of `_find_next_widget` for `direction = -1`: the
loop lowers the index by one each iteration, so the `(i + 1).toNat + 1` fuel
units passed by `scanBwd` make the fuel-exhaustion branch unreachable
(`scanBwd_unfold` recovers the plain loop recurrence). -/
def scanBwdAux (col : List Widg) : Nat → Int → Int
  | 0, i => i
  | fuel + 1, i =>
    if h : 0 ≤ i ∧ i < (col.length : Int) then
      if (col.get ⟨i.toNat, by omega⟩).tabStop then i
      else scanBwdAux col fuel (i - 1)
    else i

/-- The backward widget scan entered at index `i`. -/
def scanBwd (col : List Widg) (i : Int) : Int :=
  scanBwdAux col ((i + 1).toNat + 1) i

/-- The loop recurrence of the backward widget scan. -/
theorem scanBwd_unfold (col : List Widg) (i : Int) :
    scanBwd col i =
      if h : 0 ≤ i ∧ i < (col.length : Int) then
        (if (col.get ⟨i.toNat, by omega⟩).tabStop then i else scanBwd col (i - 1))
      else i := by
  by_cases h : 0 ≤ i ∧ i < (col.length : Int)
  · rw [dif_pos h, scanBwd, scanBwdAux, dif_pos h,
      show (i + 1).toNat = (i - 1 + 1).toNat + 1 from by omega]
    rfl
  · rw [dif_neg h, scanBwd, scanBwdAux, dif_neg h]

/-- The column loop of `_find_next_widget(1)` (no `stay_in_col`).  The loop
advances `_live_col` by one each iteration, so `columns.length + 1` fuel
units (what every call site passes) make the fuel-exhaustion branch
unreachable. -/
def findNextF (cols : List (List Widg)) : Nat → Int → Int → Int × Int
  | 0, lc, lw => (lc, lw)
  | fuel + 1, lc, lw =>
    if 0 ≤ lc ∧ lc < (cols.length : Int) then
      let col := (cols.get? lc.toNat).getD []
      let j := scanFwd col (lw + 1)
      if 0 ≤ j ∧ j < (col.length : Int) then
        if (col.get? j.toNat).any (fun w => w.tabStop) then (lc, j)
        else findNextF cols fuel (lc + 1) (-1)
      else findNextF cols fuel (lc + 1) (-1)
    else (lc, lw)

/-- The column loop of `_find_next_widget(-1)` (no `stay_in_col`).  On
column exhaustion the source runs
`self._live_widget = len(self._columns[self._live_col])` with the freshly
decremented `_live_col`, which Python resolves as the last column when
`_live_col` is `-1`. -/
def findNextB (cols : List (List Widg)) : Nat → Int → Int → Int × Int
  | 0, lc, lw => (lc, lw)
  | fuel + 1, lc, lw =>
    if 0 ≤ lc ∧ lc < (cols.length : Int) then
      let col := (cols.get? lc.toNat).getD []
      let j := scanBwd col (lw - 1)
      if 0 ≤ j ∧ j < (col.length : Int) then
        if (col.get? j.toNat).any (fun w => w.tabStop) then (lc, j)
        else
          let lw' := (((pyGet cols (lc - 1)).map List.length).getD 0 : Int)
          findNextB cols fuel (lc - 1) lw'
      else
        let lw' := (((pyGet cols (lc - 1)).map List.length).getD 0 : Int)
        findNextB cols fuel (lc - 1) lw'
    else (lc, lw)

/-- `_find_next_widget(1, stay_in_col=True)`: a single iteration that either
moves to the found in-column tab stop or restores `_live_widget`. -/
def findNextStayF (cols : List (List Widg)) (lc lw : Int) : Int × Int :=
  if 0 ≤ lc ∧ lc < (cols.length : Int) then
    let col := (cols.get? lc.toNat).getD []
    let j := scanFwd col (lw + 1)
    if 0 ≤ j ∧ j < (col.length : Int) then
      if (col.get? j.toNat).any (fun w => w.tabStop) then (lc, j) else (lc, lw)
    else (lc, lw)
  else (lc, lw)

/-- `_find_next_widget(-1, stay_in_col=True)`. -/
def findNextStayB (cols : List (List Widg)) (lc lw : Int) : Int × Int :=
  if 0 ≤ lc ∧ lc < (cols.length : Int) then
    let col := (cols.get? lc.toNat).getD []
    let j := scanBwd col (lw - 1)
    if 0 ≤ j ∧ j < (col.length : Int) then
      if (col.get? j.toNat).any (fun w => w.tabStop) then (lc, j) else (lc, lw)
    else (lc, lw)
  else (lc, lw)

/-- The fuel passed to the column loops (see `findNextF`). -/
def layoutFuel (cols : List (List Widg)) : Nat := cols.length + 1

/-- `Widget.blur` applied at the layout's live cursor. -/
def blurAtCursor (l : LayoutS) : LayoutS :=
  { l with columns := modifyAt l.columns l.liveCol l.liveWidget blurW }

/-- `Widget.focus` applied at the layout's live cursor. -/
def focusAtCursor (l : LayoutS) : LayoutS :=
  { l with columns := modifyAt l.columns l.liveCol l.liveWidget focusW }

/-- `Layout.focus(force_first, force_last)`. -/
def layoutFocus (l : LayoutS) (forceFirst forceLast : Bool) : LayoutS :=
  let l1 : LayoutS := { l with hasFocus := true }
  let l2 : LayoutS :=
    if forceFirst then
      let p := findNextF l1.columns (layoutFuel l1.columns) 0 (-1)
      { l1 with liveCol := p.1, liveWidget := p.2 }
    else if forceLast then
      let lc := (l1.columns.length : Int) - 1
      let lw := (((pyGet l1.columns lc).map List.length).getD 0 : Int)
      let p := findNextB l1.columns (layoutFuel l1.columns) lc lw
      { l1 with liveCol := p.1, liveWidget := p.2 }
    else l1
  focusAtCursor l2

/-- `Layout.blur`. -/
def layoutBlur (l : LayoutS) : LayoutS :=
  { blurAtCursor l with hasFocus := false }

/-- `Layout.process_event`: first refusal to the live widget, then the
TAB / BACK_TAB / DOWN / UP movement keys. -/
def layoutProcessEvent (l : LayoutS) (e : Event) : LayoutS × Option Event :=
  match pyGet2 l.columns l.liveCol l.liveWidget with
  | none => (l, some e)  -- source raises (unreachable under the invariant)
  | some w =>
    let we := processW w e
    let l0 : LayoutS :=
      { l with columns := modifyAt l.columns l.liveCol l.liveWidget fun _ => we.1 }
    match we.2 with
    | none => (l0, none)
    | some e' =>
      match e' with
      | .nonKeyboard => (l0, some e')
      | .key code =>
        if code = KEY_TAB then
          let lb := blurAtCursor l0
          let p := findNextF lb.columns (layoutFuel lb.columns) lb.liveCol lb.liveWidget
          let l1 : LayoutS := { lb with liveCol := p.1, liveWidget := p.2 }
          if (l1.columns.length : Int) ≤ l1.liveCol then
            let q := findNextF l1.columns (layoutFuel l1.columns) 0 (-1)
            ({ l1 with liveCol := q.1, liveWidget := q.2 }, some e')
          else
            (focusAtCursor l1, none)
        else if code = KEY_BACK_TAB then
          let lb := blurAtCursor l0
          let p := findNextB lb.columns (layoutFuel lb.columns) lb.liveCol lb.liveWidget
          let l1 : LayoutS := { lb with liveCol := p.1, liveWidget := p.2 }
          if l1.liveCol < 0 then
            let lc := (l1.columns.length : Int) - 1
            let lw := (((pyGet l1.columns lc).map List.length).getD 0 : Int)
            let q := findNextB l1.columns (layoutFuel l1.columns) lc lw
            ({ l1 with liveCol := q.1, liveWidget := q.2 }, some e')
          else
            (focusAtCursor l1, none)
        else if code = KEY_DOWN then
          let lb := blurAtCursor l0
          let p := findNextStayF lb.columns lb.liveCol lb.liveWidget
          let l1 : LayoutS := { lb with liveCol := p.1, liveWidget := p.2 }
          (focusAtCursor l1, none)
        else if code = KEY_UP then
          let lb := blurAtCursor l0
          let p := findNextStayB lb.columns lb.liveCol lb.liveWidget
          let l1 : LayoutS := { lb with liveCol := p.1, liveWidget := p.2 }
          (focusAtCursor l1, none)
        else (l0, some e')

/-- `Layout.reset`: reset every widget, then re-seek the cursor forward from
`(_live_col, -1)` — note that `_live_col` is *not* reset and no widget is
blurred or focused. -/
def layoutReset (l : LayoutS) : LayoutS :=
  let cols := l.columns.map (List.map resetW)
  let p := findNextF cols (layoutFuel cols) l.liveCol (-1)
  { l with columns := cols, liveCol := p.1, liveWidget := p.2 }

/-! ## Frame state -/

/-- `Frame` state: the stacked layouts and the index `_focus` of the layout
receiving input.  The backing canvas is the external rendering surface. -/
structure FrameS where
  layouts : List LayoutS
  focus : Int
  deriving DecidableEq

/-- `Frame.__init__` (+ `add_layout` for each layout): `_focus = 0`. -/
def mkFrame (layouts : List LayoutS) : FrameS := ⟨layouts, 0⟩

/-- The focus side of `Frame.fix`:
`self._layouts[self._focus].focus(force_first=True)` (the geometry side is
`fixCols` below; it assigns rectangles that event processing never reads). -/
def frameFix (s : FrameS) : FrameS :=
  { s with layouts := pyModify s.layouts s.focus fun l => layoutFocus l true false }

/-- `Frame.reset` (the canvas reset is external). -/
def frameReset (s : FrameS) : FrameS :=
  { s with layouts := s.layouts.map layoutReset }

/-- `Frame.process_event`: first refusal to the focused layout, then the
frame-level TAB / BACK_TAB wraparound. -/
def frameProcessEvent (s : FrameS) (e : Event) : FrameS × Option Event :=
  match pyGet s.layouts s.focus with
  | none => (s, some e)  -- source raises (unreachable under the invariant)
  | some l =>
    let le := layoutProcessEvent l e
    let s0 : FrameS := { s with layouts := pyModify s.layouts s.focus fun _ => le.1 }
    match le.2 with
    | none => (s0, none)
    | some e' =>
      match e' with
      | .nonKeyboard => (s0, some e')
      | .key code =>
        if code = KEY_TAB then
          let s1 : FrameS := { s0 with layouts := pyModify s0.layouts s0.focus layoutBlur }
          let f1 := s1.focus + 1
          let f2 := if (s1.layouts.length : Int) ≤ f1 then 0 else f1
          let s2 : FrameS := { s1 with focus := f2 }
          ({ s2 with layouts := pyModify s2.layouts s2.focus fun l => layoutFocus l true false },
            none)
        else if code = KEY_BACK_TAB then
          let s1 : FrameS := { s0 with layouts := pyModify s0.layouts s0.focus layoutBlur }
          let f1 := s1.focus - 1
          let f2 := if f1 < 0 then (s1.layouts.length : Int) - 1 else f1
          let s2 : FrameS := { s1 with focus := f2 }
          ({ s2 with layouts := pyModify s2.layouts s2.focus fun l => layoutFocus l false true },
            none)
        else (s0, some e')

/-- One `Frame.process_event` call viewed as a state transformer. -/
def evStep (s : FrameS) (e : Event) : FrameS := (frameProcessEvent s e).1

/-- Delivering one forward-tab key. -/
def tabStep (s : FrameS) : FrameS := evStep s (.key KEY_TAB)

/-- Delivering one backward-tab key. -/
def backTabStep (s : FrameS) : FrameS := evStep s (.key KEY_BACK_TAB)

/-! ## Text.update scroll-window reclamp -/

/-- The `_start_column` reclamp performed by `Text.update` (the only logical
state the render method changes):
`width = self._w - self._offset;
 self._start_column = max(0, max(self._column - width + 1,
                                 min(self._start_column, self._column)))`. -/
def textUpdateStartColumn (wTot offset column startColumn : Nat) : Nat :=
  (max 0 (max ((column : Int) - ((wTot : Int) - (offset : Int)) + 1)
    (min (startColumn : Int) (column : Int)))).toNat

/-! ## Recognized key sets

The set of key codes each variant's `process_event` consumes (the branch
conditions of the source, everything else falls through to `return event`). -/

/-- Does this widget variant recognize the event?  (Non-keyboard events are
recognized by no variant.) -/
def recognizes : WState → Event → Bool
  | _, .nonKeyboard => false
  | .labelW _, .key _ => false
  | .divider _ _, .key _ => false
  | .textW _ _ _ _ _, .key code =>
    code == KEY_BACK || code == KEY_LEFT || code == KEY_RIGHT ||
      code == KEY_HOME || code == KEY_END ||
      (decide (32 ≤ code) && decide (code < 256))
  | .checkBox _ _ _, .key code => code == 32 || code == 10 || code == 13
  | .radioBtns _ _ _ _, .key code => code == KEY_UP || code == KEY_DOWN
  | .textBox _ _ _ _ _ _ _ _, .key code =>
    code == 10 || code == 13 || code == KEY_BACK || code == KEY_UP ||
      code == KEY_DOWN || code == KEY_LEFT || code == KEY_RIGHT ||
      code == KEY_HOME || code == KEY_END ||
      (decide (32 ≤ code) && decide (code < 256))

end Widgets

namespace Widgets

/-- C6: for every Text widget with visible width `w - offset ≥ 1` and cursor
column within the value, each update sets `start_column` to exactly
`max(0, max(column - width + 1, min(start_column, column)))`; consequently
the cursor lies inside the visible slice, and when the cursor was already
visible `start_column` is unchanged (minimal scroll). -/
theorem text_update_start_column_reclamp (wTot offset column startColumn : Nat)
    (value : List Char) (hcol : column ≤ value.length)
    (hw : 1 ≤ (wTot : Int) - (offset : Int)) :
    ((textUpdateStartColumn wTot offset column startColumn : Int) =
        max 0 (max ((column : Int) - ((wTot : Int) - (offset : Int)) + 1)
          (min (startColumn : Int) (column : Int))))
    ∧ (textUpdateStartColumn wTot offset column startColumn : Int) ≤ (column : Int)
    ∧ (column : Int) ≤ (textUpdateStartColumn wTot offset column startColumn : Int)
        + ((wTot : Int) - (offset : Int)) - 1
    ∧ (startColumn ≤ column →
        (column : Int) ≤ (startColumn : Int) + ((wTot : Int) - (offset : Int)) - 1 →
        textUpdateStartColumn wTot offset column startColumn = startColumn) := by
  unfold textUpdateStartColumn
  simp only [max_def, min_def]
  refine ⟨?_, ?_, ?_, fun h1 h2 => ?_⟩ <;> split_ifs <;> omega

/-- Witness for `text_update_start_column_reclamp` at a concrete input
(width 10, label offset 2, cursor 3, previous start column 1). -/
theorem text_update_start_column_reclamp_witness :
    (((textUpdateStartColumn 10 2 3 1 : Int) =
        max 0 (max ((3 : Int) - ((10 : Int) - (2 : Int)) + 1)
          (min (1 : Int) (3 : Int))))
      ∧ (textUpdateStartColumn 10 2 3 1 : Int) ≤ (3 : Int)
      ∧ (3 : Int) ≤ (textUpdateStartColumn 10 2 3 1 : Int)
          + ((10 : Int) - (2 : Int)) - 1
      ∧ ((1 : Nat) ≤ 3 →
          (3 : Int) ≤ (1 : Int) + ((10 : Int) - (2 : Int)) - 1 →
          textUpdateStartColumn 10 2 3 1 = 1)) :=
  text_update_start_column_reclamp 10 2 3 1 (List.replicate 5 'a')
    (by decide) (by decide)

/-- C10: a Text widget whose cursor column is 0 consumes a Backspace
(returns `none`) while leaving value and cursor unchanged. -/
theorem text_backspace_at_zero (tab hf : Bool) (t : List Char)
    (lbl : Option String) (v : List Char) (sc : Nat) :
    processW ⟨tab, hf, .textW t lbl v 0 sc⟩ (.key KEY_BACK) =
      (⟨tab, hf, .textW t lbl v 0 sc⟩, none) := by
  simp [processW]

/-- C7: every widget variant returns any event it does not recognize (a
non-keyboard event, or a key code outside the variant's recognized set)
completely unchanged, leaving the widget state untouched. -/
theorem process_event_unrecognized (w : Widg) (e : Event)
    (h : recognizes w.st e = false) : processW w e = (w, some e) := by
  obtain ⟨tab, hf, st⟩ := w
  cases st <;> cases e <;>
    simp_all [recognizes, processW, KEY_BACK, KEY_LEFT, KEY_RIGHT, KEY_HOME,
      KEY_END, KEY_UP, KEY_DOWN]

/-- Witness for `process_event_unrecognized`: a CheckBox refuses the LEFT
arrow key unchanged. -/
theorem process_event_unrecognized_witness :
    processW (mkCheckBox "c" none) (.key KEY_LEFT) =
      (mkCheckBox "c" none, some (.key KEY_LEFT)) :=
  process_event_unrecognized (mkCheckBox "c" none) (.key KEY_LEFT) (by decide)

/-! ## TextBox split/join round trip -/

/-- Splitting line `line` of `v` at column `col` (what the CR/LF branch of
`TextBox.process_event` does to `_value`) and then re-joining the two halves
(what the Backspace-at-column-0 branch does) reconstructs `v`, and the
prefix line has length exactly `col`. -/
theorem split_join_value (v : List (List Char)) (line col : Nat)
    (hl : line < v.length) (hc : col ≤ ((v.get? line).getD []).length) :
    (pyRemove
        ((pyInsert v (line + 1) (((v.get? line).getD []).drop col)).set line
          ((((pyInsert v (line + 1) (((v.get? line).getD []).drop col)).get? line).getD
            []).take col))
        (line + 1)).set line
      (((((pyInsert v (line + 1) (((v.get? line).getD []).drop col)).set line
            ((((pyInsert v (line + 1)
              (((v.get? line).getD []).drop col)).get? line).getD []).take col)).get?
          line).getD []) ++
        ((((pyInsert v (line + 1) (((v.get? line).getD []).drop col)).set line
            ((((pyInsert v (line + 1)
              (((v.get? line).getD []).drop col)).get? line).getD []).take col)).get?
          (line + 1)).getD [])) = v
    ∧ ((((pyInsert v (line + 1) (((v.get? line).getD []).drop col)).set line
          ((((pyInsert v (line + 1)
            (((v.get? line).getD []).drop col)).get? line).getD []).take col)).get?
        line).getD []).length = col := by
  induction v generalizing line with
  | nil => simp at hl
  | cons x vs ih =>
    cases line with
    | zero =>
      simp only [List.get?_cons_zero, Option.getD_some] at hc ⊢
      simp [pyInsert, pyRemove, List.take_append_drop, List.length_take,
        Nat.min_eq_left hc]
    | succ n =>
      simp only [List.get?_cons_succ, List.length_cons] at hl hc ⊢
      have := ih n (by omega) hc
      simpa [pyInsert, pyRemove] using this

/-- The Backspace-at-column-0 branch of `TextBox.process_event` on a
non-first line: join the line onto the previous one, consume the event. -/
theorem textbox_back_join (tab hf : Bool) (t : List Char) (ht : Nat)
    (lbl : Option String) (v : List (List Char)) (line sl sc : Nat)
    (hline : 0 < line) :
    processW ⟨tab, hf, .textBox t ht lbl v line 0 sl sc⟩ (.key KEY_BACK) =
      (⟨tab, hf, .textBox t ht lbl
        ((pyRemove v line).set (line - 1)
          (((v.get? (line - 1)).getD []) ++ ((v.get? line).getD [])))
        (line - 1) ((v.get? (line - 1)).getD []).length sl sc⟩, none) := by
  simp only [processW]
  norm_num [KEY_BACK, KEY_UP, KEY_DOWN, KEY_LEFT, KEY_RIGHT, KEY_HOME, KEY_END,
    hline]

/-- C5: for every TextBox state with the cursor at a valid (line, column),
an Enter (CR or LF) followed by a Backspace restores the value, cursor line
and cursor column exactly; and in the concrete scenario, a TextBox holding
"one\ntwo" with the cursor at the start of "two" has, after one Backspace,
the single-line value ["onetwo"] with the cursor at line 0, column 3. -/
theorem textbox_enter_backspace_roundtrip :
    (∀ (tab hf : Bool) (t : List Char) (ht : Nat) (lbl : Option String)
        (v : List (List Char)) (line col sl sc : Nat) (code : Int),
      code = 10 ∨ code = 13 → line < v.length →
      col ≤ ((v.get? line).getD []).length →
      processW (processW ⟨tab, hf, .textBox t ht lbl v line col sl sc⟩
            (.key code)).1 (.key KEY_BACK) =
        (⟨tab, hf, .textBox t ht lbl v line col sl sc⟩, none))
    ∧ (processW (processW (mkTextBox "one\ntwo".toList 3 none)
          (.key KEY_HOME)).1 (.key KEY_BACK)).1 =
        ⟨true, false, .textBox "one\ntwo".toList 3 none ["onetwo".toList] 0 3 0 0⟩ := by
  constructor
  · intro tab hf t ht lbl v line col sl sc code hcode hl hc
    have hsj := split_join_value v line col hl hc
    have henter : processW ⟨tab, hf, .textBox t ht lbl v line col sl sc⟩
        (.key code) =
        (⟨tab, hf, .textBox t ht lbl
          ((pyInsert v (line + 1) (((v.get? line).getD []).drop col)).set line
            ((((pyInsert v (line + 1)
              (((v.get? line).getD []).drop col)).get? line).getD []).take col))
          (line + 1) 0 sl sc⟩, none) := by
      simp only [processW]
      rw [if_pos hcode]
    rw [henter]
    rw [textbox_back_join _ _ _ _ _ _ _ _ _ (Nat.succ_pos line)]
    simp only [Nat.succ_sub_one, Nat.succ_eq_add_one]
    rw [hsj.1, hsj.2]
  · decide

/-- Witness for `textbox_enter_backspace_roundtrip` at a concrete input:
value `["ab"]`, cursor at line 0 column 1, Enter code 13. -/
theorem textbox_enter_backspace_roundtrip_witness :
    processW (processW ⟨true, false, .textBox [] 3 none [['a', 'b']] 0 1 0 0⟩
        (.key 13)).1 (.key KEY_BACK) =
      (⟨true, false, .textBox [] 3 none [['a', 'b']] 0 1 0 0⟩, none) :=
  textbox_enter_backspace_roundtrip.1 true false [] 3 none [['a', 'b']] 0 1 0 0 13
    (Or.inr rfl) (by decide) (by decide)


/-! ## TextBox cursor invariant -/

/-- `list.insert` always grows the list by one (even past the end). -/
theorem pyInsert_length (l : List α) (n : Nat) (a : α) :
    (pyInsert l n a).length = l.length + 1 := by
  induction l generalizing n with
  | nil => cases n <;> simp [pyInsert]
  | cons x t ih => cases n <;> simp [pyInsert, ih]

/-- `list.pop` at an in-range index shrinks the list by one. -/
theorem pyRemove_length (l : List α) (n : Nat) (h : n < l.length) :
    (pyRemove l n).length = l.length - 1 := by
  induction l generalizing n with
  | nil => simp at h
  | cons x t ih =>
    cases n with
    | zero => simp [pyRemove]
    | succ m =>
      simp only [List.length_cons] at h
      simp [pyRemove, ih m (by omega)]
      omega

/-- The TextBox cursor invariant: the value is a non-empty list of lines,
the cursor line indexes into it, and the cursor column is at most the length
of its line.  (False on the other widget variants.) -/
def tbCursorOK : Widg → Prop
  | ⟨_, _, .textBox _ _ _ v line col _ _⟩ =>
    v ≠ [] ∧ line < v.length ∧ col ≤ ((v.get? line).getD []).length
  | _ => False

/-- One `TextBox.process_event` call preserves the cursor invariant. -/
theorem tbCursorOK_processW (w : Widg) (e : Event) (hw : tbCursorOK w) :
    tbCursorOK (processW w e).1 := by
  obtain ⟨tab, hf, st⟩ := w
  cases st <;> simp only [tbCursorOK] at hw <;> try exact hw.elim
  case textBox t h lbl v line col sl sc =>
  obtain ⟨hne, hl, hc⟩ := hw
  have hpos : 0 < v.length := List.length_pos.mpr hne
  cases e with
  | nonKeyboard => exact ⟨hne, hl, hc⟩
  | key code =>
    by_cases h1 : code = 10 ∨ code = 13
    · -- Enter: split the line
      simp only [processW, if_pos h1]
      refine ⟨?_, ?_, by omega⟩
      · rw [← List.length_pos]
        simp only [List.length_set, pyInsert_length]
        omega
      · simp only [List.length_set, pyInsert_length]
        omega
    · by_cases h2 : code = KEY_BACK
      · by_cases h3 : 0 < col
        · -- Backspace mid-line
          simp only [processW, if_neg h1, if_pos h2, if_pos h3]
          have hset : ((v.set line (((v.get? line).getD []).take (col - 1) ++ ((v.get? line).getD []).drop col)).get? line)
              = some (((v.get? line).getD []).take (col - 1) ++ ((v.get? line).getD []).drop col) :=
            List.get?_set_eq_of_lt _ hl
          refine ⟨?_, by simp only [List.length_set]; exact hl, ?_⟩
          · rw [← List.length_pos]
            simp only [List.length_set]
            omega
          · rw [hset]
            simp only [Option.getD_some, List.length_append, List.length_take,
              List.length_drop]
            omega
        · by_cases h4 : 0 < line
          · -- Backspace at column 0: join with previous line
            simp only [processW, if_neg h1, if_pos h2, if_neg h3, if_pos h4]
            have hlr : (pyRemove v line).length = v.length - 1 := pyRemove_length v line hl
            have hlt : line - 1 < (pyRemove v line).length := by omega
            have hset : (((pyRemove v line).set (line - 1)
                (((v.get? (line - 1)).getD []) ++ ((v.get? line).getD []))).get? (line - 1))
                = some (((v.get? (line - 1)).getD []) ++ ((v.get? line).getD [])) :=
              List.get?_set_eq_of_lt _ hlt
            refine ⟨?_, ?_, ?_⟩
            · rw [← List.length_pos]
              simp only [List.length_set, hlr]
              omega
            · simp only [List.length_set, hlr]
              omega
            · rw [hset]
              simp only [Option.getD_some, List.length_append]
              omega
          · -- Backspace at column 0 of the first line: no-op
            simp only [processW, if_neg h1, if_pos h2, if_neg h3, if_neg h4]
            exact ⟨hne, hl, hc⟩
      · by_cases h5 : code = KEY_UP
        · simp only [processW, if_neg h1, if_neg h2, if_pos h5]
          have hup : ((max ((line : Int) - 1) 0).toNat) < v.length := by
            rw [max_def]; split_ifs <;> omega
          refine ⟨hne, hup, ?_⟩
          split_ifs with hclamp <;> omega
        · by_cases h6 : code = KEY_DOWN
          · simp only [processW, if_neg h1, if_neg h2, if_neg h5, if_pos h6]
            have hdn : ((min ((line : Int) + 1) ((v.length : Int) - 1)).toNat) < v.length := by
              rw [min_def]; split_ifs <;> omega
            refine ⟨hne, hdn, ?_⟩
            split_ifs with hclamp <;> omega
          · by_cases h7 : code = KEY_LEFT
            · simp only [processW, if_neg h1, if_neg h2, if_neg h5, if_neg h6, if_pos h7]
              by_cases h7a : col = 0
              · simp only [if_pos h7a]
                by_cases h7b : 0 < line
                · simp only [if_pos h7b]
                  exact ⟨hne, by omega, le_refl _⟩
                · simp only [if_neg h7b]
                  exact ⟨hne, hl, by omega⟩
              · simp only [if_neg h7a]
                exact ⟨hne, hl, by omega⟩
            · by_cases h8 : code = KEY_RIGHT
              · simp only [processW, if_neg h1, if_neg h2, if_neg h5, if_neg h6, if_neg h7, if_pos h8]
                by_cases h8a : ((v.get? line).getD []).length < col + 1
                · simp only [if_pos h8a]
                  by_cases h8b : (line : Int) < (v.length : Int) - 1
                  · simp only [if_pos h8b]
                    exact ⟨hne, by omega, by omega⟩
                  · simp only [if_neg h8b]
                    exact ⟨hne, hl, le_refl _⟩
                · simp only [if_neg h8a]
                  exact ⟨hne, hl, by omega⟩
              · by_cases h9 : code = KEY_HOME
                · simp only [processW, if_neg h1, if_neg h2, if_neg h5, if_neg h6, if_neg h7,
                    if_neg h8, if_pos h9]
                  exact ⟨hne, hl, by omega⟩
                · by_cases h10 : code = KEY_END
                  · simp only [processW, if_neg h1, if_neg h2, if_neg h5, if_neg h6, if_neg h7,
                      if_neg h8, if_neg h9, if_pos h10]
                    exact ⟨hne, hl, le_refl _⟩
                  · by_cases h11 : 32 ≤ code ∧ code < 256
                    · -- printable insert
                      simp only [processW, if_neg h1, if_neg h2, if_neg h5, if_neg h6, if_neg h7,
                        if_neg h8, if_neg h9, if_neg h10, if_pos h11]
                      have hset : ((v.set line (((v.get? line).getD []).take col ++
                          [Char.ofNat code.toNat] ++ ((v.get? line).getD []).drop col)).get? line)
                          = some (((v.get? line).getD []).take col ++
                            [Char.ofNat code.toNat] ++ ((v.get? line).getD []).drop col) :=
                        List.get?_set_eq_of_lt _ hl
                      refine ⟨?_, by simp only [List.length_set]; exact hl, ?_⟩
                      · rw [← List.length_pos]
                        simp only [List.length_set]
                        omega
                      · rw [hset]
                        simp only [Option.getD_some, List.length_append,
                          List.length_take, List.length_drop, List.length_singleton]
                        omega
                    · simp only [processW, if_neg h1, if_neg h2, if_neg h5, if_neg h6, if_neg h7,
                        if_neg h8, if_neg h9, if_neg h10, if_neg h11]
                      exact ⟨hne, hl, hc⟩

/-- `str.split` always yields at least one line. -/
theorem splitLines_ne_nil (t : List Char) : splitLines t ≠ [] := by
  induction t with
  | nil => simp [splitLines]
  | cons c cs ih =>
    simp only [splitLines]
    split
    · simp
    · split <;> simp

/-- `getLast?` is lookup at the last index. -/
theorem getLast?_eq_get?_pred (l : List α) : l.getLast? = l.get? (l.length - 1) := by
  induction l with
  | nil => rfl
  | cons x t ih =>
    cases t with
    | nil => rfl
    | cons y u =>
      simp only [List.getLast?_cons_cons, ih, List.length_cons, Nat.add_sub_cancel,
        List.get?_cons_succ]

/-- C9: for every TextBox, after `reset` and any subsequent sequence of
events processed by `process_event`, the value is a non-empty list of lines
and the cursor satisfies `line < number of lines` and
`column ≤ length of the cursor's line`. -/
theorem textbox_cursor_invariant (tab hf : Bool) (t : List Char) (ht : Nat)
    (lbl : Option String) (v : List (List Char)) (line col sl sc : Nat)
    (events : List Event) :
    tbCursorOK (events.foldl (fun w e => (processW w e).1)
      (resetW ⟨tab, hf, .textBox t ht lbl v line col sl sc⟩)) := by
  have h0 : tbCursorOK (resetW ⟨tab, hf, .textBox t ht lbl v line col sl sc⟩) := by
    simp only [resetW, tbCursorOK, Nat.pred_eq_sub_one]
    have hne := splitLines_ne_nil t
    have hpos : 0 < (splitLines t).length := List.length_pos.mpr hne
    refine ⟨hne, by omega, ?_⟩
    rw [getLast?_eq_get?_pred]
  have main : ∀ (es : List Event) (w : Widg), tbCursorOK w →
      tbCursorOK (es.foldl (fun w e => (processW w e).1) w) := by
    intro es
    induction es with
    | nil => intro w hw; exact hw
    | cons e rest ih => intro w hw; exact ih _ (tbCursorOK_processW w e hw)
  exact main events _ h0

/-! ## RadioButtons selection and value -/

/-- The `_selection` field of a RadioButtons widget. -/
def radioSelection (w : Widg) : Nat :=
  match w.st with
  | .radioBtns _ _ sel _ => sel
  | _ => 0

/-- The `value` accessor of a RadioButtons widget (the base-class `value`
property simply returns `_value`). -/
def radioValue (w : Widg) : Option (String × Int) :=
  match w.st with
  | .radioBtns _ _ _ v => v
  | _ => none

/-- The RadioButtons state invariant: the selection is in bounds and the
stored value is the option *pair* at the selection index. -/
def radioOK (opts : List (String × Int)) (lbl : Option String) (w : Widg) : Prop :=
  ∃ sel, w.st = .radioBtns opts lbl sel (opts.get? sel) ∧ sel < opts.length

/-- One `RadioButtons.process_event` call preserves the state invariant. -/
theorem radioOK_processW (opts : List (String × Int)) (lbl : Option String)
    (w : Widg) (e : Event) (h : radioOK opts lbl w) :
    radioOK opts lbl (processW w e).1 := by
  obtain ⟨tab, hf, st⟩ := w
  obtain ⟨sel, hst, hlt⟩ := h
  simp only at hst
  subst hst
  cases e with
  | nonKeyboard => exact ⟨sel, rfl, hlt⟩
  | key code =>
    by_cases hup : code = KEY_UP
    · simp only [processW, if_pos hup]
      refine ⟨(max ((sel : Int) - 1) 0).toNat, rfl, ?_⟩
      rw [max_def]; split_ifs <;> omega
    · by_cases hdn : code = KEY_DOWN
      · simp only [processW, if_neg hup, if_pos hdn]
        refine ⟨(min ((sel : Int) + 1) ((opts.length : Int) - 1)).toNat, rfl, ?_⟩
        rw [min_def]; split_ifs <;> omega
      · simp only [processW, if_neg hup, if_neg hdn]
        exact ⟨sel, rfl, hlt⟩

/-- C1 (amended): for a RadioButtons widget built from a non-empty option
list, after `reset` and any sequence of Up/Down key events the selection
index stays within `[0, number of options - 1]` (clamped, no wraparound) and
the `value` accessor returns the *option pair* `(display text, value)` at
the selection index — the source stores the whole pair, not its second
component. -/
theorem radio_selection_bounds_value (opts : List (String × Int))
    (lbl : Option String) (events : List Event) (hne : opts ≠ [])
    (hud : ∀ e ∈ events, e = .key KEY_UP ∨ e = .key KEY_DOWN) :
    radioSelection (events.foldl (fun w e => (processW w e).1)
        (resetW (mkRadioBtns opts lbl))) < opts.length
    ∧ radioValue (events.foldl (fun w e => (processW w e).1)
        (resetW (mkRadioBtns opts lbl))) =
      opts.get? (radioSelection (events.foldl (fun w e => (processW w e).1)
        (resetW (mkRadioBtns opts lbl)))) := by
  have h0 : radioOK opts lbl (resetW (mkRadioBtns opts lbl)) := by
    refine ⟨0, rfl, ?_⟩
    have := List.length_pos.mpr hne
    omega
  have main : ∀ (es : List Event) (w : Widg), radioOK opts lbl w →
      radioOK opts lbl (es.foldl (fun w e => (processW w e).1) w) := by
    intro es
    induction es with
    | nil => intro w hw; exact hw
    | cons e rest ih => intro w hw; exact ih _ (radioOK_processW opts lbl w e hw)
  obtain ⟨sel, hst, hlt⟩ := main events _ h0
  constructor
  · simpa [radioSelection, hst] using hlt
  · simp [radioSelection, radioValue, hst]

/-- Witness for `radio_selection_bounds_value` at a concrete input:
options [("A",1),("B",2)], events Down, Down, Up. -/
theorem radio_selection_bounds_value_witness :
    radioSelection ([Event.key KEY_DOWN, Event.key KEY_DOWN,
        Event.key KEY_UP].foldl (fun w e => (processW w e).1)
        (resetW (mkRadioBtns [("A", 1), ("B", 2)] none))) < 2
    ∧ radioValue ([Event.key KEY_DOWN, Event.key KEY_DOWN,
        Event.key KEY_UP].foldl (fun w e => (processW w e).1)
        (resetW (mkRadioBtns [("A", 1), ("B", 2)] none))) =
      [("A", 1), ("B", 2)].get? (radioSelection ([Event.key KEY_DOWN,
        Event.key KEY_DOWN, Event.key KEY_UP].foldl
        (fun w e => (processW w e).1)
        (resetW (mkRadioBtns [("A", 1), ("B", 2)] none)))) :=
  radio_selection_bounds_value [("A", 1), ("B", 2)] none
    [Event.key KEY_DOWN, Event.key KEY_DOWN, Event.key KEY_UP]
    (by decide) (by decide)

/-- C1 is false as stated: after `reset` the `value` accessor holds the full
`(display text, value)` pair, not the underlying value (the pair's second
component).  Two RadioButtons whose option lists agree on all underlying
values but differ in display text disagree on `value` after reset — which
could not happen if `value` returned the underlying value of the selected
option. -/
theorem radio_value_is_pair_counterexample :
    radioValue (resetW (mkRadioBtns [("A", 7)] none)) = some ("A", 7)
    ∧ [(("A", 7) : String × Int)].map Prod.snd =
        [(("B", 7) : String × Int)].map Prod.snd
    ∧ radioValue (resetW (mkRadioBtns [("A", 7)] none)) ≠
        radioValue (resetW (mkRadioBtns [("B", 7)] none)) := by
  refine ⟨rfl, rfl, ?_⟩
  decide

/-! ## Layout.fix geometry -/

/-- Python `int()` truncation toward zero on a rational. -/
def pyTrunc (q : ℚ) : Int := if q < 0 then ⌈q⌉ else ⌊q⌋

/-- `Widget.label` (`_label`) of each variant; `Label` and `Divider` leave
it `None`. -/
def wLabel : WState → Option String
  | .labelW _ => none
  | .divider _ _ => none
  | .textW _ lbl _ _ _ => lbl
  | .checkBox _ lbl _ => lbl
  | .radioBtns _ lbl _ _ => lbl
  | .textBox _ _ lbl _ _ _ _ _ => lbl

/-- `required_height(offset, width)` of each variant (no variant reads the
arguments). -/
def requiredHeight (st : WState) (off w : Int) : Int :=
  match st with
  | .labelW _ => 2
  | .divider _ h => h
  | .textW _ _ _ _ _ => 1
  | .checkBox _ _ _ => 1
  | .radioBtns opts _ _ _ => opts.length
  | .textBox _ h _ _ _ _ _ _ => h + 2

/-- `0 if w.label is None else len(w.label) + 1`. -/
def labelLen (w : Widg) : Nat :=
  match wLabel w.st with
  | none => 0
  | some s => s.length + 1

/-- The label offset of one column in `Layout.fix`: the maximum label length
over the column's widgets (guarded: 0 for an empty column, where Python's
`max([])` would raise), clamped by `canvas.width * size // 3` (float floor
division).  The outer `int(...)` is the identity because both candidates are
integral. -/
def columnOffset (canvasW : Int) (size : ℚ) (col : List Widg) : Int :=
  let off : Nat := if 0 < col.length then (col.map labelLen).foldr max 0 else 0
  min (off : Int) ⌊(canvasW : ℚ) * size / 3⌋

/-- The column width `int(canvas.width * size)`. -/
def colWidth (canvasW : Int) (size : ℚ) : Int := pyTrunc ((canvasW : ℚ) * size)

/-- One widget rectangle assigned by `widget.set_layout(x, y, offset, w, h)`. -/
structure Geom where
  x : Int
  y : Int
  offset : Int
  w : Int
  h : Int
  deriving DecidableEq

/-- Stack the widgets of one column top-down from `y`, reporting the
rectangles and the next free line. -/
def placeColumn (x off w : Int) : List Widg → Int → List Geom × Int
  | [], y => ([], y)
  | wd :: rest, y =>
    let h := requiredHeight wd.st off w
    let r := placeColumn x off w rest (y + h)
    (⟨x, y, off, w, h⟩ :: r.1, r.2)

/-- The column loop of `Layout.fix`: per column compute the label offset and
width, place the widgets, accumulate `x` and `max_y`.  Returns the geometry
lists, the final `x` and `max_y`. -/
def fixCols (canvasW startY : Int) :
    List (ℚ × List Widg) → Int → Int → List (List Geom) × Int × Int
  | [], x, maxY => ([], x, maxY)
  | (size, col) :: rest, x, maxY =>
    let off := columnOffset canvasW size col
    let w := colWidth canvasW size
    let pc := placeColumn x off w col startY
    let r := fixCols canvasW startY rest (x + w) (max maxY pc.2)
    (pc.1 :: r.1, r.2)

/-- `Layout.fix(start_y)`: the geometry per column and the returned next
free line below the tallest column. -/
def fixLayout (canvasW : Int) (pairs : List (ℚ × List Widg)) (startY : Int) :
    List (List Geom) × Int :=
  let r := fixCols canvasW startY pairs 0 startY
  (r.1, r.2.2)

/-- The x coordinate at which column `j` starts: the summed widths of all
earlier columns (empty ones included). -/
def xAt (canvasW : Int) (pairs : List (ℚ × List Widg)) (j : Nat) : Int :=
  ((pairs.take j).map fun p => colWidth canvasW p.1).sum

/-- The total height of a column's widgets. -/
def heightSum (col : List Widg) : Int :=
  (col.map fun w => requiredHeight w.st 0 0).sum

theorem requiredHeight_const (st : WState) (a b : Int) :
    requiredHeight st a b = requiredHeight st 0 0 := by
  cases st <;> rfl

theorem placeColumn_x (x off w : Int) (col : List Widg) (y : Int) :
    ∀ g ∈ (placeColumn x off w col y).1, g.x = x := by
  induction col generalizing y with
  | nil => simp [placeColumn]
  | cons wd rest ih =>
    intro g hg
    simp only [placeColumn, List.mem_cons] at hg
    rcases hg with h | h
    · rw [h]
    · exact ih _ g h

theorem placeColumn_endY (x off w : Int) (col : List Widg) (y : Int) :
    (placeColumn x off w col y).2 = y + heightSum col := by
  induction col generalizing y with
  | nil => simp [placeColumn, heightSum]
  | cons wd rest ih =>
    simp only [placeColumn, ih, heightSum, List.map_cons, List.sum_cons,
      requiredHeight_const]
    ring

theorem fixCols_x (canvasW startY : Int) (pairs : List (ℚ × List Widg))
    (x maxY : Int) :
    ∀ j gs, (fixCols canvasW startY pairs x maxY).1.get? j = some gs →
      ∀ g ∈ gs, g.x = x + xAt canvasW pairs j := by
  induction pairs generalizing x maxY with
  | nil => intro j gs h; simp [fixCols] at h
  | cons p rest ih =>
    obtain ⟨size, col⟩ := p
    intro j gs h
    cases j with
    | zero =>
      simp only [fixCols, List.get?_cons_zero, Option.some.injEq] at h
      subst h
      intro g hg
      have := placeColumn_x x (columnOffset canvasW size col)
        (colWidth canvasW size) col startY g hg
      simp [xAt, this]
    | succ m =>
      simp only [fixCols, List.get?_cons_succ] at h
      intro g hg
      have := ih (x + colWidth canvasW size) _ m gs h g hg
      simp only [xAt, List.take_succ_cons, List.map_cons, List.sum_cons] at this ⊢
      omega

theorem fixCols_maxY (canvasW startY : Int) (pairs : List (ℚ × List Widg))
    (x maxY : Int) :
    (fixCols canvasW startY pairs x maxY).2.2 =
      (pairs.map fun p => startY + heightSum p.2).foldl max maxY := by
  induction pairs generalizing x maxY with
  | nil => simp [fixCols]
  | cons p rest ih =>
    obtain ⟨size, col⟩ := p
    simp only [fixCols, List.map_cons, List.foldl_cons, ih, placeColumn_endY]

theorem foldl_max_init_le (L : List Int) (b : Int) : b ≤ L.foldl max b := by
  induction L generalizing b with
  | nil => simp
  | cons a l ih => exact le_trans (le_max_left b a) (ih (max b a))

/-- C8: `Layout.fix` on a Layout containing an empty column `k` does not hit
the empty-`max` error (the guard yields label offset 0); the empty column
still contributes its width to the x accumulation for subsequent columns;
and it contributes no height: its end-y is `start_y` and erasing it does not
change the returned offset. -/
theorem layout_fix_empty_column (canvasW : Int) (pairs : List (ℚ × List Widg))
    (startY : Int) (k : Nat) (size : ℚ) (hk : pairs.get? k = some (size, []))
    (hcw : 0 ≤ canvasW) (hs : 0 ≤ size) :
    columnOffset canvasW size [] = 0
    ∧ (∀ j gs, (fixLayout canvasW pairs startY).1.get? j = some gs →
        ∀ g ∈ gs, g.x = xAt canvasW pairs j)
    ∧ xAt canvasW pairs (k + 1) = xAt canvasW pairs k + colWidth canvasW size
    ∧ (placeColumn (xAt canvasW pairs k) (columnOffset canvasW size [])
        (colWidth canvasW size) [] startY).2 = startY
    ∧ (fixLayout canvasW pairs startY).2 =
        (fixLayout canvasW (pairs.eraseIdx k) startY).2 := by
  have hklt : k < pairs.length := by
    by_contra hge
    rw [List.get?_eq_none.mpr (by omega)] at hk
    exact Option.noConfusion hk
  refine ⟨?_, ?_, ?_, rfl, ?_⟩
  · -- empty column: guarded offset is 0, and the width clamp is nonnegative
    have hq : (0 : ℚ) ≤ (canvasW : ℚ) * size / 3 := by positivity
    simp only [columnOffset, List.length_nil, lt_irrefl, if_false, Nat.cast_zero]
    exact min_eq_left (Int.floor_nonneg.mpr hq)
  · intro j gs h g hg
    have := fixCols_x canvasW startY pairs 0 startY j gs h g hg
    simpa using this
  · have hx : pairs[k]? = some (size, ([] : List Widg)) := by
      rw [← List.get?_eq_getElem?]; exact hk
    rw [xAt, List.take_succ, hx]
    simp [xAt, colWidth]
  · -- the empty column's end-y term is startY and drops out of the max fold
    have hx : pairs[k]? = some (size, ([] : List Widg)) := by
      rw [← List.get?_eq_getElem?]; exact hk
    have hgk : pairs[k] = (size, ([] : List Widg)) :=
      (Option.some_inj.mp (hx.symm.trans (List.getElem?_eq_getElem hklt))).symm
    have hsplit : pairs = pairs.take k ++ (size, ([] : List Widg)) :: pairs.drop (k + 1) := by
      conv_lhs => rw [← List.take_append_drop k pairs, List.drop_eq_getElem_cons hklt, hgk]
    simp only [fixLayout, fixCols_maxY]
    rw [List.eraseIdx_eq_take_drop_succ]
    conv_lhs => rw [hsplit]
    simp only [List.map_append, List.map_cons, List.foldl_append, List.foldl_cons]
    have hfc : startY + heightSum ([] : List Widg) = startY := by simp [heightSum]
    rw [hfc, max_eq_left (foldl_max_init_le _ _)]

/-- Witness for `layout_fix_empty_column`: canvas width 40, an empty first
column and a second column holding one CheckBox, both of weight-fraction 1. -/
theorem layout_fix_empty_column_witness :
    columnOffset 40 1 [] = 0
    ∧ (∀ j gs, (fixLayout 40 [((1 : ℚ), []), ((1 : ℚ),
          [mkCheckBox "c" none])] 0).1.get? j = some gs →
        ∀ g ∈ gs, g.x = xAt 40 [((1 : ℚ), []), ((1 : ℚ),
          [mkCheckBox "c" none])] j)
    ∧ xAt 40 [((1 : ℚ), []), ((1 : ℚ), [mkCheckBox "c" none])] (0 + 1) =
        xAt 40 [((1 : ℚ), []), ((1 : ℚ), [mkCheckBox "c" none])] 0 +
          colWidth 40 1
    ∧ (placeColumn (xAt 40 [((1 : ℚ), []), ((1 : ℚ),
          [mkCheckBox "c" none])] 0) (columnOffset 40 1 [])
        (colWidth 40 1) [] 0).2 = 0
    ∧ (fixLayout 40 [((1 : ℚ), []), ((1 : ℚ),
          [mkCheckBox "c" none])] 0).2 =
      (fixLayout 40 ([((1 : ℚ), []), ((1 : ℚ),
          [mkCheckBox "c" none])].eraseIdx 0) 0).2 :=
  layout_fix_empty_column 40 [((1 : ℚ), []), ((1 : ℚ),
    [mkCheckBox "c" none])] 0 0 1 rfl (by decide) (by decide)

/-! ## Focus-traversal machinery -/

def colTabs : List Widg → List Nat
  | [] => []
  | w :: ws =>
    if w.tabStop then 0 :: (colTabs ws).map (· + 1) else (colTabs ws).map (· + 1)

def firstTab : List Widg → Option Nat
  | [] => none
  | w :: ws => if w.tabStop then some 0 else (firstTab ws).map (· + 1)

def lastTab : List Widg → Option Nat
  | [] => none
  | w :: ws =>
    match lastTab ws with
    | some j => some (j + 1)
    | none => if w.tabStop then some 0 else none

theorem firstTab_eq_head (ws : List Widg) : firstTab ws = (colTabs ws).head? := by
  induction ws with
  | nil => rfl
  | cons w rest ih =>
    simp only [firstTab, colTabs]
    split_ifs with h
    · rfl
    · rw [ih]
      cases colTabs rest <;> rfl

theorem lastTab_eq_getLast (ws : List Widg) : lastTab ws = (colTabs ws).getLast? := by
  induction ws with
  | nil => rfl
  | cons w rest ih =>
    simp only [lastTab, colTabs, ih]
    cases hc : colTabs rest with
    | nil => split_ifs <;> simp
    | cons a l =>
      split_ifs with h <;> simp [List.getLast?_cons, List.getLast?_map]

theorem mem_colTabs (ws : List Widg) (j : Nat) :
    j ∈ colTabs ws ↔ ∃ w, ws.get? j = some w ∧ w.tabStop := by
  induction ws generalizing j with
  | nil => simp [colTabs]
  | cons w rest ih =>
    cases j with
    | zero =>
      simp only [colTabs, List.get?_cons_zero]
      split_ifs with h
      · simp [h]
      · constructor
        · intro hmem
          simp only [List.mem_map] at hmem
          obtain ⟨a, _, ha⟩ := hmem
          omega
        · rintro ⟨w', hw', ht⟩
          cases hw'
          simp_all
    | succ m =>
      simp only [colTabs, List.get?_cons_succ]
      have base : m + 1 ∈ (colTabs rest).map (· + 1) ↔
          ∃ w, rest.get? m = some w ∧ w.tabStop := by
        rw [← ih m]
        constructor
        · intro hmem
          simp only [List.mem_map] at hmem
          obtain ⟨a, ha, hm⟩ := hmem
          obtain rfl : a = m := by omega
          exact ha
        · intro hx
          exact List.mem_map.mpr ⟨m, hx, rfl⟩
      split_ifs with h
      · rw [List.mem_cons]
        constructor
        · rintro (hc | hmem)
          · omega
          · exact base.mp hmem
        · intro hx
          exact Or.inr (base.mpr hx)
      · exact base

end Widgets

namespace Widgets

/-- The first tab-stop index at or after `s`. -/
def firstTabFrom (ws : List Widg) (s : Nat) : Option Nat :=
  (firstTab (ws.drop s)).map (· + s)

theorem head?_eq_get?_zero (l : List α) : l.head? = l.get? 0 := by
  cases l <;> rfl

theorem firstTabFrom_zero (ws : List Widg) : firstTabFrom ws 0 = firstTab ws := by
  simp [firstTabFrom]

theorem firstTabFrom_cons_succ (w : Widg) (ws : List Widg) (s : Nat) :
    firstTabFrom (w :: ws) (s + 1) = (firstTabFrom ws s).map (· + 1) := by
  simp only [firstTabFrom, List.drop_succ_cons, Option.map_map]
  have hcomp : ((fun x => x + 1) ∘ fun x : Nat => x + s) = fun x : Nat => x + (s + 1) := by
    funext x
    simp only [Function.comp_apply]
    omega
  rw [hcomp]

/-- Stepping forward within a column: scanning from just after the tab stop
at position `k` of `colTabs` finds exactly position `k + 1` (or nothing). -/
theorem colTabs_succ (ws : List Widg) (k j : Nat)
    (h : (colTabs ws).get? k = some j) :
    firstTabFrom ws (j + 1) = (colTabs ws).get? (k + 1) := by
  induction ws generalizing k j with
  | nil => simp [colTabs] at h
  | cons w rest ih =>
    by_cases ht : w.tabStop
    · simp only [colTabs, if_pos ht] at h ⊢
      cases k with
      | zero =>
        simp only [List.get?_cons_zero, Option.some.injEq] at h
        subst h
        simp [firstTabFrom_cons_succ, firstTabFrom_zero, firstTab_eq_head,
          head?_eq_get?_zero, List.get?_map]
      | succ m =>
        simp only [List.get?_cons_succ, List.get?_map] at h
        obtain ⟨j', hj', rfl⟩ : ∃ j', (colTabs rest).get? m = some j' ∧ j = j' + 1 := by
          cases hg : (colTabs rest).get? m with
          | none => rw [hg] at h; exact absurd h (by simp)
          | some a => rw [hg] at h; exact ⟨a, rfl, by simpa using h.symm⟩
        rw [firstTabFrom_cons_succ, ih m j' hj', List.get?_cons_succ, List.get?_map]
    · simp only [colTabs, if_neg ht] at h ⊢
      simp only [List.get?_map] at h
      obtain ⟨j', hj', rfl⟩ : ∃ j', (colTabs rest).get? k = some j' ∧ j = j' + 1 := by
        cases hg : (colTabs rest).get? k with
        | none => rw [hg] at h; exact absurd h (by simp)
        | some a => rw [hg] at h; exact ⟨a, rfl, by simpa using h.symm⟩
      rw [firstTabFrom_cons_succ, ih k j' hj', List.get?_map]

/-- Before the first tab stop of a column there is no tab stop. -/
theorem lastTab_take_first (ws : List Widg) (j : Nat)
    (h : (colTabs ws).get? 0 = some j) :
    lastTab (ws.take j) = none := by
  induction ws generalizing j with
  | nil => simp [colTabs] at h
  | cons w rest ih =>
    by_cases ht : w.tabStop
    · simp only [colTabs, if_pos ht, List.get?_cons_zero, Option.some.injEq] at h
      subst h
      rfl
    · simp only [colTabs, if_neg ht, List.get?_map] at h
      obtain ⟨j', hj', rfl⟩ : ∃ j', (colTabs rest).get? 0 = some j' ∧ j = j' + 1 := by
        cases hg : (colTabs rest).get? 0 with
        | none => rw [hg] at h; exact absurd h (by simp)
        | some a => rw [hg] at h; exact ⟨a, rfl, by simpa using h.symm⟩
      simp only [List.take_succ_cons, lastTab, ih j' hj', if_neg ht]

/-- Stepping backward within a column: the last tab stop strictly before the
tab stop at position `k + 1` of `colTabs` is position `k`. -/
theorem colTabs_pred (ws : List Widg) (k j : Nat)
    (h : (colTabs ws).get? (k + 1) = some j) :
    lastTab (ws.take j) = (colTabs ws).get? k := by
  induction ws generalizing k j with
  | nil => simp [colTabs] at h
  | cons w rest ih =>
    by_cases ht : w.tabStop
    · simp only [colTabs, if_pos ht] at h ⊢
      simp only [List.get?_cons_succ, List.get?_map] at h
      obtain ⟨j', hj', rfl⟩ : ∃ j', (colTabs rest).get? k = some j' ∧ j = j' + 1 := by
        cases hg : (colTabs rest).get? k with
        | none => rw [hg] at h; exact absurd h (by simp)
        | some a => rw [hg] at h; exact ⟨a, rfl, by simpa using h.symm⟩
      cases k with
      | zero =>
        simp only [List.take_succ_cons, lastTab, lastTab_take_first rest j' hj',
          if_pos ht, List.get?_cons_zero]
      | succ m =>
        have hsm : ∃ j'', (colTabs rest).get? m = some j'' := by
          have hlen : m + 1 < (colTabs rest).length :=
            (List.get?_eq_some.mp hj').1
          exact ⟨_, List.get?_eq_get (by omega)⟩
        obtain ⟨j'', hj''⟩ := hsm
        simp only [List.take_succ_cons, lastTab, ih m j' hj', hj'',
          List.get?_cons_succ, List.get?_map, Option.map_some']
    · simp only [colTabs, if_neg ht] at h ⊢
      simp only [List.get?_map] at h
      obtain ⟨j', hj', rfl⟩ : ∃ j', (colTabs rest).get? (k + 1) = some j' ∧ j = j' + 1 := by
        cases hg : (colTabs rest).get? (k + 1) with
        | none => rw [hg] at h; exact absurd h (by simp)
        | some a => rw [hg] at h; exact ⟨a, rfl, by simpa using h.symm⟩
      have hsm : ∃ j'', (colTabs rest).get? k = some j'' := by
        have hlen : k + 1 < (colTabs rest).length :=
          (List.get?_eq_some.mp hj').1
        exact ⟨_, List.get?_eq_get (by omega)⟩
      obtain ⟨j'', hj''⟩ := hsm
      simp only [List.take_succ_cons, lastTab, ih k j' hj', hj'', List.get?_map,
        Option.map_some']

/-- All tab-stop positions `(column, widget)` of a layout, in forward
traversal (lexicographic) order. -/
def layoutTabs : List (List Widg) → List (Nat × Nat)
  | [] => []
  | ws :: rest =>
    (colTabs ws).map ((0, ·)) ++ (layoutTabs rest).map (fun p => (p.1 + 1, p.2))

/-- The first tab-stop position of a layout. -/
def firstTabPos : List (List Widg) → Option (Nat × Nat)
  | [] => none
  | ws :: rest =>
    match firstTab ws with
    | some j => some (0, j)
    | none => (firstTabPos rest).map fun p => (p.1 + 1, p.2)

/-- The last tab-stop position of a layout. -/
def lastTabPos : List (List Widg) → Option (Nat × Nat)
  | [] => none
  | ws :: rest =>
    match lastTabPos rest with
    | some p => some (p.1 + 1, p.2)
    | none => (lastTab ws).map ((0, ·))

/-- The forward target of the layout scan from column `lc`, widget index at
least `s`: the first tab stop at `(lc, j)` with `j ≥ s`, else the first tab
stop in a later column. -/
def nextPosF (cols : List (List Widg)) (lc s : Nat) : Option (Nat × Nat) :=
  match cols.get? lc with
  | none => none
  | some ws =>
    match firstTabFrom ws s with
    | some j => some (lc, j)
    | none => (firstTabPos (cols.drop (lc + 1))).map fun p => (p.1 + (lc + 1), p.2)

/-- The backward target of the layout scan from column `lc`, widget index
strictly below `e`: the last tab stop at `(lc, j)` with `j < e`, else the
last tab stop in an earlier column. -/
def prevPosB (cols : List (List Widg)) (lc e : Nat) : Option (Nat × Nat) :=
  match cols.get? lc with
  | none => none
  | some ws =>
    match lastTab (ws.take e) with
    | some j => some (lc, j)
    | none => lastTabPos (cols.take lc)

theorem firstTabPos_eq_head (cols : List (List Widg)) :
    firstTabPos cols = (layoutTabs cols).head? := by
  induction cols with
  | nil => rfl
  | cons ws rest ih =>
    simp only [firstTabPos, layoutTabs, firstTab_eq_head]
    cases hc : colTabs ws with
    | nil => simp [hc, ih, head?_eq_get?_zero, List.get?_map]
    | cons a l => simp [hc]

theorem lastTabPos_eq_getLast (cols : List (List Widg)) :
    lastTabPos cols = (layoutTabs cols).getLast? := by
  induction cols with
  | nil => rfl
  | cons ws rest ih =>
    simp only [lastTabPos, layoutTabs, ih]
    cases hr : (layoutTabs rest).getLast? with
    | some p =>
      have hne : layoutTabs rest ≠ [] := by
        intro hnil
        rw [hnil] at hr
        exact Option.noConfusion hr
      have hne' : (layoutTabs rest).map (fun p => (p.1 + 1, p.2)) ≠ [] := by
        simpa using hne
      rw [List.getLast?_append_of_ne_nil _ hne', List.getLast?_map, hr]
      rfl
    | none =>
      have hnil : layoutTabs rest = [] := List.getLast?_eq_none_iff.mp hr
      simp [hnil, lastTab_eq_getLast, List.getLast?_map]

theorem mem_layoutTabs (cols : List (List Widg)) (ci wi : Nat) :
    (ci, wi) ∈ layoutTabs cols ↔
      ∃ ws, cols.get? ci = some ws ∧ wi ∈ colTabs ws := by
  induction cols generalizing ci with
  | nil => simp [layoutTabs]
  | cons ws rest ih =>
    simp only [layoutTabs, List.mem_append, List.mem_map]
    cases ci with
    | zero =>
      simp only [List.get?_cons_zero]
      constructor
      · rintro (⟨a, ha, hp⟩ | ⟨p, hp, he⟩)
        · have ha2 : a = wi := congrArg Prod.snd hp
          subst ha2
          exact ⟨ws, rfl, ha⟩
        · exact absurd (congrArg Prod.fst he) (by simp)
      · rintro ⟨ws', hws', hm⟩
        cases hws'
        exact Or.inl ⟨wi, hm, rfl⟩
    | succ c =>
      simp only [List.get?_cons_succ]
      constructor
      · rintro (⟨a, ha, hp⟩ | ⟨p, hp, he⟩)
        · exact absurd (congrArg Prod.fst hp) (by simp)
        · obtain ⟨hc, hw⟩ : p.1 = c ∧ p.2 = wi := by
            have h1 := congrArg Prod.fst he
            have h2 := congrArg Prod.snd he
            simp at h1 h2
            exact ⟨by omega, h2⟩
          refine (ih c).mp ?_
          have : p = (c, wi) := by
            cases p
            simp_all
          rwa [this] at hp
      · intro hx
        refine Or.inr ⟨(c, wi), (ih c).mpr hx, rfl⟩

theorem nextPosF_cons_succ (ws : List Widg) (rest : List (List Widg))
    (c s : Nat) :
    nextPosF (ws :: rest) (c + 1) s =
      (nextPosF rest c s).map fun p => (p.1 + 1, p.2) := by
  simp only [nextPosF, List.get?_cons_succ]
  cases hg : rest.get? c with
  | none => rfl
  | some ws' =>
    cases hf : firstTabFrom ws' s with
    | some j =>
      simp only [hf]
      rfl
    | none =>
      simp only [hf, List.drop_succ_cons, Option.map_map]
      have hcomp : ((fun p => (p.1 + 1, p.2)) ∘ fun p : Nat × Nat => (p.1 + (c + 1), p.2))
          = fun p : Nat × Nat => (p.1 + (c + 1 + 1), p.2) := by
        funext p
        obtain ⟨p1, p2⟩ := p
        show (p1 + (c + 1) + 1, p2) = (p1 + (c + 1 + 1), p2)
        rw [Nat.add_assoc]
      rw [hcomp]

theorem prevPosB_cons_succ (ws : List Widg) (rest : List (List Widg))
    (c e : Nat) (hc : c < rest.length) :
    prevPosB (ws :: rest) (c + 1) e =
      match prevPosB rest c e with
      | some p => some (p.1 + 1, p.2)
      | none => (lastTab ws).map ((0, ·)) := by
  obtain ⟨ws', hg⟩ : ∃ ws', rest.get? c = some ws' := ⟨_, List.get?_eq_get hc⟩
  simp only [prevPosB, List.get?_cons_succ, hg]
  cases hf : lastTab (ws'.take e) with
  | some j => simp only [hf]
  | none =>
    simp only [hf, List.take_succ_cons, lastTabPos]

/-- Forward step: from the tab stop at index `k` of `layoutTabs`, the scan
target is the tab stop at index `k + 1` (or nothing after the last one). -/
theorem layoutTabs_succ (cols : List (List Widg)) (k ci wi : Nat)
    (h : (layoutTabs cols).get? k = some (ci, wi)) :
    nextPosF cols ci (wi + 1) = (layoutTabs cols).get? (k + 1) := by
  induction cols generalizing k ci with
  | nil => simp [layoutTabs] at h
  | cons ws rest ih =>
    have hlenA : ((colTabs ws).map ((0, ·) : Nat → Nat × Nat)).length =
        (colTabs ws).length := List.length_map _ _
    cases ci with
    | zero =>
      have hklt : k < (colTabs ws).length := by
        by_contra hge
        push_neg at hge
        rw [layoutTabs, List.get?_append_right (by omega), List.get?_map] at h
        cases hg : (layoutTabs rest).get? (k - ((colTabs ws).map ((0, ·) : Nat → Nat × Nat)).length) with
        | none => rw [hg] at h; exact Option.noConfusion h
        | some p =>
          rw [hg] at h
          have := congrArg Prod.fst (Option.some.inj h)
          simp at this
      have hcw : (colTabs ws).get? k = some wi := by
        rw [layoutTabs, List.get?_append (by omega), List.get?_map] at h
        cases hg : (colTabs ws).get? k with
        | none => rw [hg] at h; exact Option.noConfusion h
        | some a =>
          rw [hg] at h
          have ha : a = wi := by
            have := congrArg Prod.snd (Option.some.inj h)
            simpa using this
          rw [ha]
      have hstep := colTabs_succ ws k wi hcw
      cases hnext : (colTabs ws).get? (k + 1) with
      | some j =>
        rw [hnext] at hstep
        have hlt2 : k + 1 < (colTabs ws).length := (List.get?_eq_some.mp hnext).1
        simp only [nextPosF, List.get?_cons_zero, hstep, layoutTabs]
        rw [List.get?_append (by omega), List.get?_map, hnext]
        rfl
      | none =>
        rw [hnext] at hstep
        have hge2 : (colTabs ws).length ≤ k + 1 := List.get?_eq_none.mp hnext
        simp only [nextPosF, List.get?_cons_zero, hstep, layoutTabs]
        rw [List.get?_append_right (by omega), List.get?_map]
        have hk1 : k + 1 - ((colTabs ws).map ((0, ·) : Nat → Nat × Nat)).length = 0 := by
          omega
        rw [hk1, ← head?_eq_get?_zero, ← firstTabPos_eq_head]
        have : List.drop (0 + 1) (ws :: rest) = rest := by simp
        rw [this]
    | succ c =>
      have hge : (colTabs ws).length ≤ k := by
        by_contra hlt
        push_neg at hlt
        rw [layoutTabs, List.get?_append (by omega), List.get?_map] at h
        cases hg : (colTabs ws).get? k with
        | none => rw [hg] at h; exact Option.noConfusion h
        | some a =>
          rw [hg] at h
          have := congrArg Prod.fst (Option.some.inj h)
          simp at this
      rw [layoutTabs, List.get?_append_right (by omega), List.get?_map] at h
      obtain ⟨p, hp, hpe⟩ : ∃ p, (layoutTabs rest).get?
          (k - ((colTabs ws).map ((0, ·) : Nat → Nat × Nat)).length) = some p ∧
          (p.1 + 1, p.2) = (c + 1, wi) := by
        cases hg : (layoutTabs rest).get?
            (k - ((colTabs ws).map ((0, ·) : Nat → Nat × Nat)).length) with
        | none => rw [hg] at h; exact Option.noConfusion h
        | some p => rw [hg] at h; exact ⟨p, rfl, Option.some.inj h⟩
      obtain ⟨p1, p2⟩ := p
      have hp1 : p1 = c := by
        have := congrArg Prod.fst hpe
        simp at this
        omega
      have hp2 : p2 = wi := by
        have := congrArg Prod.snd hpe
        simpa using this
      rw [hp1, hp2] at hp
      have ihr := ih (k - ((colTabs ws).map ((0, ·) : Nat → Nat × Nat)).length) c hp
      rw [nextPosF_cons_succ, ihr, layoutTabs, List.get?_append_right (by omega),
        List.get?_map]
      have harith : k + 1 - ((colTabs ws).map ((0, ·) : Nat → Nat × Nat)).length =
          (k - ((colTabs ws).map ((0, ·) : Nat → Nat × Nat)).length) + 1 := by
        omega
      rw [harith]

/-- Backward step from the first tab stop of a layout: nothing before it. -/
theorem layoutTabs_pred_first (cols : List (List Widg)) (ci wi : Nat)
    (h : (layoutTabs cols).get? 0 = some (ci, wi)) :
    prevPosB cols ci wi = none := by
  induction cols generalizing ci with
  | nil => simp [layoutTabs] at h
  | cons ws rest ih =>
    cases hc : colTabs ws with
    | cons a l =>
      rw [layoutTabs, hc] at h
      simp only [List.map_cons, List.cons_append, List.get?_cons_zero,
        Option.some.injEq] at h
      obtain ⟨hci, hwi⟩ : ci = 0 ∧ wi = a := by
        have h1 := congrArg Prod.fst h
        have h2 := congrArg Prod.snd h
        simp at h1 h2
        exact ⟨h1.symm, h2.symm⟩
      subst hci
      subst hwi
      have hf := lastTab_take_first ws wi (by rw [hc]; rfl)
      simp only [prevPosB, List.get?_cons_zero, hf]
      rfl
    | nil =>
      rw [layoutTabs, hc] at h
      simp only [List.map_nil, List.nil_append, List.get?_map] at h
      obtain ⟨p, hp, hpe⟩ : ∃ p, (layoutTabs rest).get? 0 = some p ∧
          ((p.1 + 1 : Nat), p.2) = (ci, wi) := by
        cases hg : (layoutTabs rest).get? 0 with
        | none => rw [hg] at h; exact Option.noConfusion h
        | some p => rw [hg] at h; exact ⟨p, rfl, Option.some.inj h⟩
      obtain ⟨p1, p2⟩ := p
      have hci : ci = p1 + 1 := (congrArg Prod.fst hpe).symm
      have hwi : wi = p2 := (congrArg Prod.snd hpe).symm
      subst hwi
      rw [hci]
      have hmem : ((p1, wi) : Nat × Nat) ∈ layoutTabs rest := List.get?_mem hp
      obtain ⟨ws', hws', _⟩ := (mem_layoutTabs rest p1 wi).mp hmem
      have hclt : p1 < rest.length := (List.get?_eq_some.mp hws').1
      rw [prevPosB_cons_succ ws rest p1 wi hclt, ih p1 hp]
      have hlw : lastTab ws = none := by
        rw [lastTab_eq_getLast, hc]
        rfl
      rw [hlw]
      rfl

/-- Backward step: from the tab stop at index `k + 1` of `layoutTabs`, the
backward scan target is the tab stop at index `k`. -/
theorem layoutTabs_pred (cols : List (List Widg)) (k ci wi : Nat)
    (h : (layoutTabs cols).get? (k + 1) = some (ci, wi)) :
    prevPosB cols ci wi = (layoutTabs cols).get? k := by
  induction cols generalizing k ci with
  | nil => simp [layoutTabs] at h
  | cons ws rest ih =>
    have hlen : (List.map ((0, ·) : Nat → Nat × Nat) (colTabs ws)).length =
        (colTabs ws).length := List.length_map _ _
    cases ci with
    | zero =>
      have hklt : k + 1 < (colTabs ws).length := by
        by_contra hge
        push_neg at hge
        rw [layoutTabs, List.get?_append_right (by omega), List.get?_map] at h
        cases hg : (layoutTabs rest).get?
            (k + 1 - (List.map ((0, ·) : Nat → Nat × Nat) (colTabs ws)).length) with
        | none => rw [hg] at h; exact Option.noConfusion h
        | some p =>
          rw [hg] at h
          have := congrArg Prod.fst (Option.some.inj h)
          simp at this
      have hcw : (colTabs ws).get? (k + 1) = some wi := by
        rw [layoutTabs, List.get?_append (by omega), List.get?_map] at h
        cases hg : (colTabs ws).get? (k + 1) with
        | none => rw [hg] at h; exact Option.noConfusion h
        | some a =>
          rw [hg] at h
          have ha : a = wi := by
            have := congrArg Prod.snd (Option.some.inj h)
            simpa using this
          rw [ha]
      have hstep := colTabs_pred ws k wi hcw
      obtain ⟨j'', hj''⟩ : ∃ j'', (colTabs ws).get? k = some j'' :=
        ⟨_, List.get?_eq_get (by omega)⟩
      rw [hj''] at hstep
      simp only [prevPosB, List.get?_cons_zero, hstep]
      rw [layoutTabs, List.get?_append (by omega), List.get?_map, hj'']
      rfl
    | succ c =>
      have hge : (colTabs ws).length ≤ k + 1 := by
        by_contra hlt
        push_neg at hlt
        rw [layoutTabs, List.get?_append (by omega), List.get?_map] at h
        cases hg : (colTabs ws).get? (k + 1) with
        | none => rw [hg] at h; exact Option.noConfusion h
        | some a =>
          rw [hg] at h
          have := congrArg Prod.fst (Option.some.inj h)
          simp at this
      rw [layoutTabs, List.get?_append_right (by omega), List.get?_map] at h
      obtain ⟨p, hp, hpe⟩ : ∃ p, (layoutTabs rest).get?
          (k + 1 - (List.map ((0, ·) : Nat → Nat × Nat) (colTabs ws)).length) = some p ∧
          ((p.1 + 1 : Nat), p.2) = (c + 1, wi) := by
        cases hg : (layoutTabs rest).get?
            (k + 1 - (List.map ((0, ·) : Nat → Nat × Nat) (colTabs ws)).length) with
        | none => rw [hg] at h; exact Option.noConfusion h
        | some p => rw [hg] at h; exact ⟨p, rfl, Option.some.inj h⟩
      obtain ⟨p1, p2⟩ := p
      have hp1 : p1 = c := by
        have := congrArg Prod.fst hpe
        simp at this
        omega
      have hp2 : p2 = wi := by
        have := congrArg Prod.snd hpe
        simpa using this
      rw [hp1, hp2] at hp
      have hmem : ((c, wi) : Nat × Nat) ∈ layoutTabs rest := List.get?_mem hp
      obtain ⟨ws', hws', _⟩ := (mem_layoutTabs rest c wi).mp hmem
      have hclt : c < rest.length := (List.get?_eq_some.mp hws').1
      by_cases h0 : k + 1 = (colTabs ws).length
      · -- crossing the column-group boundary: predecessor is the last tab
        -- stop of the first column group
        have hp0 : (layoutTabs rest).get? 0 = some (c, wi) := by
          rw [← hp]
          congr 1
          omega
        rw [prevPosB_cons_succ ws rest c wi hclt,
          layoutTabs_pred_first rest c wi hp0]
        have hk : k = (colTabs ws).length - 1 := by omega
        have hlast : (colTabs ws).get? k = (colTabs ws).getLast? := by
          rw [List.getLast?_eq_get?, hk]
        rw [layoutTabs, List.get?_append (by omega), List.get?_map, hlast,
          ← lastTab_eq_getLast]

      · -- still inside the shifted block
        have hm : k + 1 - (List.map ((0, ·) : Nat → Nat × Nat) (colTabs ws)).length =
            (k - (List.map ((0, ·) : Nat → Nat × Nat) (colTabs ws)).length) + 1 := by
          omega
        rw [hm] at hp
        have ihr := ih (k - (List.map ((0, ·) : Nat → Nat × Nat) (colTabs ws)).length) c hp
        obtain ⟨q, hq⟩ : ∃ q, (layoutTabs rest).get?
            (k - (List.map ((0, ·) : Nat → Nat × Nat) (colTabs ws)).length) = some q := by
          have hlt := (List.get?_eq_some.mp hp).1
          exact ⟨_, List.get?_eq_get (by omega)⟩
        rw [hq] at ihr
        rw [prevPosB_cons_succ ws rest c wi hclt, ihr,
          layoutTabs, List.get?_append_right (by omega), List.get?_map, hq]
        rfl

/-- `lastTab` of a snoc: the appended widget wins when it is a tab stop. -/
theorem lastTab_append_singleton (l : List Widg) (w : Widg) :
    lastTab (l ++ [w]) = if w.tabStop then some l.length else lastTab l := by
  induction l with
  | nil =>
    by_cases h : w.tabStop
    · simp [lastTab, h]
    · simp [lastTab, h]
  | cons x rest ih =>
    show (match lastTab (rest ++ [w]) with
      | some j => some (j + 1)
      | none => if x.tabStop then some 0 else none) = _
    rw [ih]
    by_cases h : w.tabStop
    · rw [if_pos h, if_pos h]
      rfl
    · rw [if_neg h, if_neg h]
      rfl

/-- `lastTabPos` of a snoc column list. -/
theorem lastTabPos_append_singleton (L : List (List Widg)) (ws : List Widg) :
    lastTabPos (L ++ [ws]) =
      match lastTab ws with
      | some j => some (L.length, j)
      | none => lastTabPos L := by
  induction L with
  | nil =>
    simp only [List.nil_append, lastTabPos, List.length_nil]
    cases lastTab ws <;> rfl
  | cons x rest ih =>
    simp only [List.cons_append, lastTabPos, List.append_eq]
    rw [ih]
    cases hl : lastTab ws with
    | some j => rfl
    | none => rfl

/-- A hit of `firstTabFrom` is an in-range tab stop at or after the start. -/
theorem firstTabFrom_some (ws : List Widg) (s j : Nat)
    (h : firstTabFrom ws s = some j) :
    s ≤ j ∧ ∃ w, ws.get? j = some w ∧ w.tabStop := by
  obtain ⟨j0, hj0, rfl⟩ : ∃ j0, firstTab (ws.drop s) = some j0 ∧ j0 + s = j := by
    cases hg : firstTab (ws.drop s) with
    | none => rw [firstTabFrom, hg] at h; exact Option.noConfusion h
    | some a =>
      rw [firstTabFrom, hg] at h
      exact ⟨a, rfl, Option.some.inj h⟩
  have hmem : j0 ∈ colTabs (ws.drop s) := by
    rw [firstTab_eq_head] at hj0
    exact List.mem_of_mem_head? (by rw [hj0]; rfl)
  obtain ⟨w, hw, ht⟩ := (mem_colTabs (ws.drop s) j0).mp hmem
  rw [List.get?_drop] at hw
  refine ⟨by omega, w, ?_, ht⟩
  rwa [show s + j0 = j0 + s by omega] at hw

/-- A hit of `lastTab` is an in-range tab stop. -/
theorem lastTab_some (ws : List Widg) (j : Nat) (h : lastTab ws = some j) :
    ∃ w, ws.get? j = some w ∧ w.tabStop := by
  have hmem : j ∈ colTabs ws := by
    rw [lastTab_eq_getLast] at h
    exact List.mem_of_getLast?_eq_some h
  exact (mem_colTabs ws j).mp hmem

/-- The inner forward scan finds the first tab stop at or after `s` (or
stops at the column length). -/
theorem scanFwdN_spec (ws : List Widg) :
    ∀ s, s ≤ ws.length → scanFwdN ws s = (firstTabFrom ws s).getD ws.length := by
  have main : ∀ n s, ws.length - s = n → s ≤ ws.length →
      scanFwdN ws s = (firstTabFrom ws s).getD ws.length := by
    intro n
    induction n with
    | zero =>
      intro s h1 h2
      have hs : s = ws.length := by omega
      rw [scanFwdN_unfold, dif_neg (by omega)]
      subst hs
      simp [firstTabFrom, List.drop_length, firstTab]
    | succ m ih =>
      intro s h1 h2
      have hslt : s < ws.length := by omega
      have hdrop : ws.drop s = ws.get ⟨s, hslt⟩ :: ws.drop (s + 1) := by
        rw [List.drop_eq_getElem_cons hslt]
        rfl
      rw [scanFwdN_unfold, dif_pos hslt]
      by_cases ht : (ws.get ⟨s, hslt⟩).tabStop
      · rw [if_pos ht]
        rw [firstTabFrom, hdrop, firstTab, if_pos ht]
        simp
      · rw [if_neg ht, ih (s + 1) (by omega) (by omega)]
        have heq : firstTabFrom ws s = firstTabFrom ws (s + 1) := by
          rw [firstTabFrom, firstTabFrom, hdrop, firstTab, if_neg ht,
            Option.map_map]
          have : ws.drop (s + 1) = (ws.drop s).drop 1 := by
            rw [List.drop_drop]
          rw [this, hdrop]
          simp only [List.drop_succ_cons, List.drop_zero]
          congr 1
          funext x
          simp only [Function.comp_apply]
          omega
        rw [heq]
  intro s hs
  exact main (ws.length - s) s rfl hs

/-- The inner backward scan finds the last tab stop at or before `i`. -/
theorem scanBwd_spec (ws : List Widg) :
    ∀ (i : Int), 0 ≤ i → i < (ws.length : Int) →
      scanBwd ws i =
        ((lastTab (ws.take (i.toNat + 1))).map (fun n => (n : Int))).getD (-1) := by
  have main : ∀ (n : Nat) (i : Int), i.toNat = n → 0 ≤ i → i < (ws.length : Int) →
      scanBwd ws i =
        ((lastTab (ws.take (i.toNat + 1))).map (fun n => (n : Int))).getD (-1) := by
    intro n
    induction n with
    | zero =>
      intro i hn h0 hlen
      have hi : i = 0 := by omega
      subst hi
      have hlt : (0 : Nat) < ws.length := by exact_mod_cast hlen
      rw [scanBwd_unfold, dif_pos ⟨le_refl _, hlen⟩]
      have htake : ws.take (0 + 1) = List.take 0 ws ++ [ws.get ⟨0, hlt⟩] := by
        rw [List.take_succ]
        simp [List.getElem?_eq_getElem hlt]
      by_cases ht : (ws.get ⟨(0 : Int).toNat, by omega⟩).tabStop
      · rw [if_pos ht]
        simp only [Int.toNat_zero] at ht ⊢
        rw [htake, lastTab_append_singleton, if_pos ht]
        simp
      · rw [if_neg ht]
        have hneg : scanBwd ws (0 - 1) = 0 - 1 := by
          rw [scanBwd_unfold, dif_neg (by omega)]
        rw [hneg]
        simp only [Int.toNat_zero] at ht ⊢
        rw [htake, lastTab_append_singleton, if_neg ht]
        simp [lastTab]
    | succ m ih =>
      intro i hn h0 hlen
      have hi : i = (m : Int) + 1 := by omega
      have hlt : i.toNat < ws.length := by omega
      rw [scanBwd_unfold, dif_pos ⟨h0, hlen⟩]
      have htake : ws.take (i.toNat + 1) = List.take i.toNat ws ++ [ws.get ⟨i.toNat, hlt⟩] := by
        rw [List.take_succ]
        simp [List.getElem?_eq_getElem hlt]
      by_cases ht : (ws.get ⟨i.toNat, by omega⟩).tabStop
      · rw [if_pos ht]
        rw [htake, lastTab_append_singleton, if_pos ht]
        have : (List.take i.toNat ws).length = i.toNat := by
          rw [List.length_take]
          omega
        rw [this]
        simp [Int.toNat_of_nonneg h0]
      · rw [if_neg ht]
        rw [ih (i - 1) (by omega) (by omega) (by omega)]
        rw [htake, lastTab_append_singleton, if_neg ht]
        have : (i - 1).toNat + 1 = i.toNat := by omega
        rw [this]
  intro i h0 hlen
  exact main i.toNat i rfl h0 hlen

/-- `scanFwdN` past the end of the column. -/
theorem scanFwdN_ge (ws : List Widg) (s : Nat) (h : ws.length ≤ s) :
    scanFwdN ws s = s := by
  rw [scanFwdN_unfold, dif_neg (by omega)]

/-- `scanBwd` on a negative index. -/
theorem scanBwd_neg (ws : List Widg) (i : Int) (h : i < 0) :
    scanBwd ws i = i := by
  rw [scanBwd_unfold, dif_neg (by omega)]

/-- `nextPosF` searching an entire column suffix. -/
theorem nextPosF_drop (cols : List (List Widg)) (lc : Nat) :
    (firstTabPos (cols.drop lc)).map (fun p => (p.1 + lc, p.2)) =
      nextPosF cols lc 0 := by
  cases hd : cols.drop lc with
  | nil =>
    have hlen : cols.length ≤ lc := by
      have := congrArg List.length hd
      simp only [List.length_drop, List.length_nil] at this
      omega
    rw [nextPosF.eq_def]
    rw [List.get?_eq_none.mpr hlen]
    simp [firstTabPos]
  | cons ws' rest' =>
    have hget : cols.get? lc = some ws' := by
      have := List.get?_drop cols lc 0
      rw [hd] at this
      simpa using this.symm
    have hdrop1 : cols.drop (lc + 1) = rest' := by
      have := List.drop_drop 1 lc cols
      rw [hd] at this
      simpa using this.symm
    rw [nextPosF.eq_def, hget]
    simp only [firstTabPos, firstTabFrom_zero]
    cases hf : firstTab ws' with
    | some j => simp
    | none =>
      simp only [hdrop1, Option.map_map]
      congr 1
      funext p
      obtain ⟨p1, p2⟩ := p
      show (p1 + 1 + lc, p2) = (p1 + (lc + 1), p2)
      rw [Nat.add_assoc, Nat.add_comm 1 lc]

/-- When the current column is exhausted, the forward target is the target
of the next column searched from its start. -/
theorem nextPosF_cont (cols : List (List Widg)) (lc s : Nat) (col : List Widg)
    (hget : cols.get? lc = some col) (hft : firstTabFrom col s = none) :
    nextPosF cols lc s = nextPosF cols (lc + 1) 0 := by
  rw [nextPosF.eq_def, hget]
  simp only [hft]
  exact nextPosF_drop cols (lc + 1)

/-- The forward column loop computes `nextPosF` (with `(columns.length, -1)`
encoding total exhaustion). -/
theorem findNextF_spec (cols : List (List Widg)) :
    ∀ (fuel : Nat) (lc : Nat) (lw : Int), -1 ≤ lw →
      (lc < cols.length ∨ (lc = cols.length ∧ lw = -1)) →
      cols.length - lc < fuel →
      findNextF cols fuel (lc : Int) lw =
        match nextPosF cols lc (lw + 1).toNat with
        | some p => ((p.1 : Int), (p.2 : Int))
        | none => ((cols.length : Int), -1) := by
  intro fuel
  induction fuel with
  | zero => intro lc lw _ _ hf; omega
  | succ f ih =>
    intro lc lw hlw hrange hfuel
    rcases hrange with hlt | ⟨hexact, hlwneg⟩
    · have hcollt : (lc : Int) < (cols.length : Int) := by exact_mod_cast hlt
      obtain ⟨col, hget?⟩ : ∃ c, cols.get? lc = some c :=
        ⟨cols.get ⟨lc, hlt⟩, List.get?_eq_get hlt⟩
      rw [findNextF, if_pos ⟨by omega, hcollt⟩]
      simp only [Int.toNat_natCast, hget?, Option.getD_some]
      have hscan : scanFwd col (lw + 1) = ((scanFwdN col (lw + 1).toNat : Nat) : Int) := by
        rw [scanFwd, if_pos (by omega)]
      rw [hscan]
      cases hft : firstTabFrom col (lw + 1).toNat with
      | some jj =>
        obtain ⟨hsle, w, hw, htab⟩ := firstTabFrom_some col (lw + 1).toNat jj hft
        have hjlt : jj < col.length := (List.get?_eq_some.mp hw).1
        have hsval : scanFwdN col (lw + 1).toNat = jj := by
          rw [scanFwdN_spec col (lw + 1).toNat (by omega), hft]
          rfl
        rw [hsval]
        have hinr : (0 : Int) ≤ (jj : Nat) ∧ ((jj : Nat) : Int) < (col.length : Int) := by
          refine ⟨by omega, by exact_mod_cast hjlt⟩
        rw [if_pos hinr]
        simp only [Int.toNat_natCast, hw, Option.any_some]
        rw [if_pos htab]
        simp only [nextPosF.eq_def, hget?, hft]
      | none =>
        have hrec : findNextF cols f ((lc : Int) + 1) (-1) =
            match nextPosF cols (lc + 1) 0 with
            | some p => ((p.1 : Int), (p.2 : Int))
            | none => ((cols.length : Int), -1) := by
          have := ih (lc + 1) (-1) (by omega) (by omega) (by omega)
          have hc2 : (((lc + 1 : Nat)) : Int) = (lc : Int) + 1 := by push_cast; ring
          rw [hc2] at this
          simpa using this
        by_cases hsle : (lw + 1).toNat ≤ col.length
        · have hsval : scanFwdN col (lw + 1).toNat = col.length := by
            rw [scanFwdN_spec col (lw + 1).toNat hsle, hft]
            rfl
          rw [hsval, if_neg (by omega)]
          rw [hrec, nextPosF_cont cols lc (lw + 1).toNat col hget? hft]
        · have hsval : scanFwdN col (lw + 1).toNat = (lw + 1).toNat :=
            scanFwdN_ge col (lw + 1).toNat (by omega)
          rw [hsval, if_neg (by omega)]
          rw [hrec, nextPosF_cont cols lc (lw + 1).toNat col hget? hft]
    · subst hexact
      subst hlwneg
      rw [findNextF, if_neg (by omega)]
      rw [nextPosF.eq_def, List.get?_eq_none.mpr (le_refl _)]

/-- Python `l[-1]` is the last element. -/
theorem pyGet_neg_one (l : List α) : pyGet l (-1) = l.getLast? := by
  cases l with
  | nil => rfl
  | cons a rest =>
    have hlen : 0 < (a :: rest).length := by simp
    rw [pyGet, pyIdx, if_neg (by omega), if_pos (by constructor <;> omega)]
    have hidx : (((a :: rest).length : Int) + (-1)).toNat = (a :: rest).length - 1 := by
      omega
    rw [hidx, Option.some_bind, ← getLast?_eq_get?_pred]

/-- Python `l[i]` for a non-negative index is plain `get?`. -/
theorem pyGet_nonneg (l : List α) (i : Int) (h : 0 ≤ i) :
    pyGet l i = l.get? i.toNat := by
  by_cases hlt : i < (l.length : Int)
  · rw [pyGet, pyIdx, if_pos ⟨h, hlt⟩, Option.some_bind]
  · rw [pyGet, pyIdx, if_neg (by omega), if_neg (by omega), Option.none_bind,
      Eq.comm, List.get?_eq_none]
    omega

/-- When the current column has no tab stop before the cursor, the backward
target is the target of the previous column searched from its end. -/
theorem prevPosB_cont (cols : List (List Widg)) (c e : Nat)
    (colc coln : List Widg) (hlen : c + 1 < cols.length)
    (hgetc : cols.get? c = some colc) (hgetn : cols.get? (c + 1) = some coln)
    (hlt : lastTab (coln.take e) = none) :
    prevPosB cols (c + 1) e = prevPosB cols c colc.length := by
  have hgetc2 : cols[c]? = some colc := by
    rw [← List.get?_eq_getElem?]
    exact hgetc
  have htake : cols.take (c + 1) = cols.take c ++ [colc] := by
    rw [List.take_succ, hgetc2]
    rfl
  have hlc : (cols.take c).length = c := by
    rw [List.length_take]
    omega
  rw [prevPosB, hgetn]
  simp only [hlt]
  rw [htake, lastTabPos_append_singleton, hlc]
  simp only [prevPosB, hgetc, List.take_length]

/-- The backward column loop computes `prevPosB` (with
`(-1, len(columns[-1]))` encoding total exhaustion: the loop leaves
`_live_col = -1` and `_live_widget = len(self._columns[-1])`). -/
theorem findNextB_spec (cols : List (List Widg)) :
    ∀ (lc : Nat) (fuel : Nat) (lw : Int), lc < cols.length →
      0 ≤ lw → lw ≤ ((((cols.get? lc).map List.length).getD 0 : Nat) : Int) →
      lc + 1 < fuel →
      findNextB cols fuel (lc : Int) lw =
        match prevPosB cols lc lw.toNat with
        | some p => ((p.1 : Int), (p.2 : Int))
        | none => (-1, (((cols.getLast?.map List.length).getD 0 : Nat) : Int)) := by
  intro lc
  induction lc with
  | zero =>
    intro fuel lw hlt0 hlw0 hlwle hfuel
    obtain ⟨f, rfl⟩ : ∃ f, fuel = f + 1 := ⟨fuel - 1, by omega⟩
    obtain ⟨col, hget?⟩ : ∃ c, cols.get? 0 = some c :=
      ⟨cols.get ⟨0, hlt0⟩, List.get?_eq_get hlt0⟩
    rw [hget?] at hlwle
    simp only [Option.map_some', Option.getD_some] at hlwle
    have hcast0 : ((0 : Nat) : Int) = 0 := rfl
    rw [findNextB, if_pos ⟨by omega, by exact_mod_cast hlt0⟩]
    simp only [Int.toNat_natCast, hget?, Option.getD_some]
    cases hl : lastTab (col.take lw.toNat) with
    | some jj =>
      have hlw1 : 1 ≤ lw := by
        by_contra hc
        have : lw = 0 := by omega
        subst this
        rw [Int.toNat_zero, List.take_zero] at hl
        exact Option.noConfusion hl
      have hjlt : jj < col.length := by
        obtain ⟨w, hw, _⟩ := lastTab_some _ jj hl
        have := (List.get?_eq_some.mp hw).1
        simp only [List.length_take] at this
        omega
      obtain ⟨w, hw, htab⟩ := lastTab_some _ jj hl
      have hjlt' : jj < lw.toNat := by
        have := (List.get?_eq_some.mp hw).1
        simp only [List.length_take] at this
        omega
      have hw' : col.get? jj = some w := by
        rw [← List.get?_take hjlt']
        exact hw
      have hscan : scanBwd col (lw - 1) = ((jj : Nat) : Int) := by
        rw [scanBwd_spec col (lw - 1) (by omega) (by omega)]
        have : (lw - 1).toNat + 1 = lw.toNat := by omega
        rw [this, hl]
        rfl
      rw [hscan, if_pos ⟨by omega, by exact_mod_cast hjlt⟩]
      simp only [Int.toNat_natCast, hw', Option.any_some]
      rw [if_pos htab]
      simp only [prevPosB, hget?, hl]
    | none =>
      have hjneg : scanBwd col (lw - 1) < 0 := by
        by_cases hlw1 : 1 ≤ lw
        · rw [scanBwd_spec col (lw - 1) (by omega) (by omega)]
          have h1 : (lw - 1).toNat + 1 = lw.toNat := by omega
          rw [h1, hl]
          simp
        · rw [scanBwd_neg col _ (by omega)]
          omega
      rw [if_neg (show ¬(0 ≤ scanBwd col (lw - 1) ∧
        scanBwd col (lw - 1) < (col.length : Int)) by omega)]
      have hm1 : ((0 : Nat) : Int) - 1 = -1 := rfl
      rw [hm1, pyGet_neg_one]
      obtain ⟨f', rfl⟩ : ∃ f', f = f' + 1 := ⟨f - 1, by omega⟩
      rw [findNextB, if_neg (by omega)]
      have hrhs : prevPosB cols 0 lw.toNat = none := by
        simp only [prevPosB, hget?, hl]
        rfl
      rw [hrhs]
  | succ c ih =>
    intro fuel lw hltc hlw0 hlwle hfuel
    obtain ⟨f, rfl⟩ : ∃ f, fuel = f + 1 := ⟨fuel - 1, by omega⟩
    obtain ⟨col, hget?⟩ : ∃ x, cols.get? (c + 1) = some x :=
      ⟨cols.get ⟨c + 1, hltc⟩, List.get?_eq_get hltc⟩
    obtain ⟨colc, hgetc⟩ : ∃ x, cols.get? c = some x :=
      ⟨cols.get ⟨c, by omega⟩, List.get?_eq_get (by omega)⟩
    rw [hget?] at hlwle
    simp only [Option.map_some', Option.getD_some] at hlwle
    rw [findNextB, if_pos ⟨by omega, by exact_mod_cast hltc⟩]
    simp only [Int.toNat_natCast, hget?, Option.getD_some]
    cases hl : lastTab (col.take lw.toNat) with
    | some jj =>
      have hlw1 : 1 ≤ lw := by
        by_contra hc
        have : lw = 0 := by omega
        subst this
        rw [Int.toNat_zero, List.take_zero] at hl
        exact Option.noConfusion hl
      obtain ⟨w, hw, htab⟩ := lastTab_some _ jj hl
      have hjb : jj < (col.take lw.toNat).length := (List.get?_eq_some.mp hw).1
      have hjlt : jj < col.length := by
        simp only [List.length_take] at hjb
        omega
      have hjlt' : jj < lw.toNat := by
        simp only [List.length_take] at hjb
        omega
      have hw' : col.get? jj = some w := by
        rw [← List.get?_take hjlt']
        exact hw
      have hscan : scanBwd col (lw - 1) = ((jj : Nat) : Int) := by
        rw [scanBwd_spec col (lw - 1) (by omega) (by omega)]
        have : (lw - 1).toNat + 1 = lw.toNat := by omega
        rw [this, hl]
        rfl
      rw [hscan, if_pos ⟨by omega, by exact_mod_cast hjlt⟩]
      simp only [Int.toNat_natCast, hw', Option.any_some]
      rw [if_pos htab]
      simp only [prevPosB, hget?, hl]
    | none =>
      have hjneg : scanBwd col (lw - 1) < 0 := by
        by_cases hlw1 : 1 ≤ lw
        · rw [scanBwd_spec col (lw - 1) (by omega) (by omega)]
          have h1 : (lw - 1).toNat + 1 = lw.toNat := by omega
          rw [h1, hl]
          simp
        · rw [scanBwd_neg col _ (by omega)]
          omega
      rw [if_neg (show ¬(0 ≤ scanBwd col (lw - 1) ∧
        scanBwd col (lw - 1) < (col.length : Int)) by omega)]
      have hm1 : ((c + 1 : Nat) : Int) - 1 = ((c : Nat) : Int) := by push_cast; ring
      rw [hm1, pyGet_nonneg cols ((c : Nat) : Int) (by omega), Int.toNat_natCast, hgetc]
      simp only [Option.map_some', Option.getD_some]
      rw [ih f ((colc.length : Nat) : Int) (by omega) (by omega)
        (by rw [hgetc]; simp) (by omega)]
      rw [Int.toNat_natCast]
      rw [prevPosB_cont cols c lw.toNat colc col hltc hgetc hget? hl]

/-- No widget variant consumes TAB or BACK_TAB: the event is handed back with
the widget untouched. -/
theorem processW_tab (w : Widg) (code : Int)
    (h : code = KEY_TAB ∨ code = KEY_BACK_TAB) :
    processW w (.key code) = (w, some (.key code)) := by
  obtain ⟨tab, hf, st⟩ := w
  rcases h with h | h <;> subst h <;> cases st <;>
    simp [processW, KEY_TAB, KEY_BACK_TAB, KEY_BACK, KEY_LEFT, KEY_RIGHT,
      KEY_HOME, KEY_END, KEY_UP, KEY_DOWN]

set_option maxHeartbeats 1600000 in
/-- `process_event` never touches `_has_focus` or `tab_stop`. -/
theorem processW_flags (w : Widg) (e : Event) :
    (processW w e).1.hasFocus = w.hasFocus ∧ (processW w e).1.tabStop = w.tabStop := by
  obtain ⟨tab, hf, st⟩ := w
  cases st <;> cases e <;> simp only [processW] <;> (try split_ifs) <;>
    first
    | exact ⟨rfl, rfl⟩
    | trivial
    | simp

set_option maxHeartbeats 1600000 in
/-- A returned event is returned verbatim, with the widget unchanged. -/
theorem processW_returned (w : Widg) (e e' : Event)
    (h : (processW w e).2 = some e') : (processW w e).1 = w ∧ e' = e := by
  obtain ⟨tab, hf, st⟩ := w
  cases st <;> cases e <;> simp only [processW] at h ⊢ <;> (try split_ifs at h ⊢) <;>
    simp_all

/-- Blurring an unfocused widget is a no-op. -/
theorem blurW_eq_self (w : Widg) (h : w.hasFocus = false) : blurW w = w := by
  obtain ⟨tab, hf, st⟩ := w
  simp only [blurW]
  simp_all

theorem blurW_focusW (w : Widg) : blurW (focusW w) = blurW w := rfl

theorem focusW_tabStop (w : Widg) : (focusW w).tabStop = w.tabStop := rfl

theorem blurW_tabStop (w : Widg) : (blurW w).tabStop = w.tabStop := rfl

/-- `reset` of every variant keeps `_has_focus` and `tab_stop`. -/
theorem resetW_flags (w : Widg) :
    (resetW w).hasFocus = w.hasFocus ∧ (resetW w).tabStop = w.tabStop := by
  obtain ⟨tab, hf, st⟩ := w
  cases st <;> exact ⟨rfl, rfl⟩

/-- A resolved Python index is in range. -/
theorem pyIdx_lt (len : Nat) (i : Int) (n : Nat) (h : pyIdx len i = some n) :
    n < len := by
  rw [pyIdx] at h
  split_ifs at h with h1 h2
  · cases h
    omega
  · cases h
    omega

/-- Resolving a non-negative in-range index. -/
theorem pyIdx_nonneg (len : Nat) (i : Int) (h0 : 0 ≤ i) (hl : i < (len : Int)) :
    pyIdx len i = some i.toNat := by
  rw [pyIdx, if_pos ⟨h0, hl⟩]

theorem pyModify_length (l : List α) (i : Int) (f : α → α) :
    (pyModify l i f).length = l.length := by
  cases hx : pyIdx l.length i with
  | none => simp [pyModify, hx]
  | some n =>
    cases ha : l.get? n with
    | none => simp only [pyModify, hx, ha]
    | some a => simp only [pyModify, hx, ha, List.length_set]

/-- Writing back the element already there is a no-op. -/
theorem set_get?_self (l : List α) (n : Nat) (a : α) (h : l.get? n = some a) :
    l.set n a = l := by
  induction l generalizing n with
  | nil => rfl
  | cons x xs ih =>
    cases n with
    | zero =>
      simp only [List.get?] at h
      cases h
      rfl
    | succ m =>
      simp only [List.get?] at h
      simp only [List.set]
      rw [ih m h]

/-- `get?` view of a Python element assignment. -/
theorem get?_pyModify (l : List α) (i : Int) (f : α → α) (m : Nat) :
    (pyModify l i f).get? m =
      if pyIdx l.length i = some m then (l.get? m).map f else l.get? m := by
  cases hx : pyIdx l.length i with
  | none =>
    rw [if_neg (by simp [hx])]
    simp [pyModify, hx]
  | some n =>
    have hn : n < l.length := pyIdx_lt l.length i n hx
    obtain ⟨a, ha⟩ : ∃ a, l.get? n = some a := ⟨l.get ⟨n, hn⟩, List.get?_eq_get hn⟩
    by_cases hm : n = m
    · subst hm
      rw [if_pos rfl]
      simp only [pyModify, hx, ha]
      rw [List.get?_set_eq, ha]
      simp [hn]
    · rw [if_neg (by simp [hm])]
      simp only [pyModify, hx, ha]
      rw [List.get?_set_ne _ _ hm]

/-- Two Python assignments at the same index compose. -/
theorem pyModify_comp (l : List α) (i : Int) (f g : α → α) :
    pyModify (pyModify l i f) i g = pyModify l i (g ∘ f) := by
  apply List.ext
  intro m
  rw [get?_pyModify, get?_pyModify, get?_pyModify, pyModify_length]
  split_ifs with h
  · rw [Option.map_map]
  · rfl

/-- An assignment that rewrites the stored value to itself is a no-op. -/
theorem pyModify_eq_self (l : List α) (i : Int) (f : α → α)
    (h : ∀ a, pyGet l i = some a → f a = a) : pyModify l i f = l := by
  cases hx : pyIdx l.length i with
  | none => simp [pyModify, hx]
  | some n =>
    cases ha : l.get? n with
    | none => simp only [pyModify, hx, ha]
    | some a =>
      have hga : pyGet l i = some a := by
        rw [pyGet, hx, Option.some_bind, ha]
      simp only [pyModify, hx, ha]
      rw [h a hga]
      exact set_get?_self l n a ha

/-- Two widget assignments at the same position compose. -/
theorem modifyAt_comp (cols : List (List Widg)) (ci wi : Int) (f g : Widg → Widg) :
    modifyAt (modifyAt cols ci wi f) ci wi g = modifyAt cols ci wi (g ∘ f) := by
  rw [modifyAt, modifyAt, modifyAt, pyModify_comp]
  congr 1
  funext col
  exact pyModify_comp col wi f g

/-- A widget assignment that rewrites the stored widget to itself is a no-op. -/
theorem modifyAt_eq_self (cols : List (List Widg)) (ci wi : Int) (f : Widg → Widg)
    (h : ∀ w, pyGet2 cols ci wi = some w → f w = w) : modifyAt cols ci wi f = cols := by
  rw [modifyAt]
  apply pyModify_eq_self
  intro col hcol
  apply pyModify_eq_self
  intro w hw
  apply h
  rw [pyGet2, hcol, Option.some_bind]
  exact hw

/-- `colTabs` ignores a set that keeps the `tab_stop` flag. -/
theorem colTabs_set (col : List Widg) (n : Nat) (a b : Widg)
    (ha : col.get? n = some a) (hb : b.tabStop = a.tabStop) :
    colTabs (col.set n b) = colTabs col := by
  induction col generalizing n with
  | nil => rfl
  | cons x xs ih =>
    cases n with
    | zero =>
      simp only [List.get?] at ha
      cases ha
      simp only [List.set, colTabs, hb]
    | succ m =>
      simp only [List.get?] at ha
      simp only [List.set, colTabs, ih m ha]

/-- `layoutTabs` ignores a column replacement with equal `colTabs`. -/
theorem layoutTabs_set (cols : List (List Widg)) (m : Nat) (c c' : List Widg)
    (hc : cols.get? m = some c) (he : colTabs c' = colTabs c) :
    layoutTabs (cols.set m c') = layoutTabs cols := by
  induction cols generalizing m with
  | nil => rfl
  | cons x xs ih =>
    cases m with
    | zero =>
      simp only [List.get?] at hc
      cases hc
      simp only [List.set, layoutTabs, he]
    | succ k =>
      simp only [List.get?] at hc
      simp only [List.set, layoutTabs, ih k hc]

/-- `colTabs` ignores a Python assignment that keeps the `tab_stop` flag. -/
theorem colTabs_pyModify (col : List Widg) (wi : Int) (f : Widg → Widg)
    (hf : ∀ w, (f w).tabStop = w.tabStop) :
    colTabs (pyModify col wi f) = colTabs col := by
  cases hy : pyIdx col.length wi with
  | none => simp [pyModify, hy]
  | some k =>
    cases hw : col.get? k with
    | none => simp only [pyModify, hy, hw]
    | some a =>
      simp only [pyModify, hy, hw]
      exact colTabs_set col k a (f a) hw (hf a)

/-- The tab-stop skeleton of a layout is unchanged by any widget update that
keeps the `tab_stop` flag (focus, blur, `process_event`). -/
theorem layoutTabs_modifyAt (cols : List (List Widg)) (ci wi : Int)
    (f : Widg → Widg) (hf : ∀ w, (f w).tabStop = w.tabStop) :
    layoutTabs (modifyAt cols ci wi f) = layoutTabs cols := by
  rw [modifyAt]
  cases hx : pyIdx cols.length ci with
  | none => simp [pyModify, hx]
  | some n =>
    cases hc : cols.get? n with
    | none => simp only [pyModify, hx, hc]
    | some col =>
      simp only [pyModify, hx, hc]
      exact layoutTabs_set cols n col _ hc (colTabs_pyModify col wi f hf)

/-- Column lengths are unchanged by any widget update. -/
theorem modifyAt_map_length (cols : List (List Widg)) (ci wi : Int)
    (f : Widg → Widg) :
    (modifyAt cols ci wi f).map List.length = cols.map List.length := by
  apply List.ext
  intro m
  rw [List.get?_map, List.get?_map, modifyAt, get?_pyModify]
  split_ifs with h
  · cases hg : cols.get? m with
    | none => rfl
    | some col => simp [pyModify_length]
  · rfl

theorem modifyAt_length (cols : List (List Widg)) (ci wi : Int) (f : Widg → Widg) :
    (modifyAt cols ci wi f).length = cols.length := by
  rw [modifyAt, pyModify_length]

/-- No widget of any column carries `_has_focus`. -/
def cleanCols (cols : List (List Widg)) : Bool :=
  cols.all fun col => col.all fun w => !w.hasFocus

/-- The canonical live layout: the widget at tab-stop position `(ci, wi)` of
the clean column set `C` is focused, the cursor points at it, and the layout
itself has focus. -/
def canonLayout (C : List (List Widg)) (ci wi : Nat) : LayoutS :=
  ⟨modifyAt C (ci : Int) (wi : Int) focusW, true, (ci : Int), (wi : Int)⟩

theorem cleanCols_get (C : List (List Widg)) (hclean : cleanCols C = true)
    (ci wi : Nat) (col : List Widg) (w : Widg)
    (hc : C.get? ci = some col) (hw : col.get? wi = some w) :
    w.hasFocus = false := by
  rw [cleanCols, List.all_eq_true] at hclean
  have h1 := hclean col (List.get?_mem hc)
  rw [List.all_eq_true] at h1
  have h2 := h1 w (List.get?_mem hw)
  simp at h2
  exact h2

/-- Unpack a `layoutTabs` entry into the underlying tab-stop widget. -/
theorem layoutTabs_entry (C : List (List Widg)) (j ci wi : Nat)
    (hT : (layoutTabs C).get? j = some (ci, wi)) :
    ∃ col w, C.get? ci = some col ∧ col.get? wi = some w ∧ w.tabStop = true := by
  have hmem : (ci, wi) ∈ layoutTabs C := List.get?_mem hT
  obtain ⟨col, hc, hwmem⟩ := (mem_layoutTabs C ci wi).mp hmem
  obtain ⟨w, hw, htab⟩ := (mem_colTabs col wi).mp hwmem
  exact ⟨col, w, hc, hw, htab⟩

/-- Python read of a natural-number position. -/
theorem pyGet2_natCast (C : List (List Widg)) (ci wi : Nat)
    (col : List Widg) (w : Widg)
    (hc : C.get? ci = some col) (hw : col.get? wi = some w) :
    pyGet2 C (ci : Int) (wi : Int) = some w := by
  rw [pyGet2, pyGet_nonneg C _ (by omega), Int.toNat_natCast, hc,
    Option.some_bind, pyGet_nonneg col _ (by omega), Int.toNat_natCast, hw]

/-- Reading back the position just updated. -/
theorem pyGet2_modifyAt_self (C : List (List Widg)) (ci wi : Nat)
    (f : Widg → Widg) (col : List Widg) (w : Widg)
    (hc : C.get? ci = some col) (hw : col.get? wi = some w) :
    pyGet2 (modifyAt C (ci : Int) (wi : Int) f) (ci : Int) (wi : Int) =
      some (f w) := by
  have hcl : ci < C.length := (List.get?_eq_some.mp hc).1
  have hwl : wi < col.length := (List.get?_eq_some.mp hw).1
  have hidxc : pyIdx C.length (ci : Int) = some ci := by
    rw [pyIdx_nonneg _ _ (by omega) (by exact_mod_cast hcl), Int.toNat_natCast]
  have hidxw : pyIdx col.length (wi : Int) = some wi := by
    rw [pyIdx_nonneg _ _ (by omega) (by exact_mod_cast hwl), Int.toNat_natCast]
  rw [pyGet2, pyGet, modifyAt, pyModify_length, hidxc, Option.some_bind,
    get?_pyModify, hidxc, if_pos rfl, hc]
  rw [Option.map_some', Option.some_bind, pyGet, pyModify_length, hidxw,
    Option.some_bind, get?_pyModify, hidxw, if_pos rfl, hw, Option.map_some']

/-- Blurring the position just focused restores a clean column set. -/
theorem modifyAt_blur_focus (C : List (List Widg)) (ci wi : Nat)
    (hclean : cleanCols C = true) :
    modifyAt (modifyAt C (ci : Int) (wi : Int) focusW) (ci : Int) (wi : Int)
      blurW = C := by
  rw [modifyAt_comp]
  have hbf : (blurW ∘ focusW) = blurW := funext fun w => rfl
  rw [hbf]
  apply modifyAt_eq_self
  intro w hwg
  apply blurW_eq_self
  simp only [pyGet2, pyGet, Option.bind_eq_some] at hwg
  obtain ⟨col0, ⟨n, hn, hcn⟩, m, hm, hwm⟩ := hwg
  exact cleanCols_get C hclean n m col0 w hcn hwm

/-- One widget-internal TAB step of `Layout.process_event`: from the tab stop
at `layoutTabs` index `j` the cursor and focus move to the tab stop at index
`j + 1`, and the event is consumed. -/
theorem layout_tab_next (C : List (List Widg)) (j ci wi ci' wi' : Nat)
    (hclean : cleanCols C = true)
    (hT : (layoutTabs C).get? j = some (ci, wi))
    (hT' : (layoutTabs C).get? (j + 1) = some (ci', wi')) :
    layoutProcessEvent (canonLayout C ci wi) (.key KEY_TAB) =
      (canonLayout C ci' wi', none) := by
  obtain ⟨col, w, hc, hw, htab⟩ := layoutTabs_entry C j ci wi hT
  obtain ⟨col', w', hc', hw', htab'⟩ := layoutTabs_entry C (j + 1) ci' wi' hT'
  have hcl : ci < C.length := (List.get?_eq_some.mp hc).1
  have hcl' : ci' < C.length := (List.get?_eq_some.mp hc').1
  have hpg2 : pyGet2 (canonLayout C ci wi).columns (ci : Int) (wi : Int) =
      some (focusW w) := pyGet2_modifyAt_self C ci wi focusW col w hc hw
  have hproc : processW (focusW w) (.key KEY_TAB) =
      (focusW w, some (.key KEY_TAB)) := processW_tab _ _ (Or.inl rfl)
  have hid : modifyAt (canonLayout C ci wi).columns (ci : Int) (wi : Int)
      (fun _ => focusW w) = (canonLayout C ci wi).columns := by
    apply modifyAt_eq_self
    intro x hx
    rw [hpg2] at hx
    cases hx
    rfl
  have hblur : modifyAt (canonLayout C ci wi).columns (ci : Int) (wi : Int)
      blurW = C := modifyAt_blur_focus C ci wi hclean
  have htn : ((wi : Int) + 1).toNat = wi + 1 := by omega
  have hfind : findNextF C (layoutFuel C) (ci : Int) (wi : Int) =
      ((ci' : Int), (wi' : Int)) := by
    rw [layoutFuel, findNextF_spec C (C.length + 1) ci (wi : Int) (by omega)
      (Or.inl hcl) (by omega), htn, layoutTabs_succ C j ci wi hT, hT']
  rw [layoutProcessEvent]
  rw [show (canonLayout C ci wi).liveCol = ((ci : Nat) : Int) from rfl,
    show (canonLayout C ci wi).liveWidget = ((wi : Nat) : Int) from rfl]
  rw [hpg2]
  simp only [hproc]
  simp only [if_true, hid, blurAtCursor, hblur, hfind, focusAtCursor]
  rw [if_neg (show ¬ ((C.length : Int) ≤ (ci' : Int)) from by
    exact_mod_cast not_le.mpr hcl')]
  rfl

/-- Searching from the very start of a layout finds its first tab stop. -/
theorem nextPosF_zero (C : List (List Widg)) : nextPosF C 0 0 = firstTabPos C := by
  have h := nextPosF_drop C 0
  rw [List.drop_zero] at h
  rw [← h]
  have hfun : (fun p : Nat × Nat => (p.1 + 0, p.2)) = id := by
    funext p
    simp
  rw [hfun, Option.map_id]
  rfl

/-- Searching backward from the end of the last column finds the layout's
last tab stop. -/
theorem prevPosB_last (C : List (List Widg)) (collast : List Widg)
    (hpos : 0 < C.length)
    (hlastcol : C.get? (C.length - 1) = some collast) :
    prevPosB C (C.length - 1) collast.length = lastTabPos C := by
  have hsplit : C = C.take (C.length - 1) ++ [collast] := by
    have h1 : C.take (C.length - 1 + 1) = C.take (C.length - 1) ++ [collast] := by
      rw [List.take_succ]
      rw [show C[C.length - 1]? = some collast from by
        rw [← List.get?_eq_getElem?]; exact hlastcol]
      rfl
    have h2 : C.length - 1 + 1 = C.length := by omega
    rw [h2, List.take_length] at h1
    exact h1
  have hlc : (C.take (C.length - 1)).length = C.length - 1 := by
    rw [List.length_take]
    omega
  simp only [prevPosB, hlastcol, List.take_length]
  conv_rhs => rw [hsplit]
  rw [lastTabPos_append_singleton, hlc]

/-- The exhausting TAB step of `Layout.process_event`: from the last tab stop,
the cursor re-homes to the layout's first tab stop, no widget is focused, and
the TAB event is handed back to the frame. -/
theorem layout_tab_wrap (C : List (List Widg)) (j ci wi q1 q2 : Nat)
    (hclean : cleanCols C = true)
    (hT : (layoutTabs C).get? j = some (ci, wi))
    (hTend : (layoutTabs C).get? (j + 1) = none)
    (hhead : (layoutTabs C).head? = some (q1, q2)) :
    layoutProcessEvent (canonLayout C ci wi) (.key KEY_TAB) =
      (⟨C, true, (q1 : Int), (q2 : Int)⟩, some (.key KEY_TAB)) := by
  obtain ⟨col, w, hc, hw, htab⟩ := layoutTabs_entry C j ci wi hT
  have hcl : ci < C.length := (List.get?_eq_some.mp hc).1
  have hpg2 : pyGet2 (canonLayout C ci wi).columns (ci : Int) (wi : Int) =
      some (focusW w) := pyGet2_modifyAt_self C ci wi focusW col w hc hw
  have hproc : processW (focusW w) (.key KEY_TAB) =
      (focusW w, some (.key KEY_TAB)) := processW_tab _ _ (Or.inl rfl)
  have hid : modifyAt (canonLayout C ci wi).columns (ci : Int) (wi : Int)
      (fun _ => focusW w) = (canonLayout C ci wi).columns := by
    apply modifyAt_eq_self
    intro x hx
    rw [hpg2] at hx
    cases hx
    rfl
  have hblur : modifyAt (canonLayout C ci wi).columns (ci : Int) (wi : Int)
      blurW = C := modifyAt_blur_focus C ci wi hclean
  have htn : ((wi : Int) + 1).toNat = wi + 1 := by omega
  have hfind : findNextF C (layoutFuel C) (ci : Int) (wi : Int) =
      ((C.length : Int), -1) := by
    rw [layoutFuel, findNextF_spec C (C.length + 1) ci (wi : Int) (by omega)
      (Or.inl hcl) (by omega), htn, layoutTabs_succ C j ci wi hT, hTend]
  have hfind2 : findNextF C (layoutFuel C) 0 (-1) = ((q1 : Int), (q2 : Int)) := by
    have h := findNextF_spec C (C.length + 1) 0 (-1) (by omega)
      (Or.inl (by omega)) (by omega)
    rw [Nat.cast_zero] at h
    rw [layoutFuel, h]
    rw [show ((-1 : Int) + 1).toNat = 0 from rfl, nextPosF_zero,
      firstTabPos_eq_head, hhead]
  rw [layoutProcessEvent]
  rw [show (canonLayout C ci wi).liveCol = ((ci : Nat) : Int) from rfl,
    show (canonLayout C ci wi).liveWidget = ((wi : Nat) : Int) from rfl]
  rw [hpg2]
  simp only [hproc]
  simp only [if_true, hid, blurAtCursor, hblur, hfind, focusAtCursor]
  rw [if_pos (le_refl ((C.length : Nat) : Int))]
  rw [hfind2]
  rfl

/-- One widget-internal BACK_TAB step: from the tab stop at `layoutTabs`
index `j + 1` the cursor and focus move back to index `j`, and the event is
consumed. -/
theorem layout_backtab_prev (C : List (List Widg)) (j ci wi cip wip : Nat)
    (hclean : cleanCols C = true)
    (hT' : (layoutTabs C).get? (j + 1) = some (ci, wi))
    (hT : (layoutTabs C).get? j = some (cip, wip)) :
    layoutProcessEvent (canonLayout C ci wi) (.key KEY_BACK_TAB) =
      (canonLayout C cip wip, none) := by
  obtain ⟨col, w, hc, hw, htab⟩ := layoutTabs_entry C (j + 1) ci wi hT'
  obtain ⟨colp, wp, hcp, hwp, htabp⟩ := layoutTabs_entry C j cip wip hT
  have hcl : ci < C.length := (List.get?_eq_some.mp hc).1
  have hclp : cip < C.length := (List.get?_eq_some.mp hcp).1
  have hwl : wi < col.length := (List.get?_eq_some.mp hw).1
  have hpg2 : pyGet2 (canonLayout C ci wi).columns (ci : Int) (wi : Int) =
      some (focusW w) := pyGet2_modifyAt_self C ci wi focusW col w hc hw
  have hproc : processW (focusW w) (.key KEY_BACK_TAB) =
      (focusW w, some (.key KEY_BACK_TAB)) := processW_tab _ _ (Or.inr rfl)
  have hid : modifyAt (canonLayout C ci wi).columns (ci : Int) (wi : Int)
      (fun _ => focusW w) = (canonLayout C ci wi).columns := by
    apply modifyAt_eq_self
    intro x hx
    rw [hpg2] at hx
    cases hx
    rfl
  have hblur : modifyAt (canonLayout C ci wi).columns (ci : Int) (wi : Int)
      blurW = C := modifyAt_blur_focus C ci wi hclean
  have htn : ((wi : Int)).toNat = wi := Int.toNat_natCast wi
  have hfind : findNextB C (layoutFuel C) (ci : Int) (wi : Int) =
      ((cip : Int), (wip : Int)) := by
    rw [layoutFuel, findNextB_spec C ci (C.length + 1) (wi : Int) hcl (by omega)
      (by rw [hc]; simp only [Option.map_some', Option.getD_some]; exact_mod_cast hwl.le)
      (by omega), htn, layoutTabs_pred C j ci wi hT', hT]
  rw [layoutProcessEvent]
  rw [show (canonLayout C ci wi).liveCol = ((ci : Nat) : Int) from rfl,
    show (canonLayout C ci wi).liveWidget = ((wi : Nat) : Int) from rfl]
  rw [hpg2]
  simp only [hproc]
  rw [if_neg (show ¬ (KEY_BACK_TAB = KEY_TAB) by decide)]
  simp only [if_true, hid, blurAtCursor, hblur, hfind, focusAtCursor]
  rw [if_neg (show ¬ ((cip : Int) < 0) by omega)]
  rfl

/-- The exhausting BACK_TAB step: from the first tab stop, the cursor
re-homes to the layout's last tab stop, no widget is focused, and the
BACK_TAB event is handed back to the frame. -/
theorem layout_backtab_wrap (C : List (List Widg)) (ci wi r1 r2 : Nat)
    (collast : List Widg)
    (hclean : cleanCols C = true)
    (hT0 : (layoutTabs C).get? 0 = some (ci, wi))
    (hlast : (layoutTabs C).getLast? = some (r1, r2))
    (hlastcol : C.get? (C.length - 1) = some collast) :
    layoutProcessEvent (canonLayout C ci wi) (.key KEY_BACK_TAB) =
      (⟨C, true, (r1 : Int), (r2 : Int)⟩, some (.key KEY_BACK_TAB)) := by
  obtain ⟨col, w, hc, hw, htab⟩ := layoutTabs_entry C 0 ci wi hT0
  have hcl : ci < C.length := (List.get?_eq_some.mp hc).1
  have hwl : wi < col.length := (List.get?_eq_some.mp hw).1
  have hpg2 : pyGet2 (canonLayout C ci wi).columns (ci : Int) (wi : Int) =
      some (focusW w) := pyGet2_modifyAt_self C ci wi focusW col w hc hw
  have hproc : processW (focusW w) (.key KEY_BACK_TAB) =
      (focusW w, some (.key KEY_BACK_TAB)) := processW_tab _ _ (Or.inr rfl)
  have hid : modifyAt (canonLayout C ci wi).columns (ci : Int) (wi : Int)
      (fun _ => focusW w) = (canonLayout C ci wi).columns := by
    apply modifyAt_eq_self
    intro x hx
    rw [hpg2] at hx
    cases hx
    rfl
  have hblur : modifyAt (canonLayout C ci wi).columns (ci : Int) (wi : Int)
      blurW = C := modifyAt_blur_focus C ci wi hclean
  have htn : ((wi : Int)).toNat = wi := Int.toNat_natCast wi
  have hfind : findNextB C (layoutFuel C) (ci : Int) (wi : Int) =
      (-1, (((C.getLast?.map List.length).getD 0 : Nat) : Int)) := by
    rw [layoutFuel, findNextB_spec C ci (C.length + 1) (wi : Int) hcl (by omega)
      (by rw [hc]; simp only [Option.map_some', Option.getD_some]; exact_mod_cast hwl.le)
      (by omega), htn, layoutTabs_pred_first C ci wi hT0]
  have hm : (C.length : Int) - 1 = ((C.length - 1 : Nat) : Int) := by omega
  have hpg : pyGet C ((C.length : Int) - 1) = some collast := by
    rw [hm, pyGet_nonneg C _ (by omega), Int.toNat_natCast, hlastcol]
  have hfind2 : findNextB C (layoutFuel C) ((C.length : Int) - 1)
      ((collast.length : Nat) : Int) = ((r1 : Int), (r2 : Int)) := by
    rw [hm, layoutFuel, findNextB_spec C (C.length - 1) (C.length + 1)
      ((collast.length : Nat) : Int) (by omega) (by omega)
      (by rw [hlastcol]; simp) (by omega), Int.toNat_natCast,
      prevPosB_last C collast (by omega) hlastcol, lastTabPos_eq_getLast, hlast]
  rw [layoutProcessEvent]
  rw [show (canonLayout C ci wi).liveCol = ((ci : Nat) : Int) from rfl,
    show (canonLayout C ci wi).liveWidget = ((wi : Nat) : Int) from rfl]
  rw [hpg2]
  simp only [hproc]
  rw [if_neg (show ¬ (KEY_BACK_TAB = KEY_TAB) by decide)]
  simp only [if_true, hid, blurAtCursor, hblur, hfind, focusAtCursor]
  rw [if_pos (show (-1 : Int) < 0 by decide)]
  simp only [hpg, Option.map_some', Option.getD_some]
  rw [hfind2]
  rfl

theorem get?_set_self (l : List α) (k : Nat) (a : α) (hk : k < l.length) :
    (l.set k a).get? k = some a := by
  rw [List.get?_set_eq]
  obtain ⟨b, hb⟩ : ∃ b, l.get? k = some b := ⟨l.get ⟨k, hk⟩, List.get?_eq_get hk⟩
  rw [hb]
  rfl

/-- Python read of a natural-number list index. -/
theorem pyGet_natCast (l : List α) (k : Nat) : pyGet l (k : Int) = l.get? k := by
  by_cases hk : k < l.length
  · rw [pyGet_nonneg _ _ (by omega), Int.toNat_natCast]
  · rw [pyGet, pyIdx, if_neg (by push_cast; omega), if_neg (by push_cast; omega),
      Option.none_bind, Eq.comm, List.get?_eq_none]
    omega

/-- Python assignment at a natural-number list index. -/
theorem pyModify_natCast (l : List α) (k : Nat) (g : α → α) (a : α)
    (ha : l.get? k = some a) : pyModify l (k : Int) g = l.set k (g a) := by
  have hk : k < l.length := (List.get?_eq_some.mp ha).1
  have hidx : pyIdx l.length (k : Int) = some k := by
    rw [pyIdx_nonneg _ _ (by omega) (by exact_mod_cast hk), Int.toNat_natCast]
  simp only [pyModify, hidx, ha]

/-- A clean column set yields only unfocused widgets. -/
theorem pyGet2_some_clean (C : List (List Widg)) (a b : Int) (w : Widg)
    (hclean : cleanCols C = true) (h : pyGet2 C a b = some w) :
    w.hasFocus = false := by
  simp only [pyGet2, pyGet, Option.bind_eq_some] at h
  obtain ⟨col0, ⟨n, hn, hcn⟩, m, hm, hwm⟩ := h
  exact cleanCols_get C hclean n m col0 w hcn hwm

/-- Blurring anywhere in a clean column set is a no-op. -/
theorem modifyAt_blur_clean (C : List (List Widg)) (a b : Int)
    (hclean : cleanCols C = true) : modifyAt C a b blurW = C := by
  apply modifyAt_eq_self
  intro w hw
  exact blurW_eq_self w (pyGet2_some_clean C a b w hclean hw)

/-- `Layout.focus(force_first=True)` on a layout with a tab stop lands on the
first tab stop and focuses it. -/
theorem layoutFocus_first (l : LayoutS) (q1 q2 : Nat)
    (hhead : (layoutTabs l.columns).head? = some (q1, q2)) :
    layoutFocus l true false = canonLayout l.columns q1 q2 := by
  have htne : layoutTabs l.columns ≠ [] := by
    intro hx
    rw [hx] at hhead
    cases hhead
  have hpos : 0 < l.columns.length := by
    rcases Nat.eq_zero_or_pos l.columns.length with h0 | h
    · exfalso
      apply htne
      rw [List.length_eq_zero.mp h0]
      rfl
    · exact h
  have hfind : findNextF l.columns (layoutFuel l.columns) 0 (-1) =
      ((q1 : Int), (q2 : Int)) := by
    have h := findNextF_spec l.columns (l.columns.length + 1) 0 (-1) (by omega)
      (Or.inl hpos) (by omega)
    rw [Nat.cast_zero] at h
    rw [layoutFuel, h]
    rw [show ((-1 : Int) + 1).toNat = 0 from rfl, nextPosF_zero,
      firstTabPos_eq_head, hhead]
  rw [layoutFocus]
  simp only [if_true, hfind, focusAtCursor]
  rfl

/-- `Layout.focus(force_last=True)` on a layout with a tab stop lands on the
last tab stop and focuses it. -/
theorem layoutFocus_last (l : LayoutS) (r1 r2 : Nat)
    (hlast : (layoutTabs l.columns).getLast? = some (r1, r2)) :
    layoutFocus l false true = canonLayout l.columns r1 r2 := by
  have htne : layoutTabs l.columns ≠ [] := by
    intro hx
    rw [hx] at hlast
    cases hlast
  have hpos : 0 < l.columns.length := by
    rcases Nat.eq_zero_or_pos l.columns.length with h0 | h
    · exfalso
      apply htne
      rw [List.length_eq_zero.mp h0]
      rfl
    · exact h
  obtain ⟨collast, hcollast⟩ : ∃ x, l.columns.get? (l.columns.length - 1) = some x :=
    ⟨l.columns.get ⟨l.columns.length - 1, by omega⟩, List.get?_eq_get (by omega)⟩
  have hm : (l.columns.length : Int) - 1 = ((l.columns.length - 1 : Nat) : Int) := by
    omega
  have hpg : pyGet l.columns ((l.columns.length : Int) - 1) = some collast := by
    rw [hm, pyGet_natCast, hcollast]
  have hfind : findNextB l.columns (layoutFuel l.columns)
      ((l.columns.length : Int) - 1) ((collast.length : Nat) : Int) =
      ((r1 : Int), (r2 : Int)) := by
    rw [hm, layoutFuel, findNextB_spec l.columns (l.columns.length - 1)
      (l.columns.length + 1) ((collast.length : Nat) : Int) (by omega) (by omega)
      (by rw [hcollast]; simp) (by omega), Int.toNat_natCast,
      prevPosB_last l.columns collast (by omega) hcollast,
      lastTabPos_eq_getLast, hlast]
  rw [layoutFocus]
  simp only [if_true]
  rw [if_neg (show ¬ ((false : Bool) = true) by simp)]
  simp only [hpg, Option.map_some', Option.getD_some]
  rw [hfind]
  rfl

/-- A TAB inside one layout, seen from the frame: the frame state moves from
canonical position `(k, T[j])` to `(k, T[j+1])`. -/
theorem frame_tab_within (LS : List LayoutS) (k : Nat) (hk : k < LS.length)
    (C : List (List Widg)) (j ci wi ci' wi' : Nat)
    (hclean : cleanCols C = true)
    (hT : (layoutTabs C).get? j = some (ci, wi))
    (hT' : (layoutTabs C).get? (j + 1) = some (ci', wi')) :
    tabStep ⟨LS.set k (canonLayout C ci wi), (k : Int)⟩ =
      ⟨LS.set k (canonLayout C ci' wi'), (k : Int)⟩ := by
  have hk2 : k < (LS.set k (canonLayout C ci wi)).length := by
    rw [List.length_set]
    exact hk
  have hget : pyGet (LS.set k (canonLayout C ci wi)) ((k : Nat) : Int) =
      some (canonLayout C ci wi) := by
    rw [pyGet_natCast, get?_set_self LS k _ hk]
  simp only [tabStep, evStep, frameProcessEvent]
  rw [hget]
  simp only [layout_tab_next C j ci wi ci' wi' hclean hT hT']
  rw [pyModify_natCast _ _ _ (canonLayout C ci wi) (get?_set_self LS k _ hk)]
  rw [List.set_set]

/-- A TAB from the last tab stop of layout `k`, seen from the frame: layout
`k` is re-homed to its first tab stop and blurred, the frame focus advances
(wrapping) to layout `k' = (k+1) mod L`, and that layout's first tab stop is
focused. -/
theorem frame_tab_leave (LS : List LayoutS) (k : Nat) (hk : k < LS.length)
    (C : List (List Widg)) (j ci wi q1 q2 : Nat)
    (hclean : cleanCols C = true)
    (hT : (layoutTabs C).get? j = some (ci, wi))
    (hTend : (layoutTabs C).get? (j + 1) = none)
    (hhead : (layoutTabs C).head? = some (q1, q2))
    (k' : Nat) (hk' : k' = if LS.length ≤ k + 1 then 0 else k + 1)
    (l' : LayoutS)
    (hl' : (LS.set k ⟨C, false, (q1 : Int), (q2 : Int)⟩).get? k' = some l')
    (q1' q2' : Nat)
    (hhead' : (layoutTabs l'.columns).head? = some (q1', q2')) :
    tabStep ⟨LS.set k (canonLayout C ci wi), (k : Int)⟩ =
      ⟨(LS.set k ⟨C, false, (q1 : Int), (q2 : Int)⟩).set k'
          (canonLayout l'.columns q1' q2'), (k' : Int)⟩ := by
  have hget : pyGet (LS.set k (canonLayout C ci wi)) ((k : Nat) : Int) =
      some (canonLayout C ci wi) := by
    rw [pyGet_natCast, get?_set_self LS k _ hk]
  simp only [tabStep, evStep, frameProcessEvent]
  rw [hget]
  simp only [layout_tab_wrap C j ci wi q1 q2 hclean hT hTend hhead]
  rw [pyModify_natCast _ _ _ (canonLayout C ci wi) (get?_set_self LS k _ hk),
    List.set_set]
  simp only [if_true]
  rw [pyModify_natCast _ _ layoutBlur (⟨C, true, (q1 : Int), (q2 : Int)⟩ : LayoutS)
    (get?_set_self LS k _ hk), List.set_set]
  have hblurred : layoutBlur (⟨C, true, (q1 : Int), (q2 : Int)⟩ : LayoutS) =
      (⟨C, false, (q1 : Int), (q2 : Int)⟩ : LayoutS) := by
    rw [layoutBlur, blurAtCursor]
    rw [show (⟨C, true, (q1 : Int), (q2 : Int)⟩ : LayoutS).columns = C from rfl]
    rw [modifyAt_blur_clean C _ _ hclean]
  rw [hblurred]
  have hf2 : (if ((LS.set k (⟨C, false, (q1 : Int), (q2 : Int)⟩ : LayoutS)).length : Int)
        ≤ (k : Int) + 1 then (0 : Int) else (k : Int) + 1) = ((k' : Nat) : Int) := by
    rw [List.length_set]
    by_cases hcase : LS.length ≤ k + 1
    · rw [if_pos (by exact_mod_cast hcase), hk', if_pos hcase]
      rfl
    · rw [if_neg (by push_cast; omega), hk', if_neg hcase]
      push_cast
      ring
  rw [hf2]
  rw [pyModify_natCast _ _ _ l' hl']
  rw [layoutFocus_first l' q1' q2' hhead']

/-- A BACK_TAB inside one layout, seen from the frame: the frame state moves
from canonical position `(k, T[j+1])` back to `(k, T[j])`. -/
theorem frame_backtab_within (LS : List LayoutS) (k : Nat) (hk : k < LS.length)
    (C : List (List Widg)) (j ci wi cip wip : Nat)
    (hclean : cleanCols C = true)
    (hT' : (layoutTabs C).get? (j + 1) = some (ci, wi))
    (hT : (layoutTabs C).get? j = some (cip, wip)) :
    backTabStep ⟨LS.set k (canonLayout C ci wi), (k : Int)⟩ =
      ⟨LS.set k (canonLayout C cip wip), (k : Int)⟩ := by
  have hget : pyGet (LS.set k (canonLayout C ci wi)) ((k : Nat) : Int) =
      some (canonLayout C ci wi) := by
    rw [pyGet_natCast, get?_set_self LS k _ hk]
  simp only [backTabStep, evStep, frameProcessEvent]
  rw [hget]
  simp only [layout_backtab_prev C j ci wi cip wip hclean hT' hT]
  rw [pyModify_natCast _ _ _ (canonLayout C ci wi) (get?_set_self LS k _ hk)]
  rw [List.set_set]

/-- A BACK_TAB from the first tab stop of layout `k`, seen from the frame:
layout `k` is re-homed to its last tab stop and blurred, the frame focus
recedes (wrapping) to layout `k' = (k-1) mod L`, and that layout's last tab
stop is focused. -/
theorem frame_backtab_leave (LS : List LayoutS) (k : Nat) (hk : k < LS.length)
    (C : List (List Widg)) (ci wi r1 r2 : Nat) (collast : List Widg)
    (hclean : cleanCols C = true)
    (hT0 : (layoutTabs C).get? 0 = some (ci, wi))
    (hlast : (layoutTabs C).getLast? = some (r1, r2))
    (hlastcol : C.get? (C.length - 1) = some collast)
    (k' : Nat) (hk' : k' = if k = 0 then LS.length - 1 else k - 1)
    (l' : LayoutS)
    (hl' : (LS.set k ⟨C, false, (r1 : Int), (r2 : Int)⟩).get? k' = some l')
    (r1' r2' : Nat)
    (hlast' : (layoutTabs l'.columns).getLast? = some (r1', r2')) :
    backTabStep ⟨LS.set k (canonLayout C ci wi), (k : Int)⟩ =
      ⟨(LS.set k ⟨C, false, (r1 : Int), (r2 : Int)⟩).set k'
          (canonLayout l'.columns r1' r2'), (k' : Int)⟩ := by
  have hget : pyGet (LS.set k (canonLayout C ci wi)) ((k : Nat) : Int) =
      some (canonLayout C ci wi) := by
    rw [pyGet_natCast, get?_set_self LS k _ hk]
  simp only [backTabStep, evStep, frameProcessEvent]
  rw [hget]
  simp only [layout_backtab_wrap C ci wi r1 r2 collast hclean hT0 hlast hlastcol]
  rw [pyModify_natCast _ _ _ (canonLayout C ci wi) (get?_set_self LS k _ hk),
    List.set_set]
  rw [if_neg (show ¬ (KEY_BACK_TAB = KEY_TAB) by decide)]
  simp only [if_true]
  rw [pyModify_natCast _ _ layoutBlur (⟨C, true, (r1 : Int), (r2 : Int)⟩ : LayoutS)
    (get?_set_self LS k _ hk), List.set_set]
  have hblurred : layoutBlur (⟨C, true, (r1 : Int), (r2 : Int)⟩ : LayoutS) =
      (⟨C, false, (r1 : Int), (r2 : Int)⟩ : LayoutS) := by
    rw [layoutBlur, blurAtCursor]
    rw [show (⟨C, true, (r1 : Int), (r2 : Int)⟩ : LayoutS).columns = C from rfl]
    rw [modifyAt_blur_clean C _ _ hclean]
  rw [hblurred]
  have hf2 : (if (k : Int) - 1 < 0 then
        ((LS.set k (⟨C, false, (r1 : Int), (r2 : Int)⟩ : LayoutS)).length : Int) - 1
      else (k : Int) - 1) = ((k' : Nat) : Int) := by
    rw [List.length_set]
    by_cases hcase : k = 0
    · rw [if_pos (by omega), hk', if_pos hcase]
      omega
    · rw [if_neg (by omega), hk', if_neg hcase]
      omega
  rw [hf2]
  rw [pyModify_natCast _ _ _ l' hl']
  rw [layoutFocus_last l' r1' r2' hlast']

/-- The frame's focus cursor: focused layout index plus that layout's live
widget position. -/
def frameFocus (s : FrameS) : Option (Int × Int × Int) :=
  (pyGet s.layouts s.focus).map fun l => (s.focus, l.liveCol, l.liveWidget)

/-- The widget the frame's focus cursor points at. -/
def focusedWidget (s : FrameS) : Option Widg :=
  (pyGet s.layouts s.focus).bind fun l => pyGet2 l.columns l.liveCol l.liveWidget

theorem frameFocus_canon (L1 : List LayoutS) (k : Nat) (C : List (List Widg))
    (ci wi : Nat) (hk : k < L1.length) :
    frameFocus ⟨L1.set k (canonLayout C ci wi), (k : Int)⟩ =
      some ((k : Int), (ci : Int), (wi : Int)) := by
  simp only [frameFocus]
  rw [pyGet_natCast, get?_set_self L1 k _ hk]
  rfl

theorem focusedWidget_canon (L1 : List LayoutS) (k : Nat) (C : List (List Widg))
    (ci wi : Nat) (hk : k < L1.length) (col : List Widg) (w : Widg)
    (hc : C.get? ci = some col) (hw : col.get? wi = some w) :
    focusedWidget ⟨L1.set k (canonLayout C ci wi), (k : Int)⟩ =
      some (focusW w) := by
  simp only [focusedWidget]
  rw [pyGet_natCast, get?_set_self L1 k _ hk, Option.some_bind]
  exact pyGet2_modifyAt_self C ci wi focusW col w hc hw

/-- `Frame.fix` puts the frame into the canonical state: the first tab stop
of the focused layout is focused. -/
theorem frameFix_canon (LS : List LayoutS) (k : Nat) (l : LayoutS) (q1 q2 : Nat)
    (hget : LS.get? k = some l)
    (hhead : (layoutTabs l.columns).head? = some (q1, q2)) :
    frameFix ⟨LS, (k : Int)⟩ =
      ⟨LS.set k (canonLayout l.columns q1 q2), (k : Int)⟩ := by
  simp only [frameFix]
  rw [pyModify_natCast _ _ _ l hget, layoutFocus_first l q1 q2 hhead]

theorem ne_nil_head? (L : List α) (h : L ≠ []) : ∃ p, L.head? = some p := by
  cases L with
  | nil => exact absurd rfl h
  | cons a t => exact ⟨a, rfl⟩

theorem ne_nil_getLast? (L : List α) (h : L ≠ []) : ∃ p, L.getLast? = some p := by
  have hpos : 0 < L.length := List.length_pos.mpr h
  obtain ⟨p, hp⟩ : ∃ p, L.get? (L.length - 1) = some p :=
    ⟨L.get ⟨L.length - 1, by omega⟩, List.get?_eq_get (by omega)⟩
  exact ⟨p, by rw [getLast?_eq_get?_pred]; exact hp⟩

/-- C3: from any focused tab-stop position of a frame whose layouts all are
clean and all contain a tab stop, one forward TAB followed by one BACK_TAB
restores both the frame's focus cursor and the focused widget — including
across a layout boundary, where the forward tab wraps into the next layout
and the backward tab returns to the last tab stop of the original layout. -/
theorem frame_tab_backtab_roundtrip (LS : List LayoutS) (k : Nat)
    (C : List (List Widg)) (j ci wi : Nat)
    (hk : k < LS.length)
    (hclean : cleanCols C = true)
    (hT : (layoutTabs C).get? j = some (ci, wi))
    (hall : ∀ l ∈ LS, cleanCols l.columns = true ∧ layoutTabs l.columns ≠ []) :
    frameFocus (backTabStep (tabStep ⟨LS.set k (canonLayout C ci wi), (k : Int)⟩)) =
        frameFocus ⟨LS.set k (canonLayout C ci wi), (k : Int)⟩ ∧
      focusedWidget (backTabStep (tabStep ⟨LS.set k (canonLayout C ci wi), (k : Int)⟩)) =
        focusedWidget ⟨LS.set k (canonLayout C ci wi), (k : Int)⟩ := by
  cases hnext : (layoutTabs C).get? (j + 1) with
  | some p =>
    obtain ⟨ci', wi'⟩ := p
    rw [frame_tab_within LS k hk C j ci wi ci' wi' hclean hT hnext,
      frame_backtab_within LS k hk C j ci' wi' ci wi hclean hnext hT]
    exact ⟨rfl, rfl⟩
  | none =>
    obtain ⟨col, w, hc, hw, htab⟩ := layoutTabs_entry C j ci wi hT
    have hjlt : j < (layoutTabs C).length := (List.get?_eq_some.mp hT).1
    have hjlen : j + 1 = (layoutTabs C).length := by
      have h2 : (layoutTabs C).length ≤ j + 1 := List.get?_eq_none.mp hnext
      omega
    have hlastC : (layoutTabs C).getLast? = some (ci, wi) := by
      rw [getLast?_eq_get?_pred, show (layoutTabs C).length - 1 = j from by omega]
      exact hT
    have htne : layoutTabs C ≠ [] := by
      intro hx
      rw [hx] at hT
      cases hT
    obtain ⟨⟨q1, q2⟩, hhead⟩ := ne_nil_head? _ htne
    have hk'lt : (if LS.length ≤ k + 1 then 0 else k + 1) < LS.length := by
      split_ifs <;> omega
    have hlen2 : (LS.set k (⟨C, false, (q1 : Int), (q2 : Int)⟩ : LayoutS)).length =
        LS.length := List.length_set LS _ _
    obtain ⟨l', hl'⟩ : ∃ x, (LS.set k ⟨C, false, (q1 : Int), (q2 : Int)⟩).get?
        (if LS.length ≤ k + 1 then 0 else k + 1) = some x :=
      ⟨_, List.get?_eq_get (by rw [hlen2]; exact hk'lt)⟩
    have hl'cols : cleanCols l'.columns = true ∧ layoutTabs l'.columns ≠ [] := by
      by_cases hkk : (if LS.length ≤ k + 1 then 0 else k + 1) = k
      · rw [hkk, get?_set_self LS k _ hk] at hl'
        cases hl'
        exact ⟨hclean, htne⟩
      · rw [List.get?_set_ne _ _ (fun h => hkk h.symm)] at hl'
        exact hall l' (List.get?_mem hl')
    obtain ⟨⟨q1', q2'⟩, hhead'⟩ := ne_nil_head? _ hl'cols.2
    have hstep1 := frame_tab_leave LS k hk C j ci wi q1 q2 hclean hT hnext hhead
      (if LS.length ≤ k + 1 then 0 else k + 1) rfl l' hl' q1' q2' hhead'
    obtain ⟨⟨r1', r2'⟩, hlast'⟩ := ne_nil_getLast? _ hl'cols.2
    have hT0' : (layoutTabs l'.columns).get? 0 = some (q1', q2') := by
      rw [← head?_eq_get?_zero]
      exact hhead'
    have hcolpos : 0 < l'.columns.length := by
      rcases Nat.eq_zero_or_pos l'.columns.length with h0 | h
      · exact absurd (by rw [List.length_eq_zero.mp h0]; rfl) hl'cols.2
      · exact h
    obtain ⟨collast', hcollast'⟩ :
        ∃ x, l'.columns.get? (l'.columns.length - 1) = some x :=
      ⟨l'.columns.get ⟨l'.columns.length - 1, by omega⟩, List.get?_eq_get (by omega)⟩
    have hk2lt : (if LS.length ≤ k + 1 then 0 else k + 1) <
        (LS.set k (⟨C, false, (q1 : Int), (q2 : Int)⟩ : LayoutS)).length := by
      rw [hlen2]
      exact hk'lt
    have hk''eq : (if (if LS.length ≤ k + 1 then 0 else k + 1) = 0 then
        (LS.set k (⟨C, false, (q1 : Int), (q2 : Int)⟩ : LayoutS)).length - 1
        else (if LS.length ≤ k + 1 then 0 else k + 1) - 1) = k := by
      simp only [hlen2]
      by_cases hcase : LS.length ≤ k + 1
      · rw [if_pos hcase, if_pos rfl]
        omega
      · rw [if_neg hcase, if_neg (by omega)]
        omega
    obtain ⟨l'', hl''⟩ : ∃ x,
        ((LS.set k ⟨C, false, (q1 : Int), (q2 : Int)⟩).set
          (if LS.length ≤ k + 1 then 0 else k + 1)
          ⟨l'.columns, false, (r1' : Int), (r2' : Int)⟩).get? k = some x :=
      ⟨_, List.get?_eq_get (by
        rw [List.length_set, hlen2]
        exact hk)⟩
    have hl''cols : l''.columns = C := by
      by_cases hkk : (if LS.length ≤ k + 1 then 0 else k + 1) = k
      · rw [hkk] at hl' hl''
        rw [get?_set_self _ _ _ (show k < (LS.set k
            (⟨C, false, (q1 : Int), (q2 : Int)⟩ : LayoutS)).length from by
          rw [hlen2]; exact hk)] at hl''
        cases hl''
        rw [get?_set_self LS k _ hk] at hl'
        cases hl'
        rfl
      · rw [List.get?_set_ne _ _ hkk, get?_set_self LS k _ hk] at hl''
        cases hl''
        rfl
    have hlast'' : (layoutTabs l''.columns).getLast? = some (ci, wi) := by
      rw [hl''cols]
      exact hlastC
    have hstep2 := frame_backtab_leave
      (LS.set k ⟨C, false, (q1 : Int), (q2 : Int)⟩)
      (if LS.length ≤ k + 1 then 0 else k + 1) hk2lt
      l'.columns q1' q2' r1' r2' collast' hl'cols.1 hT0' hlast' hcollast'
      k hk''eq.symm l'' hl'' ci wi hlast''
    rw [hstep1, hstep2]
    have hlenfin : k < ((LS.set k ⟨C, false, (q1 : Int), (q2 : Int)⟩).set
        (if LS.length ≤ k + 1 then 0 else k + 1)
        ⟨l'.columns, false, (r1' : Int), (r2' : Int)⟩).length := by
      rw [List.length_set, hlen2]
      exact hk
    constructor
    · rw [frameFocus_canon _ _ _ _ _ hlenfin, frameFocus_canon _ _ _ _ _ hk]
    · rw [focusedWidget_canon _ _ _ _ _ hlenfin _ _
          (hl''cols.symm ▸ hc : l''.columns.get? ci = some col) hw,
        focusedWidget_canon _ _ _ _ _ hk _ _ hc hw]

/-- Witness for `frame_tab_backtab_roundtrip`: a two-layout frame (a Text
widget alone, then a CheckBox alone) starting from the Text widget, where the
forward tab crosses the layout boundary. -/
theorem frame_tab_backtab_roundtrip_witness :
    0 < ([mkLayout [[mkText ['a'] none]],
      mkLayout [[mkCheckBox "c" none]]] : List LayoutS).length ∧
    cleanCols [[mkText ['a'] none]] = true ∧
    (layoutTabs [[mkText ['a'] none]]).get? 0 = some (0, 0) ∧
    (∀ l ∈ ([mkLayout [[mkText ['a'] none]],
        mkLayout [[mkCheckBox "c" none]]] : List LayoutS),
      cleanCols l.columns = true ∧ layoutTabs l.columns ≠ []) ∧
    (frameFocus (backTabStep (tabStep
          ⟨([mkLayout [[mkText ['a'] none]],
              mkLayout [[mkCheckBox "c" none]]] : List LayoutS).set 0
            (canonLayout [[mkText ['a'] none]] 0 0), ((0 : Nat) : Int)⟩)) =
        frameFocus ⟨([mkLayout [[mkText ['a'] none]],
              mkLayout [[mkCheckBox "c" none]]] : List LayoutS).set 0
            (canonLayout [[mkText ['a'] none]] 0 0), ((0 : Nat) : Int)⟩ ∧
      focusedWidget (backTabStep (tabStep
          ⟨([mkLayout [[mkText ['a'] none]],
              mkLayout [[mkCheckBox "c" none]]] : List LayoutS).set 0
            (canonLayout [[mkText ['a'] none]] 0 0), ((0 : Nat) : Int)⟩)) =
        focusedWidget ⟨([mkLayout [[mkText ['a'] none]],
              mkLayout [[mkCheckBox "c" none]]] : List LayoutS).set 0
            (canonLayout [[mkText ['a'] none]] 0 0), ((0 : Nat) : Int)⟩) :=
  ⟨by decide, by decide, by decide, by decide,
    frame_tab_backtab_roundtrip
      [mkLayout [[mkText ['a'] none]], mkLayout [[mkCheckBox "c" none]]]
      0 [[mkText ['a'] none]] 0 0 0 (by decide) (by decide) (by decide)
      (by decide)⟩

/-- Walking forward with TAB through the remaining tab stops of the focused
layout reaches its last tab stop, staying inside layout `k`. -/
theorem tabSteps_walk (LS : List LayoutS) (k : Nat) (C : List (List Widg))
    (hk : k < LS.length) (hclean : cleanCols C = true) :
    ∀ (m j ci wi cl wl : Nat),
      (layoutTabs C).get? j = some (ci, wi) →
      j + m + 1 = (layoutTabs C).length →
      (layoutTabs C).getLast? = some (cl, wl) →
      tabStep^[m] ⟨LS.set k (canonLayout C ci wi), (k : Int)⟩ =
        ⟨LS.set k (canonLayout C cl wl), (k : Int)⟩ := by
  intro m
  induction m with
  | zero =>
    intro j ci wi cl wl hT hlen hlast
    rw [getLast?_eq_get?_pred,
      show (layoutTabs C).length - 1 = j from by omega, hT] at hlast
    simp only [Option.some.injEq, Prod.mk.injEq] at hlast
    obtain ⟨h1, h2⟩ := hlast
    subst h1
    subst h2
    rfl
  | succ m ih =>
    intro j ci wi cl wl hT hlen hlast
    obtain ⟨⟨ci', wi'⟩, hT'⟩ : ∃ p, (layoutTabs C).get? (j + 1) = some p :=
      ⟨(layoutTabs C).get ⟨j + 1, by omega⟩, List.get?_eq_get (by omega)⟩
    rw [Function.iterate_succ_apply,
      frame_tab_within LS k hk C j ci wi ci' wi' hclean hT hT']
    exact ih (j + 1) ci' wi' cl wl hT' (by omega) hlast

/-- One full TAB pass over layout `k`: starting from its first tab stop,
`|layoutTabs C|` TABs re-home layout `k` and land on the first tab stop of
the next layout (with wraparound). -/
theorem tabSteps_pass (LS : List LayoutS) (k : Nat) (C : List (List Widg))
    (q1 q2 : Nat) (hk : k < LS.length) (hclean : cleanCols C = true)
    (hhead : (layoutTabs C).head? = some (q1, q2))
    (k' : Nat) (hk' : k' = if LS.length ≤ k + 1 then 0 else k + 1)
    (l' : LayoutS)
    (hl' : (LS.set k ⟨C, false, (q1 : Int), (q2 : Int)⟩).get? k' = some l')
    (q1' q2' : Nat)
    (hhead' : (layoutTabs l'.columns).head? = some (q1', q2')) :
    tabStep^[(layoutTabs C).length] ⟨LS.set k (canonLayout C q1 q2), (k : Int)⟩ =
      ⟨(LS.set k ⟨C, false, (q1 : Int), (q2 : Int)⟩).set k'
          (canonLayout l'.columns q1' q2'), (k' : Int)⟩ := by
  have htne : layoutTabs C ≠ [] := by
    intro hx
    rw [hx] at hhead
    cases hhead
  have hpos : 0 < (layoutTabs C).length := List.length_pos.mpr htne
  obtain ⟨⟨cl, wl⟩, hlast⟩ := ne_nil_getLast? _ htne
  have hT0 : (layoutTabs C).get? 0 = some (q1, q2) := by
    rw [← head?_eq_get?_zero]
    exact hhead
  have hTl : (layoutTabs C).get? ((layoutTabs C).length - 1) = some (cl, wl) := by
    rw [← getLast?_eq_get?_pred]
    exact hlast
  have hsplit : (layoutTabs C).length = 1 + ((layoutTabs C).length - 1) := by omega
  rw [hsplit, Function.iterate_add_apply,
    tabSteps_walk LS k C hk hclean ((layoutTabs C).length - 1) 0 q1 q2 cl wl hT0
      (by omega) hlast, Function.iterate_one]
  exact frame_tab_leave LS k hk C ((layoutTabs C).length - 1) cl wl q1 q2 hclean
    hTl (List.get?_eq_none.mpr (by omega)) hhead k' hk' l' hl' q1' q2' hhead'

/-- A run of TAB passes over layouts `k, k+1, …, k+m-1` (no wraparound):
consuming one full pass worth of TABs per layout moves the canonical focus
from the first tab stop of layout `k` to the first tab stop of layout `k+m`,
while every layout keeps its columns. -/
theorem tabSteps_phase : ∀ (m : Nat) (LS : List LayoutS) (k : Nat)
    (lk : LayoutS) (q1 q2 : Nat),
    k + m < LS.length →
    (∀ l ∈ LS, cleanCols l.columns = true ∧ layoutTabs l.columns ≠ []) →
    LS.get? k = some lk →
    (layoutTabs lk.columns).head? = some (q1, q2) →
    ∃ (LS' : List LayoutS) (lk' : LayoutS) (q1' q2' : Nat),
      tabStep^[(((LS.map (fun l => (layoutTabs l.columns).length)).drop k).take m).sum]
          ⟨LS.set k (canonLayout lk.columns q1 q2), (k : Int)⟩ =
        ⟨LS'.set (k + m) (canonLayout lk'.columns q1' q2'), ((k + m : Nat) : Int)⟩ ∧
      LS'.map (fun l => l.columns) = LS.map (fun l => l.columns) ∧
      LS'.length = LS.length ∧
      (∀ l ∈ LS', cleanCols l.columns = true ∧ layoutTabs l.columns ≠ []) ∧
      LS'.get? (k + m) = some lk' ∧
      (layoutTabs lk'.columns).head? = some (q1', q2') := by
  intro m
  induction m with
  | zero =>
    intro LS k lk q1 q2 hklt hall hget hhead
    refine ⟨LS, lk, q1, q2, ?_, rfl, rfl, hall, hget, hhead⟩
    simp only [List.take_zero, List.sum_nil, Function.iterate_zero, id]
    rfl
  | succ m ih =>
    intro LS k lk q1 q2 hklt hall hget hhead
    have hcleank : cleanCols lk.columns = true := (hall lk (List.get?_mem hget)).1
    have hk : k < LS.length := by omega
    have hk'eq : (if LS.length ≤ k + 1 then 0 else k + 1) = k + 1 :=
      if_neg (by omega)
    obtain ⟨l', hl'⟩ : ∃ x, (LS.set k
        (⟨lk.columns, false, (q1 : Int), (q2 : Int)⟩ : LayoutS)).get? (k + 1) =
        some x :=
      ⟨_, List.get?_eq_get (by rw [List.length_set]; omega)⟩
    have hl'LS : LS.get? (k + 1) = some l' := by
      rw [List.get?_set_ne _ _ (by omega)] at hl'
      exact hl'
    have hl'props := hall l' (List.get?_mem hl'LS)
    obtain ⟨⟨p1, p2⟩, hhead'⟩ := ne_nil_head? _ hl'props.2
    have hpass := tabSteps_pass LS k lk.columns q1 q2 hk hcleank hhead (k + 1)
      hk'eq.symm l' hl' p1 p2 hhead'
    have hlen1 : (LS.set k
        (⟨lk.columns, false, (q1 : Int), (q2 : Int)⟩ : LayoutS)).length =
        LS.length := List.length_set _ _ _
    have hall1 : ∀ l ∈ LS.set k
        (⟨lk.columns, false, (q1 : Int), (q2 : Int)⟩ : LayoutS),
        cleanCols l.columns = true ∧ layoutTabs l.columns ≠ [] := by
      intro l hl
      rcases List.mem_or_eq_of_mem_set hl with hmem | heq
      · exact hall l hmem
      · rw [heq]
        exact ⟨hcleank, (hall lk (List.get?_mem hget)).2⟩
    have hmap1 : (LS.set k
        (⟨lk.columns, false, (q1 : Int), (q2 : Int)⟩ : LayoutS)).map
          (fun l => l.columns) = LS.map (fun l => l.columns) := by
      rw [List.map_set]
      apply set_get?_self
      rw [List.get?_map, hget]
      rfl
    obtain ⟨LS', lk', q1', q2', hiter, hmap, hlen', hall', hget', hhead''⟩ :=
      ih (LS.set k (⟨lk.columns, false, (q1 : Int), (q2 : Int)⟩ : LayoutS))
        (k + 1) l' p1 p2 (by rw [hlen1]; omega) hall1 hl' hhead'
    have hmapf : (LS.set k
        (⟨lk.columns, false, (q1 : Int), (q2 : Int)⟩ : LayoutS)).map
          (fun l => (layoutTabs l.columns).length) =
        LS.map (fun l => (layoutTabs l.columns).length) := by
      have h2 := congrArg (List.map fun c => (layoutTabs c).length) hmap1
      rw [List.map_map, List.map_map] at h2
      exact h2
    rw [hmapf] at hiter
    have hgf : (LS.map (fun l => (layoutTabs l.columns).length)).get? k =
        some ((layoutTabs lk.columns).length) := by
      rw [List.get?_map, hget]
      rfl
    have hdropk : (LS.map (fun l => (layoutTabs l.columns).length)).drop k =
        (layoutTabs lk.columns).length ::
          (LS.map (fun l => (layoutTabs l.columns).length)).drop (k + 1) := by
      have h1 : k < (LS.map (fun l => (layoutTabs l.columns).length)).length := by
        rw [List.length_map]
        omega
      rw [List.drop_eq_get_cons h1]
      congr 1
      have h3 := List.get?_eq_get h1
      rw [hgf] at h3
      exact (Option.some.inj h3).symm
    have hsum : (((LS.map (fun l => (layoutTabs l.columns).length)).drop k).take
        (m + 1)).sum =
        (((LS.map (fun l => (layoutTabs l.columns).length)).drop (k + 1)).take
          m).sum + (layoutTabs lk.columns).length := by
      rw [hdropk, List.take_succ_cons, List.sum_cons]
      omega
    have hidx : k + 1 + m = k + (m + 1) := by omega
    rw [hidx] at hiter
    refine ⟨LS', lk', q1', q2', ?_, by rw [hmap, hmap1], by rw [hlen', hlen1],
      hall', by rw [← hidx]; exact hget', hhead''⟩
    rw [hsum, Function.iterate_add_apply, hpass, hiter]
/-- C2: after `fix`, delivering the forward-tab key exactly N times — where N
is the total number of tab stops across all layouts — returns the frame's
focus cursor and the focused widget to their values before the first TAB
(wraparound closure).  In particular, in a frame of two layouts, the first
holding one Text widget and the second holding a CheckBox then a
RadioButtons, forward-tab from the Text lands on the CheckBox, a second on
the RadioButtons, and a third back on the Text. -/
theorem frame_tab_cycle (LS : List LayoutS) (k0 : Nat) (lk0 : LayoutS)
    (q1 q2 : Nat)
    (hk0 : k0 < LS.length)
    (hall : ∀ l ∈ LS, cleanCols l.columns = true ∧ layoutTabs l.columns ≠ [])
    (hget : LS.get? k0 = some lk0)
    (hhead : (layoutTabs lk0.columns).head? = some (q1, q2)) :
    (frameFocus (tabStep^[(LS.map (fun l => (layoutTabs l.columns).length)).sum]
          (frameFix ⟨LS, (k0 : Int)⟩)) =
        frameFocus (frameFix ⟨LS, (k0 : Int)⟩) ∧
      focusedWidget (tabStep^[(LS.map (fun l => (layoutTabs l.columns).length)).sum]
          (frameFix ⟨LS, (k0 : Int)⟩)) =
        focusedWidget (frameFix ⟨LS, (k0 : Int)⟩)) ∧
    (focusedWidget (frameFix ⟨[mkLayout [[mkText ['a'] none]],
          mkLayout [[mkCheckBox "c" none, mkRadioBtns [("r", 0)] none]]], 0⟩) =
        some (focusW (mkText ['a'] none)) ∧
      focusedWidget (tabStep (frameFix ⟨[mkLayout [[mkText ['a'] none]],
          mkLayout [[mkCheckBox "c" none, mkRadioBtns [("r", 0)] none]]], 0⟩)) =
        some (focusW (mkCheckBox "c" none)) ∧
      focusedWidget (tabStep (tabStep (frameFix ⟨[mkLayout [[mkText ['a'] none]],
          mkLayout [[mkCheckBox "c" none, mkRadioBtns [("r", 0)] none]]], 0⟩))) =
        some (focusW (mkRadioBtns [("r", 0)] none)) ∧
      focusedWidget (tabStep (tabStep (tabStep
          (frameFix ⟨[mkLayout [[mkText ['a'] none]],
            mkLayout [[mkCheckBox "c" none, mkRadioBtns [("r", 0)] none]]], 0⟩)))) =
        some (focusW (mkText ['a'] none))) := by
  refine ⟨?_, by decide, by decide, by decide, by decide⟩
  set f : LayoutS → Nat := fun l => (layoutTabs l.columns).length with hf
  obtain ⟨LS1, lkA, a1, a2, hiterA, hmapA, hlenA, hallA, hgetA, hheadA⟩ :=
    tabSteps_phase (LS.length - 1 - k0) LS k0 lk0 q1 q2 (by omega) hall hget hhead
  have hposA : k0 + (LS.length - 1 - k0) = LS.length - 1 := by omega
  rw [hposA] at hiterA hgetA
  have hcleanA : cleanCols lkA.columns = true := (hallA lkA (List.get?_mem hgetA)).1
  have htabsA : layoutTabs lkA.columns ≠ [] := (hallA lkA (List.get?_mem hgetA)).2
  have hkA : LS.length - 1 < LS1.length := by
    rw [hlenA]
    omega
  have hk'A : (0 : Nat) = if LS1.length ≤ (LS.length - 1) + 1 then 0
      else (LS.length - 1) + 1 := by
    rw [hlenA, if_pos (by omega)]
  obtain ⟨lB, hlB⟩ : ∃ x, (LS1.set (LS.length - 1)
      (⟨lkA.columns, false, (a1 : Int), (a2 : Int)⟩ : LayoutS)).get? 0 = some x :=
    ⟨_, List.get?_eq_get (by rw [List.length_set]; omega)⟩
  have hlBprops : cleanCols lB.columns = true ∧ layoutTabs lB.columns ≠ [] := by
    rcases List.mem_or_eq_of_mem_set (List.get?_mem hlB) with hmem | heq
    · exact hallA lB hmem
    · rw [heq]
      exact ⟨hcleanA, htabsA⟩
  obtain ⟨⟨b1, b2⟩, hheadB⟩ := ne_nil_head? _ hlBprops.2
  have hpass := tabSteps_pass LS1 (LS.length - 1) lkA.columns a1 a2 hkA hcleanA
    hheadA 0 hk'A lB hlB b1 b2 hheadB
  set LS2 := LS1.set (LS.length - 1)
    (⟨lkA.columns, false, (a1 : Int), (a2 : Int)⟩ : LayoutS) with hLS2def
  have hlen2 : LS2.length = LS.length := by
    rw [hLS2def, List.length_set, hlenA]
  have hall2 : ∀ l ∈ LS2, cleanCols l.columns = true ∧ layoutTabs l.columns ≠ [] := by
    intro l hl
    rcases List.mem_or_eq_of_mem_set hl with hmem | heq
    · exact hallA l hmem
    · rw [heq]
      exact ⟨hcleanA, htabsA⟩
  have hmap2 : LS2.map (fun l => l.columns) = LS.map (fun l => l.columns) := by
    rw [← hmapA, hLS2def]
    simp only [List.map_set]
    exact set_get?_self _ _ _ (by rw [List.get?_map, hgetA]; rfl)
  obtain ⟨LS3, lkB, c1, c2, hiterB, hmapB, hlenB, hallB, hgetB, hheadC⟩ :=
    tabSteps_phase k0 LS2 0 lB b1 b2 (by rw [hlen2]; omega) hall2 hlB hheadB
  rw [Nat.zero_add] at hiterB hgetB
  have hmapfA : LS1.map f = LS.map f := by
    have h2 := congrArg (List.map fun c => (layoutTabs c).length) hmapA
    rw [List.map_map, List.map_map] at h2
    exact h2
  have hmapf2 : LS2.map f = LS.map f := by
    have h2 := congrArg (List.map fun c => (layoutTabs c).length) hmap2
    rw [List.map_map, List.map_map] at h2
    exact h2
  rw [hmapf2, List.drop_zero] at hiterB
  have hTLget : (LS.map f).get? (LS.length - 1) = some (f lkA) := by
    rw [← hmapfA, List.get?_map, hgetA]
    rfl
  have hlt1 : LS.length - 1 < (LS.map f).length := by
    rw [List.length_map]
    omega
  have hd : (LS.map f).drop (LS.length - 1) = [f lkA] := by
    rw [List.drop_eq_get_cons hlt1]
    have h3 := List.get?_eq_get hlt1
    rw [hTLget] at h3
    rw [← Option.some.inj h3]
    rw [show LS.length - 1 + 1 = LS.length from by omega,
      show LS.length = (LS.map f).length from (List.length_map _ _).symm,
      List.drop_length]
  have e1 : (LS.map f).sum = ((LS.map f).take k0).sum + ((LS.map f).drop k0).sum := by
    conv_lhs => rw [← List.take_append_drop k0 (LS.map f)]
    rw [List.sum_append]
  have e2 : ((LS.map f).drop k0).sum =
      (((LS.map f).drop k0).take (LS.length - 1 - k0)).sum +
        (((LS.map f).drop k0).drop (LS.length - 1 - k0)).sum := by
    conv_lhs => rw [← List.take_append_drop (LS.length - 1 - k0) ((LS.map f).drop k0)]
    rw [List.sum_append]
  have e3 : (((LS.map f).drop k0).drop (LS.length - 1 - k0)).sum = f lkA := by
    have h4 : ((LS.map f).drop k0).drop (LS.length - 1 - k0) =
        (LS.map f).drop (LS.length - 1) := by
      rw [List.drop_drop]
      congr 1
    rw [h4, hd]
    simp
  have hN : (LS.map f).sum = ((LS.map f).take k0).sum +
      (f lkA + (((LS.map f).drop k0).take (LS.length - 1 - k0)).sum) := by
    omega
  rw [frameFix_canon LS k0 lk0 q1 q2 hget hhead, hN, Function.iterate_add_apply,
    Function.iterate_add_apply, hiterA]
  rw [show f lkA = (layoutTabs lkA.columns).length from rfl]
  rw [hpass, hiterB]
  have hcolsB : lkB.columns = lk0.columns := by
    have h1 : (LS3.map (fun l => l.columns)).get? k0 = some lkB.columns := by
      rw [List.get?_map, hgetB]
      rfl
    rw [hmapB, hmap2, List.get?_map, hget] at h1
    exact (Option.some.inj h1).symm
  have h5 : (q1, q2) = (c1, c2) := by
    have h6 : (layoutTabs lk0.columns).head? = some (c1, c2) := by
      rw [← hcolsB]
      exact hheadC
    rw [hhead] at h6
    exact Option.some.inj h6
  simp only [Prod.mk.injEq] at h5
  rw [← h5.1, ← h5.2]
  have hlenfin : k0 < LS3.length := by
    rw [hlenB, hlen2]
    omega
  obtain ⟨col, w, hc, hw, htab⟩ := layoutTabs_entry lk0.columns 0 q1 q2
    (by rw [← head?_eq_get?_zero]; exact hhead)
  constructor
  · rw [hcolsB, frameFocus_canon _ _ _ _ _ hlenfin, frameFocus_canon _ _ _ _ _ hk0]
  · rw [hcolsB, focusedWidget_canon _ _ _ _ _ hlenfin _ _ hc hw,
      focusedWidget_canon _ _ _ _ _ hk0 _ _ hc hw]
/-- Witness for `frame_tab_cycle`: the two-layout frame of the concrete
scenario itself, whose three tab stops cycle in three TABs. -/
theorem frame_tab_cycle_witness :
    0 < ([mkLayout [[mkText ['a'] none]],
      mkLayout [[mkCheckBox "c" none, mkRadioBtns [("r", 0)] none]]] :
        List LayoutS).length ∧
    (∀ l ∈ ([mkLayout [[mkText ['a'] none]],
        mkLayout [[mkCheckBox "c" none, mkRadioBtns [("r", 0)] none]]] :
          List LayoutS),
      cleanCols l.columns = true ∧ layoutTabs l.columns ≠ []) ∧
    ([mkLayout [[mkText ['a'] none]],
      mkLayout [[mkCheckBox "c" none, mkRadioBtns [("r", 0)] none]]] :
        List LayoutS).get? 0 = some (mkLayout [[mkText ['a'] none]]) ∧
    (layoutTabs (mkLayout [[mkText ['a'] none]]).columns).head? = some (0, 0) ∧
    (frameFocus (tabStep^[(([mkLayout [[mkText ['a'] none]],
          mkLayout [[mkCheckBox "c" none, mkRadioBtns [("r", 0)] none]]] :
            List LayoutS).map
          (fun l => (layoutTabs l.columns).length)).sum]
          (frameFix ⟨[mkLayout [[mkText ['a'] none]],
            mkLayout [[mkCheckBox "c" none, mkRadioBtns [("r", 0)] none]]],
            ((0 : Nat) : Int)⟩)) =
        frameFocus (frameFix ⟨[mkLayout [[mkText ['a'] none]],
          mkLayout [[mkCheckBox "c" none, mkRadioBtns [("r", 0)] none]]],
          ((0 : Nat) : Int)⟩) ∧
      focusedWidget (tabStep^[(([mkLayout [[mkText ['a'] none]],
          mkLayout [[mkCheckBox "c" none, mkRadioBtns [("r", 0)] none]]] :
            List LayoutS).map
          (fun l => (layoutTabs l.columns).length)).sum]
          (frameFix ⟨[mkLayout [[mkText ['a'] none]],
            mkLayout [[mkCheckBox "c" none, mkRadioBtns [("r", 0)] none]]],
            ((0 : Nat) : Int)⟩)) =
        focusedWidget (frameFix ⟨[mkLayout [[mkText ['a'] none]],
          mkLayout [[mkCheckBox "c" none, mkRadioBtns [("r", 0)] none]]],
          ((0 : Nat) : Int)⟩)) :=
  ⟨by decide, by decide, by decide, by decide,
    (frame_tab_cycle
      [mkLayout [[mkText ['a'] none]],
        mkLayout [[mkCheckBox "c" none, mkRadioBtns [("r", 0)] none]]]
      0 (mkLayout [[mkText ['a'] none]]) 0 0 (by decide) (by decide) (by decide)
      (by decide)).1⟩

/-- Only the widget at Python position `(a, b)` may carry `_has_focus`. -/
def OnlyAt (cols : List (List Widg)) (a b : Int) : Prop :=
  ∀ ci col wi w, cols.get? ci = some col → col.get? wi = some w →
    w.hasFocus = true → (ci : Int) = a ∧ (wi : Int) = b

theorem OnlyAt_of_clean (cols : List (List Widg)) (a b : Int)
    (h : cleanCols cols = true) : OnlyAt cols a b := by
  intro ci col wi w hc hw hf
  rw [cleanCols_get cols h ci wi col w hc hw] at hf
  cases hf

/-- Where a widget of `modifyAt cols a b f` comes from. -/
theorem modifyAt_widget (cols : List (List Widg)) (a b : Int) (f : Widg → Widg)
    (ci wi : Nat) (col' : List Widg) (w' : Widg)
    (hcol' : (modifyAt cols a b f).get? ci = some col')
    (hw' : col'.get? wi = some w') :
    ∃ col w, cols.get? ci = some col ∧ col.get? wi = some w ∧
      ((w' = w ∧ ¬(pyIdx cols.length a = some ci ∧ pyIdx col.length b = some wi))
        ∨ (w' = f w ∧ pyIdx cols.length a = some ci ∧
            pyIdx col.length b = some wi)) := by
  rw [modifyAt, get?_pyModify] at hcol'
  by_cases hia : pyIdx cols.length a = some ci
  · rw [if_pos hia] at hcol'
    cases hcg : cols.get? ci with
    | none =>
      rw [hcg] at hcol'
      cases hcol'
    | some col =>
      rw [hcg, Option.map_some'] at hcol'
      cases hcol'
      rw [get?_pyModify] at hw'
      by_cases hib : pyIdx col.length b = some wi
      · rw [if_pos hib] at hw'
        cases hwg : col.get? wi with
        | none =>
          rw [hwg] at hw'
          cases hw'
        | some w =>
          rw [hwg, Option.map_some'] at hw'
          cases hw'
          exact ⟨col, w, rfl, hwg, Or.inr ⟨rfl, hia, hib⟩⟩
      · rw [if_neg hib] at hw'
        exact ⟨col, w', rfl, hw', Or.inl ⟨rfl, fun h => hib h.2⟩⟩
  · rw [if_neg hia] at hcol'
    exact ⟨col', w', hcol', hw', Or.inl ⟨rfl, fun h => hia h.1⟩⟩

/-- A non-negative index resolves in the plain way. -/
theorem pyIdx_some_nonneg (len : Nat) (a : Int) (n : Nat) (h0 : 0 ≤ a)
    (h : pyIdx len a = some n) : a = (n : Int) := by
  rw [pyIdx] at h
  split_ifs at h with h1 h2
  · cases h
    omega
  · cases h
    omega

/-- Blurring at the only possibly-focused position leaves no focus at all. -/
theorem cleanCols_blurAt (cols : List (List Widg)) (a b : Int)
    (hinv : OnlyAt cols a b) : cleanCols (modifyAt cols a b blurW) = true := by
  rw [cleanCols, List.all_eq_true]
  intro col' hcol'
  rw [List.all_eq_true]
  intro w' hw'
  obtain ⟨ci, hci⟩ := List.mem_iff_get?.mp hcol'
  obtain ⟨wi, hwi⟩ := List.mem_iff_get?.mp hw'
  simp only [Bool.not_eq_true']
  by_contra hfoc
  rw [Bool.not_eq_false] at hfoc
  obtain ⟨col, w, hc, hw, hcase⟩ :=
    modifyAt_widget cols a b blurW ci wi col' w' hci hwi
  rcases hcase with ⟨heq, hnres⟩ | ⟨heq, _, _⟩
  · subst heq
    obtain ⟨ha, hb⟩ := hinv ci col wi w' hc hw hfoc
    apply hnres
    have hcl : ci < cols.length := (List.get?_eq_some.mp hc).1
    have hwl : wi < col.length := (List.get?_eq_some.mp hw).1
    constructor
    · rw [← ha, pyIdx_nonneg _ _ (by omega) (by exact_mod_cast hcl),
        Int.toNat_natCast]
    · rw [← hb, pyIdx_nonneg _ _ (by omega) (by exact_mod_cast hwl),
        Int.toNat_natCast]
  · subst heq
    simp [blurW] at hfoc

/-- Focusing at a non-negative position of a clean column set focuses only
that position. -/
theorem OnlyAt_focusAt (cols : List (List Widg)) (a b : Int)
    (hclean : cleanCols cols = true) (ha : 0 ≤ a) (hb : 0 ≤ b) :
    OnlyAt (modifyAt cols a b focusW) a b := by
  intro ci col' wi w' hci hwi hfoc
  obtain ⟨col, w, hc, hw, hcase⟩ :=
    modifyAt_widget cols a b focusW ci wi col' w' hci hwi
  rcases hcase with ⟨heq, _⟩ | ⟨heq, hia, hib⟩
  · subst heq
    rw [cleanCols_get cols hclean ci wi col w' hc hw] at hfoc
    cases hfoc
  · exact ⟨(pyIdx_some_nonneg _ _ _ ha hia).symm,
      (pyIdx_some_nonneg _ _ _ hb hib).symm⟩

/-- Overwriting the widget at the only possibly-focused position with a
widget of the same `_has_focus` flag preserves the focus discipline. -/
theorem OnlyAt_write (cols : List (List Widg)) (a b : Int) (v : Widg)
    (hinv : OnlyAt cols a b)
    (hv : ∀ x, pyGet2 cols a b = some x → v.hasFocus = x.hasFocus) :
    OnlyAt (modifyAt cols a b (fun _ => v)) a b := by
  intro ci col' wi w' hci hwi hfoc
  obtain ⟨col, w, hc, hw, hcase⟩ :=
    modifyAt_widget cols a b (fun _ => v) ci wi col' w' hci hwi
  rcases hcase with ⟨heq, _⟩ | ⟨heq, hia, hib⟩
  · subst heq
    exact hinv ci col wi w' hc hw hfoc
  · have hget2 : pyGet2 cols a b = some w := by
      rw [pyGet2, pyGet, hia, Option.some_bind, hc, Option.some_bind, pyGet, hib,
        Option.some_bind, hw]
    have hfw : w.hasFocus = true := by
      rw [← hv w hget2]
      rw [heq] at hfoc
      exact hfoc
    exact hinv ci col wi w hc hw hfw

/-- `layoutTabs` is unchanged by rewriting the stored widget at one position
with one of equal `tab_stop`. -/
theorem layoutTabs_modifyAt2 (cols : List (List Widg)) (a b : Int)
    (f : Widg → Widg)
    (hf : ∀ x, pyGet2 cols a b = some x → (f x).tabStop = x.tabStop) :
    layoutTabs (modifyAt cols a b f) = layoutTabs cols := by
  rw [modifyAt]
  cases hx : pyIdx cols.length a with
  | none => simp only [pyModify, hx]
  | some n =>
    cases hc : cols.get? n with
    | none => simp only [pyModify, hx, hc]
    | some col =>
      simp only [pyModify, hx, hc]
      apply layoutTabs_set cols n col _ hc
      cases hy : pyIdx col.length b with
      | none => simp only [pyModify, hy]
      | some m =>
        cases hw : col.get? m with
        | none => simp only [pyModify, hy, hw]
        | some x =>
          simp only [pyModify, hy, hw]
          apply colTabs_set col m x (f x) hw
          apply hf
          rw [pyGet2, pyGet, hx, Option.some_bind, hc, Option.some_bind, pyGet,
            hy, Option.some_bind, hw]

/-- A forward target returned by `nextPosF` is a real tab-stop position. -/
theorem nextPosF_entry (cols : List (List Widg)) (lc s ci wi : Nat)
    (h : nextPosF cols lc s = some (ci, wi)) :
    ∃ col w, cols.get? ci = some col ∧ col.get? wi = some w ∧
      w.tabStop = true := by
  cases hg : cols.get? lc with
  | none =>
    simp only [nextPosF.eq_def, hg] at h
    exact Option.noConfusion h
  | some ws =>
    simp only [nextPosF.eq_def, hg] at h
    cases hf : firstTabFrom ws s with
    | some j =>
      simp only [hf, Option.some.injEq, Prod.mk.injEq] at h
      obtain ⟨h1, h2⟩ := h
      subst h1
      subst h2
      obtain ⟨_, w, hw, htab⟩ := firstTabFrom_some ws s j hf
      exact ⟨ws, w, hg, hw, htab⟩
    | none =>
      simp only [hf] at h
      cases hp : firstTabPos (cols.drop (lc + 1)) with
      | none =>
        rw [hp] at h
        cases h
      | some p =>
        rw [hp, Option.map_some'] at h
        simp only [Option.some.injEq, Prod.mk.injEq] at h
        obtain ⟨h1, h2⟩ := h
        subst h1
        subst h2
        have hmem : (p.1, p.2) ∈ layoutTabs (cols.drop (lc + 1)) := by
          rw [firstTabPos_eq_head] at hp
          exact List.mem_of_mem_head? (show (p.1, p.2) ∈
            (layoutTabs (cols.drop (lc + 1))).head? from by
              rw [hp]
              exact Option.mem_def.mpr rfl)
        obtain ⟨ws', hws', hcolt⟩ :=
          (mem_layoutTabs (cols.drop (lc + 1)) p.1 p.2).mp hmem
        obtain ⟨w, hw, htab⟩ := (mem_colTabs ws' p.2).mp hcolt
        refine ⟨ws', w, ?_, hw, htab⟩
        have h7 : cols.get? (p.1 + (lc + 1)) = (cols.drop (lc + 1)).get? p.1 := by
          rw [List.get?_drop]
          congr 1
          omega
        rw [h7, hws']

/-- A backward target returned by `prevPosB` is a real tab-stop position. -/
theorem prevPosB_entry (cols : List (List Widg)) (lc e ci wi : Nat)
    (h : prevPosB cols lc e = some (ci, wi)) :
    ∃ col w, cols.get? ci = some col ∧ col.get? wi = some w ∧
      w.tabStop = true := by
  cases hg : cols.get? lc with
  | none =>
    simp only [prevPosB.eq_def, hg] at h
    exact Option.noConfusion h
  | some ws =>
    simp only [prevPosB.eq_def, hg] at h
    cases hf : lastTab (ws.take e) with
    | some j =>
      simp only [hf, Option.some.injEq, Prod.mk.injEq] at h
      obtain ⟨h1, h2⟩ := h
      subst h1
      subst h2
      obtain ⟨w, hw, htab⟩ := lastTab_some (ws.take e) j hf
      have hjlt : j < (ws.take e).length := (List.get?_eq_some.mp hw).1
      have hjlt2 : j < e := by
        rw [List.length_take] at hjlt
        omega
      rw [List.get?_take hjlt2] at hw
      exact ⟨ws, w, hg, hw, htab⟩
    | none =>
      simp only [hf] at h
      have hmem : (ci, wi) ∈ layoutTabs (cols.take lc) := by
        rw [lastTabPos_eq_getLast] at h
        exact List.mem_of_getLast?_eq_some h
      obtain ⟨ws', hws', hcolt⟩ := (mem_layoutTabs (cols.take lc) ci wi).mp hmem
      obtain ⟨w, hw, htab⟩ := (mem_colTabs ws' wi).mp hcolt
      have hcilt : ci < (cols.take lc).length := (List.get?_eq_some.mp hws').1
      have hcilt2 : ci < lc := by
        rw [List.length_take] at hcilt
        omega
      rw [List.get?_take hcilt2] at hws'
      exact ⟨ws', w, hws', hw, htab⟩

end Widgets
